import Mathlib

/-!
Verification of the 8-puzzle core of `src/src/App.tsx` (HWSearch).

The source represents a puzzle state as a length-9 array of the numbers
0..8 (0 = blank), row-major over a 3x3 grid. The core operations embedded
here, each translated directly from the TypeScript source:

* `GOAL`        — the goal configuration `[1,2,3,4,5,6,7,8,0]`;
* `manhattan`   — sum over tiles 1..8 of grid Manhattan distance to goal;
* `neighbors`   — legal successor states (slide one tile into the blank);
* `inversions` / `isSolvable` — the parity-based solvability classifier;
* `shuffleSolvable` — Fisher–Yates scramble plus parity repair;
* `aStar`       — best-first (A*) search with linear-scan pop-min,
  a best-cost map and a parent map, embedded with explicit fuel for the
  `while` loop (fuel exhaustion is distinguished from the loop's own
  `null` result, and termination is proved separately).

Sources of deliberate modelling choices:
* JS arrays become `List ℕ`; the destructuring swap
  `[t[z],t[nz]] = [t[nz],t[z]]` becomes `swapAt` (two `List.set` writes,
  both reading from the original list, as in JS where the right-hand side
  is evaluated first).
* The source keys its `Map`s by `key(s) = s.join(",")`, an injective
  encoding of configurations whose decode (`split(",").map(Number)`) is
  applied at every read; maps are therefore keyed here by the
  configuration itself.
* `Math.floor(Math.random()*(i+1))` yields an arbitrary number in `0..i`;
  the random source becomes an explicit function argument `rand` with the
  hypothesis `rand i ≤ i`.
* `Array.prototype.indexOf` returns `-1` when the value is absent while
  `List.indexOf` returns the length; both are out-of-range sentinels and
  the two agree on every input that contains the sought value (every
  valid configuration contains 0, so the difference is unobservable in
  the properties proved here).
-/

/-- A puzzle configuration: the source's `State` (length-9 array,
0 = blank). Validity (`Configuration invariant`) is `List.Perm GOAL`. -/
abbrev Config := List ℕ

/-- `GOAL` from the source: tiles in reading order, blank last. -/
def GOAL : Config := [1, 2, 3, 4, 5, 6, 7, 8, 0]

/-- The JS destructuring swap `[t[i],t[j]] = [t[j],t[i]]` on an array:
both right-hand reads happen before the writes. -/
def swapAt (l : List ℕ) (i j : ℕ) : List ℕ :=
  (l.set i (l.getD j 0)).set j (l.getD i 0)

/-- `manhattan` from the source: sum over tiles `v = 1..8` of
`|i/3 - gi/3| + |i%3 - gi%3|` where `i` is the tile's index and
`gi = v - 1` its goal index. -/
def manhattan (s : Config) : ℕ :=
  ([1, 2, 3, 4, 5, 6, 7, 8].map (fun v =>
    let i := s.indexOf v
    let gi := v - 1
    ((i : ℤ) / 3 - (gi : ℤ) / 3).natAbs + ((i : ℤ) % 3 - (gi : ℤ) % 3).natAbs)).sum

/-- `neighbors` from the source: locate the blank `z`, try the four
deltas `[1,0], [-1,0], [0,1], [0,-1]` (down, up, right, left) in that
order, skip out-of-grid candidates (`continue` becomes `filterMap`
returning `none`), and otherwise swap the blank with the candidate
cell. -/
def neighbors (s : Config) : List Config :=
  let z := s.indexOf 0
  let r := z / 3
  let c := z % 3
  [((1 : ℤ), (0 : ℤ)), (-1, 0), (0, 1), (0, -1)].filterMap (fun d =>
    let nr : ℤ := (r : ℤ) + d.1
    let nc : ℤ := (c : ℤ) + d.2
    if nr < 0 ∨ nr > 2 ∨ nc < 0 ∨ nc > 2 then none
    else some (swapAt s z (nr * 3 + nc).toNat))

/-- The inner double loop of `inversions`, structurally: for each element
`x`, count the later elements `y` with `x > y`, and recurse. -/
def invCount : List ℕ → ℕ
  | [] => 0
  | x :: xs => xs.countP (fun y => decide (y < x)) + invCount xs

/-- `inversions` from the source: drop the blank (`filter x !== 0`), then
count out-of-order pairs. -/
def inversions (s : Config) : ℕ :=
  invCount (s.filter (fun x => decide (x ≠ 0)))

/-- `isSolvable` from the source: even inversion count. -/
def isSolvable (s : Config) : Bool :=
  inversions s % 2 == 0

/-- `shuffleSolvable` from the source. The Fisher–Yates loop runs
`i = 8, 7, ..., 1`, swapping `a[i]` with `a[rand i]` where the source
draws `rand i = Math.floor(Math.random()*(i+1)) ∈ [0, i]`; the random
source is passed in explicitly. If the scramble is unsolvable, the
positions of the tiles labelled 1 and 2 are swapped. -/
def shuffleSolvable (rand : ℕ → ℕ) : Config :=
  let a := [8, 7, 6, 5, 4, 3, 2, 1].foldl (fun a i => swapAt a i (rand i)) GOAL
  if ¬ isSolvable a then swapAt a (a.indexOf 1) (a.indexOf 2) else a

/-- `tryMove` from the source (the UI's click handler, minus the `busy`
re-entrancy flag, which only gates animation): accept a clicked grid
index `i` iff the Manhattan distance between the blank's cell and cell
`i` is exactly 1, and then swap them. A rejected click leaves the state
unchanged (`none`). -/
def tryMove (state : Config) (i : ℕ) : Option Config :=
  let z := state.indexOf 0
  if ((z : ℤ) / 3 - (i : ℤ) / 3).natAbs + ((z : ℤ) % 3 - (i : ℤ) % 3).natAbs ≠ 1 then none
  else some (swapAt state z i)

-- Sanity checks on concrete inputs (mirroring quick runs of the source).
example : neighbors GOAL = [[1, 2, 3, 4, 5, 0, 7, 8, 6], [1, 2, 3, 4, 5, 6, 7, 0, 8]] := by
  decide

example : inversions [2, 1, 3, 4, 5, 6, 7, 8, 0] = 1 := by decide

example : isSolvable GOAL = true := by decide

example : isSolvable [2, 1, 3, 4, 5, 6, 7, 8, 0] = false := by decide

example : manhattan [8, 1, 2, 7, 0, 3, 6, 5, 4] = 14 := by decide

example : shuffleSolvable (fun _ => 0) = [1, 3, 4, 5, 6, 7, 8, 0, 2] := by decide

example : isSolvable (shuffleSolvable (fun _ => 0)) = true := by decide

example : tryMove GOAL 5 = some [1, 2, 3, 4, 5, 0, 7, 8, 6] := by decide

example : tryMove GOAL 4 = none := by decide

/-! ### List combinatorics: inversion counts under swaps -/

/-- Unfolding lemma for `invCount` at a cons. -/
theorem invCount_cons (x : ℕ) (xs : List ℕ) :
    invCount (x :: xs) = xs.countP (fun y => decide (y < x)) + invCount xs := rfl

/-- Splitting an inversion count at an append: inversions within each
part plus the cross pairs. -/
theorem invCount_append (A B : List ℕ) :
    invCount (A ++ B) =
      invCount A + invCount B + (A.map (fun a => B.countP (fun y => decide (y < a)))).sum := by
  induction A with
  | nil => simp [invCount]
  | cons x A ih =>
    rw [List.cons_append, invCount_cons, invCount_cons, List.countP_append, ih,
      List.map_cons, List.sum_cons]
    omega

/-- Trichotomy count: among elements all different from `x`, each is
either below or above `x`. -/
theorem countP_lt_add_countP_gt (B : List ℕ) (x : ℕ) (h : ∀ b ∈ B, b ≠ x) :
    B.countP (fun y => decide (y < x)) + B.countP (fun y => decide (x < y)) = B.length := by
  induction B with
  | nil => simp
  | cons b B ih =>
    have hb : b ≠ x := h b (by simp)
    have hB : ∀ c ∈ B, c ≠ x := fun c hc => h c (by simp [hc])
    have hih := ih hB
    rcases Nat.lt_trichotomy b x with hlt | heq | hgt
    · have h2 : ¬ (x < b) := Nat.not_lt.2 (Nat.le_of_lt hlt)
      simp [List.countP_cons, hlt, h2]
      omega
    · exact absurd heq hb
    · have h1 : ¬ (b < x) := Nat.not_lt.2 (Nat.le_of_lt hgt)
      simp [List.countP_cons, h1, hgt]
      omega

/-- Sum of a map of pointwise sums. -/
theorem sum_map_add (l : List ℕ) (f g : ℕ → ℕ) :
    (l.map (fun b => f b + g b)).sum = (l.map f).sum + (l.map g).sum := by
  induction l with
  | nil => simp
  | cons b l ih =>
    simp only [List.map_cons, List.sum_cons, ih]
    omega

/-- A sum of indicator values is a `countP`. -/
theorem sum_map_ite_lt (l : List ℕ) (x : ℕ) :
    (l.map (fun b => if x < b then 1 else 0)).sum = l.countP (fun b => decide (x < b)) := by
  induction l with
  | nil => simp
  | cons b l ih =>
    rw [List.map_cons, List.sum_cons, List.countP_cons, ih]
    by_cases hb : x < b
    · simp [hb]; omega
    · simp [hb]

/-- `countP` of a cons, with the indicator written as an `if` on the
underlying proposition. -/
theorem countP_cons_lt (b x : ℕ) (C : List ℕ) :
    (b :: C).countP (fun y => decide (y < x)) =
      (if b < x then 1 else 0) + C.countP (fun y => decide (y < x)) := by
  rw [List.countP_cons]
  by_cases hb : b < x
  · simp [hb]; omega
  · simp [hb]

/-- Prefixing both lists of a parity comparison by the same prefix
preserves the comparison, provided the two suffixes are permutations of
one another (the cross terms only see the suffix's multiset). -/
theorem invCount_add_parity_append_left (A Y₁ Y₂ : List ℕ) (hp : List.Perm Y₁ Y₂) (r : ℕ)
    (h : (invCount Y₁ + invCount Y₂) % 2 = r) :
    (invCount (A ++ Y₁) + invCount (A ++ Y₂)) % 2 = r := by
  have hS : (A.map (fun a => Y₁.countP (fun y => decide (y < a)))).sum =
      (A.map (fun a => Y₂.countP (fun y => decide (y < a)))).sum := by
    apply congrArg
    exact List.map_congr_left (fun a _ => hp.countP_eq _)
  rw [invCount_append, invCount_append, hS]
  omega

/-- Moving one element `x` across a block `B` (no element of which
equals `x`) changes the inversion count by `B.length` modulo 2. -/
theorem invCount_move_core (B C : List ℕ) (x : ℕ) (hx : ∀ b ∈ B, b ≠ x) :
    (invCount (B ++ x :: C) + invCount (x :: (B ++ C))) % 2 = B.length % 2 := by
  have h1 := invCount_append B (x :: C)
  have h2 : invCount (x :: (B ++ C)) =
      (B ++ C).countP (fun y => decide (y < x)) + invCount (B ++ C) := invCount_cons x _
  have h3 := invCount_append B C
  have h4 : (B.map (fun b => (x :: C).countP (fun y => decide (y < b)))).sum =
      B.countP (fun b => decide (x < b)) +
        (B.map (fun b => C.countP (fun y => decide (y < b)))).sum := by
    have he : ∀ b ∈ B, (x :: C).countP (fun y => decide (y < b)) =
        (if x < b then 1 else 0) + C.countP (fun y => decide (y < b)) :=
      fun b _ => countP_cons_lt x b C
    rw [List.map_congr_left he, sum_map_add, sum_map_ite_lt]
  have h5 : invCount (x :: C) = C.countP (fun y => decide (y < x)) + invCount C :=
    invCount_cons x C
  have h6 := List.countP_append (fun y => decide (y < x)) B C
  have h7 := countP_lt_add_countP_gt B x hx
  omega

/-- Swapping two distinct elements `u`, `v` around a block `B` (which
contains neither) flips the parity of the inversion count. -/
theorem invCount_swap_core (B C : List ℕ) (u v : ℕ) (huv : u ≠ v)
    (hu : ∀ b ∈ B, b ≠ u) (hv : ∀ b ∈ B, b ≠ v) :
    (invCount (u :: (B ++ v :: C)) + invCount (v :: (B ++ u :: C))) % 2 = 1 := by
  have expand : ∀ a b : ℕ,
      invCount (a :: (B ++ b :: C)) =
        B.countP (fun y => decide (y < a)) + (if b < a then 1 else 0) +
          C.countP (fun y => decide (y < a)) +
          invCount B + C.countP (fun y => decide (y < b)) + invCount C +
          B.countP (fun y => decide (b < y)) +
          (B.map (fun t => C.countP (fun y => decide (y < t)))).sum := by
    intro a b
    have e1 : invCount (a :: (B ++ b :: C)) =
        (B ++ b :: C).countP (fun y => decide (y < a)) + invCount (B ++ b :: C) :=
      invCount_cons a _
    have e2 := List.countP_append (fun y => decide (y < a)) B (b :: C)
    have e2' := countP_cons_lt b a C
    have e3 := invCount_append B (b :: C)
    have e4 : invCount (b :: C) = C.countP (fun y => decide (y < b)) + invCount C :=
      invCount_cons b C
    have e5 : (B.map (fun t => (b :: C).countP (fun y => decide (y < t)))).sum =
        B.countP (fun t => decide (b < t)) +
          (B.map (fun t => C.countP (fun y => decide (y < t)))).sum := by
      have he : ∀ t ∈ B, (b :: C).countP (fun y => decide (y < t)) =
          (if b < t then 1 else 0) + C.countP (fun y => decide (y < t)) :=
        fun t _ => countP_cons_lt b t C
      rw [List.map_congr_left he, sum_map_add, sum_map_ite_lt]
    omega
  have E1 := expand u v
  have E2 := expand v u
  have hq1 := countP_lt_add_countP_gt B u hu
  have hq2 := countP_lt_add_countP_gt B v hv
  have hlt : (if v < u then 1 else 0) + (if u < v then 1 else 0) = 1 := by
    rcases Nat.lt_trichotomy u v with h | h | h
    · simp [h, Nat.not_lt.2 (Nat.le_of_lt h)]
    · exact absurd h huv
    · simp [h, Nat.not_lt.2 (Nat.le_of_lt h)]
  omega

/-! ### Decomposing a list around one or two positions, and `swapAt` -/

/-- Reading at the junction of an append. -/
theorem getD_append_length (A R : List ℕ) (x : ℕ) :
    (A ++ x :: R).getD A.length 0 = x := by
  induction A with
  | nil => simp
  | cons a A ih => simpa using ih

/-- Writing at the junction of an append. -/
theorem set_append_length (A R : List ℕ) (x w : ℕ) :
    (A ++ x :: R).set A.length w = A ++ w :: R := by
  induction A with
  | nil => simp
  | cons a A ih => simp [ih]

/-- Splitting a list at one position. -/
theorem exists_split (l : List ℕ) (j : ℕ) (hj : j < l.length) :
    ∃ B x C, l = B ++ x :: C ∧ B.length = j := by
  induction l generalizing j with
  | nil => simp at hj
  | cons a l ih =>
    cases j with
    | zero => exact ⟨[], a, l, rfl, rfl⟩
    | succ j =>
      obtain ⟨B, x, C, h1, h2⟩ := ih j (by simpa using hj)
      exact ⟨a :: B, x, C, by simp [h1], by simp [h2]⟩

/-- Splitting a list at two positions `i < j`. -/
theorem exists_split2 (l : List ℕ) (i j : ℕ) (hij : i < j) (hj : j < l.length) :
    ∃ A x B y C, l = A ++ x :: (B ++ y :: C) ∧ A.length = i ∧ B.length = j - i - 1 := by
  obtain ⟨B, y, C, h1, h2⟩ := exists_split l j hj
  have hiB : i < B.length := h2 ▸ hij
  obtain ⟨A, x, B2, h3, h4⟩ := exists_split B i hiB
  refine ⟨A, x, B2, y, C, ?_, h4, ?_⟩
  · rw [h1, h3]
    simp
  · have hlen : B.length = A.length + (B2.length + 1) := by
      rw [h3]
      simp
    omega

/-- The element sitting at the junction of a split. -/
theorem getElem_split_val (A C : List ℕ) (x : ℕ) (h : A.length < (A ++ x :: C).length) :
    (A ++ x :: C)[A.length] = x := by
  induction A with
  | nil => simp
  | cons a A ih => simpa using ih (by simp)

/-- Reassociating a two-point split. -/
theorem split2_assoc (A B C : List ℕ) (x y : ℕ) :
    A ++ x :: (B ++ y :: C) = (A ++ x :: B) ++ y :: C := by
  simp

/-- `swapAt` on a two-point split, first index smaller. -/
theorem swapAt_split2_lt (A B C : List ℕ) (x y : ℕ) :
    swapAt (A ++ x :: (B ++ y :: C)) A.length (A.length + B.length + 1) =
      A ++ y :: (B ++ x :: C) := by
  have hlen : (A ++ x :: B).length = A.length + B.length + 1 := by
    simp
    omega
  have hlen2 : (A ++ y :: B).length = A.length + B.length + 1 := by
    simp
    omega
  have hgety : (A ++ x :: (B ++ y :: C)).getD (A.length + B.length + 1) 0 = y := by
    rw [split2_assoc, ← hlen, getD_append_length]
  have hgetx : (A ++ x :: (B ++ y :: C)).getD A.length 0 = x := getD_append_length _ _ _
  show ((A ++ x :: (B ++ y :: C)).set A.length _).set (A.length + B.length + 1) _ = _
  rw [hgety, hgetx, set_append_length, split2_assoc A B C y y, ← hlen2, set_append_length,
    ← split2_assoc]

/-- `swapAt` on a two-point split, first index larger. -/
theorem swapAt_split2_gt (A B C : List ℕ) (x y : ℕ) :
    swapAt (A ++ x :: (B ++ y :: C)) (A.length + B.length + 1) A.length =
      A ++ y :: (B ++ x :: C) := by
  have hlen : (A ++ x :: B).length = A.length + B.length + 1 := by
    simp
    omega
  have hgety : (A ++ x :: (B ++ y :: C)).getD (A.length + B.length + 1) 0 = y := by
    rw [split2_assoc, ← hlen, getD_append_length]
  have hgetx : (A ++ x :: (B ++ y :: C)).getD A.length 0 = x := getD_append_length _ _ _
  show ((A ++ x :: (B ++ y :: C)).set (A.length + B.length + 1) _).set A.length _ = _
  rw [hgety, hgetx, split2_assoc A B C x y, ← hlen, set_append_length,
    ← split2_assoc A B C x x, set_append_length]

/-- Writing back the element already present is a no-op. -/
theorem set_getD_self (l : List ℕ) (i : ℕ) : l.set i (l.getD i 0) = l := by
  induction l generalizing i with
  | nil => simp
  | cons a l ih =>
    cases i with
    | zero => simp
    | succ i => simpa using ih i

/-- `swapAt` with two in-range indices permutes the list. -/
theorem swapAt_perm (l : List ℕ) (i j : ℕ) (hi : i < l.length) (hj : j < l.length) :
    List.Perm (swapAt l i j) l := by
  have key : ∀ (A B C : List ℕ) (x y : ℕ),
      List.Perm (A ++ y :: (B ++ x :: C)) (A ++ x :: (B ++ y :: C)) := by
    intro A B C x y
    refine List.Perm.append_left A ?_
    exact (List.Perm.cons y List.perm_middle).trans
      ((List.Perm.swap x y _).trans (List.Perm.cons x List.perm_middle.symm))
  rcases Nat.lt_trichotomy i j with h | h | h
  · obtain ⟨A, x, B, y, C, hdec, hA, hB⟩ := exists_split2 l i j h hj
    subst hA
    have hj2 : j = A.length + B.length + 1 := by omega
    subst hj2
    rw [hdec, swapAt_split2_lt]
    exact key A B C x y
  · subst h
    have h1 : l.set i (l.getD i 0) = l := set_getD_self l i
    show ((l.set i (l.getD i 0)).set i (l.getD i 0)).Perm l
    rw [h1, h1]
  · obtain ⟨A, x, B, y, C, hdec, hA, hB⟩ := exists_split2 l j i h hi
    subst hA
    have hi2 : i = A.length + B.length + 1 := by omega
    subst hi2
    rw [hdec, swapAt_split2_gt]
    exact key A B C x y

/-- The element after the block in a two-point split. -/
theorem getElem_split2_snd (A B C : List ℕ) (x y : ℕ)
    (h : A.length + B.length + 1 < (A ++ x :: (B ++ y :: C)).length) :
    (A ++ x :: (B ++ y :: C))[A.length + B.length + 1] = y := by
  induction A with
  | nil => simpa using getElem_split_val B C y (by simp)
  | cons a A ih => simpa [Nat.add_right_comm] using ih (by simp; omega)

/-- Two-point split, with the split values identified as the elements at
those positions. -/
theorem exists_split2_at (l : List ℕ) (i j : ℕ) (hij : i < j) (hj : j < l.length)
    (hi : i < l.length) :
    ∃ A B C, l = A ++ l[i] :: (B ++ l[j] :: C) ∧
      A.length = i ∧ B.length = j - i - 1 := by
  obtain ⟨A, x, B, y, C, hdec, hA, hB⟩ := exists_split2 l i j hij hj
  subst hdec
  subst hA
  have hj3 : j = A.length + B.length + 1 := by
    simp at hj
    omega
  subst hj3
  refine ⟨A, B, C, ?_, rfl, by omega⟩
  have hb1 : A.length < (A ++ x :: (B ++ y :: C)).length := by simp
  have hb2 : A.length + B.length + 1 < (A ++ x :: (B ++ y :: C)).length := by
    simp
    omega
  have hx : (A ++ x :: (B ++ y :: C))[A.length] = x := getElem_split_val _ _ _ hb1
  have hy : (A ++ x :: (B ++ y :: C))[A.length + B.length + 1] = y :=
    getElem_split2_snd A B C x y hb2
  rw [hx, hy]

/-- A cons commutes with an interior element, as a permutation. -/
theorem perm_cons_block (B C : List ℕ) (x y : ℕ) :
    List.Perm (y :: (B ++ x :: C)) (x :: (B ++ y :: C)) :=
  (List.Perm.cons y List.perm_middle).trans
    ((List.Perm.swap x y _).trans (List.Perm.cons x List.perm_middle.symm))

/-! ### Valid configurations -/

/-- Length of a valid configuration. -/
theorem valid_length {s : Config} (hs : List.Perm s GOAL) : s.length = 9 :=
  hs.length_eq

/-- Every value of `GOAL` occurs exactly once in a valid configuration. -/
theorem valid_count {s : Config} (hs : List.Perm s GOAL) {v : ℕ} (hv : v ∈ GOAL) :
    s.count v = 1 := by
  have h : ∀ w ∈ GOAL, GOAL.count w = 1 := by decide
  rw [hs.count_eq]
  exact h v hv

/-- A valid configuration contains the blank. -/
theorem valid_mem_zero {s : Config} (hs : List.Perm s GOAL) : 0 ∈ s :=
  hs.mem_iff.2 (by decide)

/-- A valid configuration has no duplicates. -/
theorem valid_nodup {s : Config} (hs : List.Perm s GOAL) : s.Nodup :=
  (by decide : GOAL.Nodup).perm hs.symm

/-- The blank's index in a valid configuration is in range. -/
theorem valid_indexOf_zero_lt {s : Config} (hs : List.Perm s GOAL) :
    s.indexOf 0 < 9 := by
  have := List.indexOf_lt_length.2 (valid_mem_zero hs)
  rwa [valid_length hs] at this

/-- The blank really sits at its index. -/
theorem valid_getElem_indexOf_zero {s : Config} (hs : List.Perm s GOAL)
    (h : s.indexOf 0 < s.length) :
    s[s.indexOf 0] = 0 :=
  List.getElem_indexOf (List.indexOf_lt_length.2 (valid_mem_zero hs))

/-! ### A canonical form for `neighbors` -/

/-- The candidate blank destinations computed by `neighbors`, as a
function of the blank's index alone, in the source's fixed direction
order down, up, right, left. -/
def cand (z : ℕ) : List ℕ :=
  [((1 : ℤ), (0 : ℤ)), (-1, 0), (0, 1), (0, -1)].filterMap (fun d =>
    let nr : ℤ := ((z / 3 : ℕ) : ℤ) + d.1
    let nc : ℤ := ((z % 3 : ℕ) : ℤ) + d.2
    if nr < 0 ∨ nr > 2 ∨ nc < 0 ∨ nc > 2 then none
    else some (nr * 3 + nc).toNat)

/-- `neighbors` is the map of the blank-swap over the candidate list. -/
theorem neighbors_eq_map (s : Config) :
    neighbors s = (cand (s.indexOf 0)).map (fun j => swapAt s (s.indexOf 0) j) := by
  simp only [neighbors, cand]
  rw [List.map_filterMap]
  congr 1
  funext d
  split_ifs with hc
  · rfl
  · rfl

/-- The candidate list in closed form: down (`z+3`), up (`z-3`), right
(`z+1`), left (`z-1`), each guarded by its grid-boundary test. -/
def downUpRightLeft (z : ℕ) : List ℕ :=
  (if z / 3 + 1 ≤ 2 then [z + 3] else []) ++ (if 1 ≤ z / 3 then [z - 3] else []) ++
    (if z % 3 + 1 ≤ 2 then [z + 1] else []) ++ (if 1 ≤ z % 3 then [z - 1] else [])

theorem cand_eq_downUpRightLeft : ∀ z < 9, cand z = downUpRightLeft z := by decide

theorem cand_mem_facts :
    ∀ z < 9, ∀ j ∈ cand z, j < 9 ∧ j ≠ z ∧ (j = z + 3 ∨ z = j + 3 ∨ j = z + 1 ∨ z = j + 1) := by
  decide

theorem cand_nodup : ∀ z < 9, (cand z).Nodup := by decide

theorem cand_not_mem_self : ∀ z < 9, z ∉ cand z := by decide

theorem cand_length :
    ∀ z < 9, (cand z).length =
      (if z = 0 ∨ z = 2 ∨ z = 6 ∨ z = 8 then 2 else if z = 4 then 4 else 3) := by
  decide

/-- The grid adjacency relation of the specification: the two cells'
rows and columns differ by a total of one. -/
abbrev gridAdj (z j : ℕ) : Prop :=
  Nat.dist (z / 3) (j / 3) + Nat.dist (z % 3) (j % 3) = 1

theorem cand_gridAdj : ∀ z < 9, ∀ j ∈ cand z, gridAdj z j := by decide

/-- `swapAt` preserves length. -/
theorem length_swapAt (l : List ℕ) (i j : ℕ) : (swapAt l i j).length = l.length := by
  simp [swapAt]

/-- After a swap, position `j` holds the old element of position `i`. -/
theorem swapAt_getElem_snd (l : List ℕ) (i j : ℕ) (hi : i < l.length) (hj : j < l.length)
    (hb : j < (swapAt l i j).length) :
    (swapAt l i j)[j] = l[i] := by
  unfold swapAt
  rw [List.getElem_set_self (by simpa), List.getD_eq_getElem l 0 hi]

/-- A swap does not touch positions other than `i` and `j`. -/
theorem swapAt_getElem_other (l : List ℕ) (i j k : ℕ) (hk : k < l.length)
    (hki : k ≠ i) (hkj : k ≠ j) (hb : k < (swapAt l i j).length) :
    (swapAt l i j)[k] = l[k] := by
  unfold swapAt
  rw [List.getElem_set_ne (Ne.symm hkj), List.getElem_set_ne (Ne.symm hki)]

/-- Swapping the blank to position `j` puts the blank at position `j`. -/
theorem swapAt_zero_indexOf (s : Config) (hs : List.Perm s GOAL) (j : ℕ) (hj : j < 9) :
    (swapAt s (s.indexOf 0) j).indexOf 0 = j := by
  have hlen := valid_length hs
  have hz9 := valid_indexOf_zero_lt hs
  have hperm : List.Perm (swapAt s (s.indexOf 0) j) GOAL :=
    (swapAt_perm s _ j (by omega) (by omega)).trans hs
  have hnd := valid_nodup hperm
  have hb : j < (swapAt s (s.indexOf 0) j).length := by
    rw [length_swapAt]
    omega
  have hget : (swapAt s (s.indexOf 0) j)[j] = 0 := by
    rw [swapAt_getElem_snd s _ j (by omega) (by omega) hb]
    exact valid_getElem_indexOf_zero hs (by omega)
  have := List.indexOf_getElem hnd j hb
  rwa [hget] at this

/-- The neighbour produced by swapping the blank to candidate `j` is a
valid configuration. -/
theorem neighbor_valid (s : Config) (hs : List.Perm s GOAL) (j : ℕ) (hj : j < 9) :
    List.Perm (swapAt s (s.indexOf 0) j) GOAL := by
  have hlen := valid_length hs
  have hz9 := valid_indexOf_zero_lt hs
  exact (swapAt_perm s _ j (by omega) (by omega)).trans hs

/-- Working form of the `neighbors` characterisation: counts by blank
position, validity and adjacent-swap shape of every result,
duplicate-freeness, and the fixed candidate order. -/
theorem neighbors_full (s : Config) (hs : List.Perm s GOAL) :
    ((s.indexOf 0 = 0 ∨ s.indexOf 0 = 2 ∨ s.indexOf 0 = 6 ∨ s.indexOf 0 = 8 →
        (neighbors s).length = 2) ∧
      (s.indexOf 0 = 1 ∨ s.indexOf 0 = 3 ∨ s.indexOf 0 = 5 ∨ s.indexOf 0 = 7 →
        (neighbors s).length = 3) ∧
      (s.indexOf 0 = 4 → (neighbors s).length = 4)) ∧
    (∀ n ∈ neighbors s, List.Perm n GOAL ∧
      ∃ j, j < 9 ∧ gridAdj (s.indexOf 0) j ∧ n = swapAt s (s.indexOf 0) j) ∧
    (neighbors s).Nodup ∧
    (neighbors s).map (fun n => n.indexOf 0) = downUpRightLeft (s.indexOf 0) := by
  have hz9 : s.indexOf 0 < 9 := valid_indexOf_zero_lt hs
  rw [neighbors_eq_map]
  refine ⟨⟨?_, ?_, ?_⟩, ?_, ?_, ?_⟩
  · intro h
    rw [List.length_map, cand_length _ hz9]
    rcases h with h | h | h | h <;> simp [h]
  · intro h
    rw [List.length_map, cand_length _ hz9]
    rcases h with h | h | h | h <;> simp [h]
  · intro h
    rw [List.length_map, cand_length _ hz9]
    simp [h]
  · intro n hn
    obtain ⟨j, hj, rfl⟩ := List.mem_map.1 hn
    obtain ⟨hj9, -, -⟩ := cand_mem_facts _ hz9 j hj
    exact ⟨neighbor_valid s hs j hj9, j, hj9, cand_gridAdj _ hz9 j hj, rfl⟩
  · refine (cand_nodup _ hz9).map_on ?_
    intro j hj j2 hj2 he
    obtain ⟨hj9, hjz, _⟩ := cand_mem_facts _ hz9 j hj
    obtain ⟨hj29, hj2z, _⟩ := cand_mem_facts _ hz9 j2 hj2
    have h1 := swapAt_zero_indexOf s hs j hj9
    have h2 := swapAt_zero_indexOf s hs j2 hj29
    rw [← h1, ← h2, he]
  · rw [List.map_map]
    have : ∀ j ∈ cand (s.indexOf 0),
        ((fun n => n.indexOf 0) ∘ fun j => swapAt s (s.indexOf 0) j) j = j := by
      intro j hj
      obtain ⟨hj9, hjz, _⟩ := cand_mem_facts _ hz9 j hj
      exact swapAt_zero_indexOf s hs j hj9
    rw [List.map_congr_left this]
    simpa using cand_eq_downUpRightLeft _ hz9

/-- **C5.** For a valid configuration, `neighbors` returns 2, 3 or 4
configurations according to the blank's position (corner, edge, center);
every returned configuration is a valid permutation of 0..8 obtained
from the input by swapping the blank with one grid-adjacent cell; no two
returned configurations are equal; and the candidates are produced in
the fixed order down, up, right, left (witnessed by the list of
resulting blank positions). The input itself is not modified — the
embedding is purely functional, matching the source's copy-then-swap
(`s.slice()`). -/
theorem neighbors_spec (s : Config) (hs : List.Perm s GOAL) :
    ((s.indexOf 0 = 0 ∨ s.indexOf 0 = 2 ∨ s.indexOf 0 = 6 ∨ s.indexOf 0 = 8 →
        (neighbors s).length = 2) ∧
      (s.indexOf 0 = 1 ∨ s.indexOf 0 = 3 ∨ s.indexOf 0 = 5 ∨ s.indexOf 0 = 7 →
        (neighbors s).length = 3) ∧
      (s.indexOf 0 = 4 → (neighbors s).length = 4)) ∧
    (∀ n ∈ neighbors s, List.Perm n GOAL ∧
      ∃ j, j < 9 ∧ gridAdj (s.indexOf 0) j ∧ n = swapAt s (s.indexOf 0) j) ∧
    (neighbors s).Nodup ∧
    (neighbors s).map (fun n => n.indexOf 0) = downUpRightLeft (s.indexOf 0) :=
  neighbors_full s hs

/-- Witness for `neighbors_spec` at the goal configuration. -/
theorem neighbors_spec_witness :
    List.Perm GOAL GOAL ∧
    (((GOAL.indexOf 0 = 0 ∨ GOAL.indexOf 0 = 2 ∨ GOAL.indexOf 0 = 6 ∨ GOAL.indexOf 0 = 8 →
        (neighbors GOAL).length = 2) ∧
      (GOAL.indexOf 0 = 1 ∨ GOAL.indexOf 0 = 3 ∨ GOAL.indexOf 0 = 5 ∨ GOAL.indexOf 0 = 7 →
        (neighbors GOAL).length = 3) ∧
      (GOAL.indexOf 0 = 4 → (neighbors GOAL).length = 4)) ∧
    (∀ n ∈ neighbors GOAL, List.Perm n GOAL ∧
      ∃ j, j < 9 ∧ gridAdj (GOAL.indexOf 0) j ∧ n = swapAt GOAL (GOAL.indexOf 0) j) ∧
    (neighbors GOAL).Nodup ∧
    (neighbors GOAL).map (fun n => n.indexOf 0) = downUpRightLeft (GOAL.indexOf 0)) :=
  ⟨List.Perm.refl GOAL, neighbors_spec GOAL (List.Perm.refl GOAL)⟩

/-- The distinctness facts carried by a duplicate-free two-point split. -/
theorem nodup_split2_facts (A B C : List ℕ) (x w : ℕ) (hnd : (A ++ x :: (B ++ w :: C)).Nodup) :
    x ∉ A ∧ x ∉ B ∧ x ∉ C ∧ w ≠ x ∧ w ∉ A ∧ w ∉ B ∧ w ∉ C := by
  simp only [List.nodup_append, List.nodup_cons, List.mem_append, List.mem_cons] at hnd
  obtain ⟨-, ⟨hx, -, ⟨hwC, -⟩, hdisjB⟩, hdisjA⟩ := hnd
  push_neg at hx
  obtain ⟨hxB, hxw, hxC⟩ := hx
  refine ⟨?_, hxB, hxC, fun h => hxw h.symm, ?_, ?_, hwC⟩
  · intro hxA
    exact (hdisjA hxA) (List.mem_cons_self x _)
  · intro hwA
    exact (hdisjA hwA) (List.mem_cons_of_mem x (List.mem_append_right B (List.mem_cons_self w C)))
  · intro hwB
    exact (hdisjB hwB) (List.mem_cons_self w C)

/-- Filtering out the blank from a blank-free list is the identity. -/
theorem filter_ne_zero_eq (l : List ℕ) (h : 0 ∉ l) :
    l.filter (fun x => decide (x ≠ 0)) = l := by
  refine List.filter_eq_self.2 (fun x hx => ?_)
  simp only [ne_eq, decide_not, Bool.not_eq_true', decide_eq_false_iff_not,
    Decidable.not_not]
  intro hx0
  exact h (hx0 ▸ hx)

/-- Swapping the blank across an even-length block does not change the
parity of `inversions`. -/
theorem parity_key (A B C : List ℕ) (w : ℕ) (hw : w ≠ 0)
    (h0A : 0 ∉ A) (h0B : 0 ∉ B) (h0C : 0 ∉ C) (hwB : w ∉ B) (hBlen : B.length % 2 = 0) :
    inversions (A ++ 0 :: (B ++ w :: C)) % 2 = inversions (A ++ w :: (B ++ 0 :: C)) % 2 := by
  have hL : (A ++ 0 :: (B ++ w :: C)).filter (fun x => decide (x ≠ 0)) =
      A ++ (B ++ w :: C) := by
    rw [List.filter_append, filter_ne_zero_eq A h0A, List.filter_cons]
    rw [if_neg (by simp), List.filter_append, filter_ne_zero_eq B h0B, List.filter_cons]
    rw [if_pos (by simpa using hw), filter_ne_zero_eq C h0C]
  have hR : (A ++ w :: (B ++ 0 :: C)).filter (fun x => decide (x ≠ 0)) =
      A ++ w :: (B ++ C) := by
    rw [List.filter_append, filter_ne_zero_eq A h0A, List.filter_cons]
    rw [if_pos (by simpa using hw), List.filter_append, filter_ne_zero_eq B h0B,
      List.filter_cons]
    rw [if_neg (by simp), filter_ne_zero_eq C h0C]
  have hmove := invCount_move_core B C w (fun b hb heq => hwB (heq ▸ hb))
  have hsum := invCount_add_parity_append_left A (B ++ w :: C) (w :: (B ++ C))
    List.perm_middle (B.length % 2) hmove
  unfold inversions
  rw [hL, hR]
  omega

/-- Working form of parity invariance under one move. -/
theorem parity_invariant_full (s : Config) (hs : List.Perm s GOAL) :
    ∀ n ∈ neighbors s, inversions n % 2 = inversions s % 2 ∧ isSolvable n = isSolvable s := by
  intro n hn
  suffices h : inversions n % 2 = inversions s % 2 by
    refine ⟨h, ?_⟩
    unfold isSolvable
    rw [h]
  have hz9 := valid_indexOf_zero_lt hs
  have hlen := valid_length hs
  rw [neighbors_eq_map] at hn
  obtain ⟨j, hj, rfl⟩ := List.mem_map.1 hn
  obtain ⟨hj9, hjz, hstep⟩ := cand_mem_facts _ hz9 j hj
  have hbz : s.indexOf 0 < s.length := by omega
  have hx0 : s[s.indexOf 0] = 0 := valid_getElem_indexOf_zero hs hbz
  rcases Nat.lt_or_ge (s.indexOf 0) j with hlt | hge
  · -- blank to the left of the swapped tile
    obtain ⟨A, B, C, hdec, hA, hB⟩ := exists_split2_at s (s.indexOf 0) j hlt (by omega) (by omega)
    rw [hx0] at hdec
    have hbj : j < s.length := by omega
    obtain ⟨w, hgw⟩ : ∃ w, s[j] = w := ⟨_, rfl⟩
    rw [hgw] at hdec
    have hBlen : B.length % 2 = 0 := by
      rcases hstep with h | h | h | h <;> omega
    obtain ⟨h0A, h0B, h0C, hw0, -, hwB, -⟩ :=
      nodup_split2_facts A B C 0 w (hdec ▸ valid_nodup hs)
    have hswap : swapAt s (s.indexOf 0) j = A ++ w :: (B ++ 0 :: C) := by
      rw [show s.indexOf 0 = A.length from hA.symm,
        show j = A.length + B.length + 1 from by omega, hdec]
      exact swapAt_split2_lt A B C 0 w
    rw [hswap, hdec]
    exact (parity_key A B C w hw0 h0A h0B h0C hwB hBlen).symm
  · -- blank to the right of the swapped tile
    have hlt2 : j < s.indexOf 0 := by omega
    obtain ⟨A, B, C, hdec, hA, hB⟩ := exists_split2_at s j (s.indexOf 0) hlt2 (by omega) (by omega)
    rw [hx0] at hdec
    have hbj : j < s.length := by omega
    obtain ⟨w, hgw⟩ : ∃ w, s[j] = w := ⟨_, rfl⟩
    rw [hgw] at hdec
    have hBlen : B.length % 2 = 0 := by
      rcases hstep with h | h | h | h <;> omega
    obtain ⟨hwA, hwB, hwC, h0w, h0A, h0B, h0C⟩ :=
      nodup_split2_facts A B C w 0 (hdec ▸ valid_nodup hs)
    have hw0 : w ≠ 0 := fun h => h0w h.symm
    have hswap : swapAt s (s.indexOf 0) j = A ++ 0 :: (B ++ w :: C) := by
      rw [show s.indexOf 0 = A.length + B.length + 1 from by omega,
        show j = A.length from hA.symm, hdec]
      exact swapAt_split2_gt A B C w 0
    rw [hswap, hdec]
    exact parity_key A B C w hw0 h0A h0B h0C hwB hBlen

/-- **C10.** Inversion parity is invariant under legal moves: every
neighbour of a valid configuration has the same inversion parity, hence
the same solvability classification. -/
theorem neighbors_parity_invariant (s : Config) (hs : List.Perm s GOAL) :
    ∀ n ∈ neighbors s, inversions n % 2 = inversions s % 2 ∧ isSolvable n = isSolvable s :=
  parity_invariant_full s hs

/-- Witness for `neighbors_parity_invariant` at the goal configuration. -/
theorem neighbors_parity_invariant_witness :
    List.Perm GOAL GOAL ∧
    (∀ n ∈ neighbors GOAL,
      inversions n % 2 = inversions GOAL % 2 ∧ isSolvable n = isSolvable GOAL) :=
  ⟨List.Perm.refl GOAL, neighbors_parity_invariant GOAL (List.Perm.refl GOAL)⟩

/-! ### The scramble generator -/

/-- Any sequence of in-range swaps keeps the state a permutation of the
goal. -/
theorem foldl_swap_perm (rand : ℕ → ℕ) (idxs : List ℕ) (a : Config)
    (ha : List.Perm a GOAL) (hall : ∀ i ∈ idxs, i < 9 ∧ rand i ≤ i) :
    List.Perm (idxs.foldl (fun b i => swapAt b i (rand i)) a) GOAL := by
  induction idxs generalizing a with
  | nil => simpa using ha
  | cons i idxs ih =>
    have hi := hall i (by simp)
    have hlen : a.length = 9 := valid_length ha
    exact ih _ ((swapAt_perm a i (rand i) (by omega) (by omega)).trans ha)
      (fun t ht => hall t (by simp [ht]))

/-- Swapping the tiles labelled 1 and 2 flips the parity of the
inversion count (stated as: the two counts sum to something odd). -/
theorem swap12_parity (A B C : List ℕ) (h1B : 1 ∉ B) (h2B : 2 ∉ B) :
    (inversions (A ++ 1 :: (B ++ 2 :: C)) + inversions (A ++ 2 :: (B ++ 1 :: C))) % 2 = 1 := by
  unfold inversions
  have hp1 : (fun x => decide (x ≠ 0)) 1 = true := by decide
  have hp2 : (fun x => decide (x ≠ 0)) 2 = true := by decide
  have hf1 : (A ++ 1 :: (B ++ 2 :: C)).filter (fun x => decide (x ≠ 0)) =
      A.filter (fun x => decide (x ≠ 0)) ++ 1 ::
        (B.filter (fun x => decide (x ≠ 0)) ++ 2 :: C.filter (fun x => decide (x ≠ 0))) := by
    rw [List.filter_append, List.filter_cons, if_pos hp1, List.filter_append,
      List.filter_cons, if_pos hp2]
  have hf2 : (A ++ 2 :: (B ++ 1 :: C)).filter (fun x => decide (x ≠ 0)) =
      A.filter (fun x => decide (x ≠ 0)) ++ 2 ::
        (B.filter (fun x => decide (x ≠ 0)) ++ 1 :: C.filter (fun x => decide (x ≠ 0))) := by
    rw [List.filter_append, List.filter_cons, if_pos hp2, List.filter_append,
      List.filter_cons, if_pos hp1]
  rw [hf1, hf2]
  have hu : ∀ b ∈ B.filter (fun x => decide (x ≠ 0)), b ≠ 1 :=
    fun b hb he => h1B (he ▸ List.mem_of_mem_filter hb)
  have hv : ∀ b ∈ B.filter (fun x => decide (x ≠ 0)), b ≠ 2 :=
    fun b hb he => h2B (he ▸ List.mem_of_mem_filter hb)
  have hcore := invCount_swap_core (B.filter (fun x => decide (x ≠ 0)))
    (C.filter (fun x => decide (x ≠ 0))) 1 2 (by decide) hu hv
  have := invCount_add_parity_append_left (A.filter (fun x => decide (x ≠ 0)))
    (1 :: (B.filter (fun x => decide (x ≠ 0)) ++ 2 :: C.filter (fun x => decide (x ≠ 0))))
    (2 :: (B.filter (fun x => decide (x ≠ 0)) ++ 1 :: C.filter (fun x => decide (x ≠ 0))))
    (perm_cons_block _ _ 2 1) 1 hcore
  omega

/-- The parity-repair swap of the scramble generator: on an odd-parity
valid configuration, swapping the positions of tiles 1 and 2 yields a
solvable valid configuration. -/
theorem repair_solvable (a : Config) (ha : List.Perm a GOAL) (hodd : inversions a % 2 = 1) :
    List.Perm (swapAt a (a.indexOf 1) (a.indexOf 2)) GOAL ∧
    isSolvable (swapAt a (a.indexOf 1) (a.indexOf 2)) = true := by
  have h1m : (1 : ℕ) ∈ a := ha.mem_iff.2 (by decide)
  have h2m : (2 : ℕ) ∈ a := ha.mem_iff.2 (by decide)
  have hi1 : a.indexOf 1 < a.length := List.indexOf_lt_length.2 h1m
  have hi2 : a.indexOf 2 < a.length := List.indexOf_lt_length.2 h2m
  have hget1 : a[a.indexOf 1] = 1 := List.getElem_indexOf hi1
  have hget2 : a[a.indexOf 2] = 2 := List.getElem_indexOf hi2
  have hne : a.indexOf 1 ≠ a.indexOf 2 := by
    intro h
    have e1 : a[a.indexOf 1]? = some 1 := by rw [List.getElem?_eq_getElem hi1, hget1]
    have e2 : a[a.indexOf 2]? = some 2 := by rw [List.getElem?_eq_getElem hi2, hget2]
    rw [h, e2] at e1
    simp at e1
  refine ⟨(swapAt_perm a _ _ hi1 hi2).trans ha, ?_⟩
  rcases Nat.lt_or_gt_of_ne hne with hlt | hgt
  · obtain ⟨A, B, C, hdec, hA, hB⟩ := exists_split2_at a (a.indexOf 1) (a.indexOf 2) hlt hi2 (by omega)
    rw [hget1, hget2] at hdec
    obtain ⟨-, h1B, -, -, -, h2B, -⟩ := nodup_split2_facts A B C 1 2 (hdec ▸ valid_nodup ha)
    have hswap : swapAt a (a.indexOf 1) (a.indexOf 2) = A ++ 2 :: (B ++ 1 :: C) := by
      rw [show a.indexOf 1 = A.length from hA.symm,
        show a.indexOf 2 = A.length + B.length + 1 from by omega, hdec]
      exact swapAt_split2_lt A B C 1 2
    have hsum := swap12_parity A B C h1B h2B
    have ha2 : inversions (A ++ 1 :: (B ++ 2 :: C)) % 2 = 1 := by
      rw [← hdec]
      exact hodd
    have heven : inversions (A ++ 2 :: (B ++ 1 :: C)) % 2 = 0 := by omega
    unfold isSolvable
    rw [hswap, heven]
    rfl
  · obtain ⟨A, B, C, hdec, hA, hB⟩ := exists_split2_at a (a.indexOf 2) (a.indexOf 1) hgt hi1 (by omega)
    rw [hget1, hget2] at hdec
    obtain ⟨-, h2B, -, -, -, h1B, -⟩ := nodup_split2_facts A B C 2 1 (hdec ▸ valid_nodup ha)
    have hswap : swapAt a (a.indexOf 1) (a.indexOf 2) = A ++ 1 :: (B ++ 2 :: C) := by
      rw [show a.indexOf 1 = A.length + B.length + 1 from by omega,
        show a.indexOf 2 = A.length from hA.symm, hdec]
      exact swapAt_split2_gt A B C 2 1
    have hsum := swap12_parity A B C h1B h2B
    have ha2 : inversions (A ++ 2 :: (B ++ 1 :: C)) % 2 = 1 := by
      rw [← hdec]
      exact hodd
    have heven : inversions (A ++ 1 :: (B ++ 2 :: C)) % 2 = 0 := by omega
    unfold isSolvable
    rw [hswap, heven]
    rfl

/-- The conditional parity repair, on any valid configuration. -/
theorem shuffle_core (a : Config) (ha : List.Perm a GOAL) :
    List.Perm (if ¬ isSolvable a then swapAt a (a.indexOf 1) (a.indexOf 2) else a) GOAL ∧
    isSolvable (if ¬ isSolvable a then swapAt a (a.indexOf 1) (a.indexOf 2) else a) = true := by
  by_cases hsol : isSolvable a = true
  · rw [if_neg (by simp [hsol])]
    exact ⟨ha, hsol⟩
  · rw [if_pos (by simp [hsol])]
    have hodd : inversions a % 2 = 1 := by
      unfold isSolvable at hsol
      simp at hsol
      omega
    exact repair_solvable a ha hodd

/-- **C3.** For every outcome of the random source (each draw in range,
as `Math.floor(Math.random()*(i+1))` guarantees), `shuffleSolvable`
returns a valid configuration (a permutation of 0..8) that satisfies
`isSolvable`. -/
theorem shuffleSolvable_spec (rand : ℕ → ℕ) (hr : ∀ i, rand i ≤ i) :
    List.Perm (shuffleSolvable rand) GOAL ∧ isSolvable (shuffleSolvable rand) = true := by
  have hmem : ∀ i ∈ [8, 7, 6, 5, 4, 3, 2, 1], i < 9 := by decide
  have ha : List.Perm ([8, 7, 6, 5, 4, 3, 2, 1].foldl (fun a i => swapAt a i (rand i)) GOAL)
      GOAL :=
    foldl_swap_perm rand _ GOAL (List.Perm.refl GOAL) (fun i hi => ⟨hmem i hi, hr i⟩)
  have hdef : shuffleSolvable rand =
      (if ¬ isSolvable ([8, 7, 6, 5, 4, 3, 2, 1].foldl (fun a i => swapAt a i (rand i)) GOAL)
        then swapAt ([8, 7, 6, 5, 4, 3, 2, 1].foldl (fun a i => swapAt a i (rand i)) GOAL)
          (([8, 7, 6, 5, 4, 3, 2, 1].foldl (fun a i => swapAt a i (rand i)) GOAL).indexOf 1)
          (([8, 7, 6, 5, 4, 3, 2, 1].foldl (fun a i => swapAt a i (rand i)) GOAL).indexOf 2)
        else [8, 7, 6, 5, 4, 3, 2, 1].foldl (fun a i => swapAt a i (rand i)) GOAL) := rfl
  rw [hdef]
  exact shuffle_core _ ha

/-- Witness for `shuffleSolvable_spec` with the all-zeros random
source. -/
theorem shuffleSolvable_spec_witness :
    (∀ i, (fun _ => 0) i ≤ i) ∧
    (List.Perm (shuffleSolvable (fun _ => 0)) GOAL ∧
      isSolvable (shuffleSolvable (fun _ => 0)) = true) :=
  ⟨fun i => Nat.zero_le i, shuffleSolvable_spec (fun _ => 0) (fun i => Nat.zero_le i)⟩

/-! ### The click-to-move handler -/

/-- `swapAt` at equal indices is the identity. -/
theorem swapAt_self (l : List ℕ) (i : ℕ) : swapAt l i i = l := by
  show (l.set i (l.getD i 0)).set i (l.getD i 0) = l
  rw [set_getD_self, set_getD_self]

/-- The Manhattan-distance-1 guard of `tryMove` accepts exactly the
candidate cells of the move generator. -/
theorem tryMove_guard_iff :
    ∀ z < 9, ∀ i < 9,
      ((((z : ℕ) : ℤ) / 3 - ((i : ℕ) : ℤ) / 3).natAbs +
        (((z : ℕ) : ℤ) % 3 - ((i : ℕ) : ℤ) % 3).natAbs = 1 ↔ i ∈ cand z) := by
  decide

/-- **C9.** The UI's click-to-move legality test is equivalent to the
move generator's: for a valid configuration and a grid index `i`,
`tryMove` accepts `i` iff swapping the blank with cell `i` yields an
element of `neighbors`, and an accepted click produces exactly that
element. -/
theorem tryMove_spec (s : Config) (hs : List.Perm s GOAL) (i : ℕ) (hi : i < 9) :
    ((tryMove s i).isSome = true ↔ swapAt s (s.indexOf 0) i ∈ neighbors s) ∧
    (∀ t, tryMove s i = some t → t = swapAt s (s.indexOf 0) i ∧ t ∈ neighbors s) := by
  have hz9 := valid_indexOf_zero_lt hs
  by_cases hg : (((s.indexOf 0 : ℕ) : ℤ) / 3 - ((i : ℕ) : ℤ) / 3).natAbs +
      (((s.indexOf 0 : ℕ) : ℤ) % 3 - ((i : ℕ) : ℤ) % 3).natAbs = 1
  · have htm : tryMove s i = some (swapAt s (s.indexOf 0) i) := by
      unfold tryMove
      rw [if_neg (by simp [hg])]
    have hcand : i ∈ cand (s.indexOf 0) := (tryMove_guard_iff _ hz9 i hi).1 hg
    have hmem : swapAt s (s.indexOf 0) i ∈ neighbors s := by
      rw [neighbors_eq_map]
      exact List.mem_map_of_mem _ hcand
    refine ⟨⟨fun _ => hmem, fun _ => by rw [htm]; rfl⟩, ?_⟩
    intro t ht
    rw [htm] at ht
    have he := Option.some.inj ht
    exact ⟨he.symm, he ▸ hmem⟩
  · have htm : tryMove s i = none := by
      unfold tryMove
      rw [if_pos hg]
    have hnotmem : swapAt s (s.indexOf 0) i ∉ neighbors s := by
      intro hmem
      rw [neighbors_eq_map] at hmem
      obtain ⟨j, hj, he⟩ := List.mem_map.1 hmem
      obtain ⟨hj9, hjz, -⟩ := cand_mem_facts _ hz9 j hj
      by_cases hiz : i = s.indexOf 0
      · subst hiz
        rw [swapAt_self] at he
        have h1 : (swapAt s (s.indexOf 0) j).indexOf 0 = j :=
          swapAt_zero_indexOf s hs j hj9
        rw [he] at h1
        exact hjz h1.symm
      · have h1 : (swapAt s (s.indexOf 0) j).indexOf 0 = j :=
          swapAt_zero_indexOf s hs j hj9
        have h2 : (swapAt s (s.indexOf 0) i).indexOf 0 = i :=
          swapAt_zero_indexOf s hs i hi
        rw [he, h2] at h1
        exact hg ((tryMove_guard_iff _ hz9 i hi).2 (h1 ▸ hj))
    refine ⟨⟨?_, ?_⟩, ?_⟩
    · intro hsome
      rw [htm] at hsome
      simp at hsome
    · intro hmem
      exact absurd hmem hnotmem
    · intro t ht
      rw [htm] at ht
      simp at ht

/-! ### The A* solver

The `while` loop of `aStar` is embedded with explicit fuel: `none` means
the fuel ran out (the loop would have kept running), `some none` is the
source's `null` (open set exhausted: unsolvable), `some (some path)` is
a returned solution path. Termination — that some finite fuel always
suffices — is proved separately (`aStar_terminates`). The source keys
its maps by the injective string encoding `key(s) = s.join(",")` and
decodes on every read; the embedding keys them by the configuration
itself. -/

/-- A search node: estimated total cost `f = g + h`, cost so far `g`,
and the configuration. -/
structure Node where
  f : ℕ
  g : ℕ
  s : Config

/-- `Map.get` on an insertion-ordered association list. -/
def mapGet {α : Type} : List (Config × α) → Config → Option α
  | [], _ => none
  | (k, v) :: rest, q => if k = q then some v else mapGet rest q

/-- `Map.set` on an insertion-ordered association list: overwrite the
existing entry or append a new one. -/
def mapSet {α : Type} : List (Config × α) → Config → α → List (Config × α)
  | [], k, v => [(k, v)]
  | (k2, v2) :: rest, k, v =>
    if k2 = k then (k, v) :: rest else (k2, v2) :: mapSet rest k v

/-- The source's `popMin`: linear scan for the first node of strictly
minimal `f`, removed from the open list (`splice`). `b` is the scan's
current best, initially the first element. -/
def popMin (b : Node) (l : List Node) : Node × List Node :=
  match l with
  | [] => (b, [])
  | x :: xs =>
    if x.f < b.f then
      let p := popMin x xs
      (p.1, b :: p.2)
    else
      let p := popMin b xs
      (p.1, x :: p.2)

/-- The solver's working state: open list, parent map, best-cost map. -/
structure SState where
  opn : List Node
  parent : List (Config × Option Config)
  gbest : List (Config × ℕ)

/-- One neighbour relaxation: if undiscovered or strictly improved,
record cost and parent and push a node (JS `open.push`, appending). -/
def expandOne (g : ℕ) (sk : Config) (st : SState) (n : Config) : SState :=
  let ng := g + 1
  match mapGet st.gbest n with
  | none =>
    { opn := st.opn ++ [⟨ng + manhattan n, ng, n⟩],
      parent := mapSet st.parent n (some sk),
      gbest := mapSet st.gbest n ng }
  | some old =>
    if ng < old then
      { opn := st.opn ++ [⟨ng + manhattan n, ng, n⟩],
        parent := mapSet st.parent n (some sk),
        gbest := mapSet st.gbest n ng }
    else st

/-- The `for (const n of neighbors(s))` loop. -/
def expandAll (g : ℕ) (sk : Config) (ns : List Config) (st : SState) : SState :=
  ns.foldl (expandOne g sk) st

/-- Path reconstruction by following parent links (`while
(parent.get(cur))`). The JS loop terminates only because the parent
chain is acyclic; the fuel `parent.length` dominates the length of any
acyclic chain through the map. -/
def reconstructAux : ℕ → List (Config × Option Config) → Config → List Config
  | 0, _, _ => []
  | fuel + 1, parent, cur =>
    match mapGet parent cur with
    | some (some p) => cur :: reconstructAux fuel parent p
    | _ => []

/-- Reconstruct and reverse, as in the source. -/
def reconstruct (parent : List (Config × Option Config)) (cur : Config) : List Config :=
  (reconstructAux parent.length parent cur).reverse

/-- The solver's `while (open.length)` loop, with explicit fuel. -/
def loopFuel : ℕ → SState → Option (Option (List Config))
  | 0, _ => none
  | fuel + 1, st =>
    match st.opn with
    | [] => some none
    | x :: xs =>
      let p := popMin x xs
      if p.1.s = GOAL then some (some (reconstruct st.parent p.1.s))
      else loopFuel fuel
        (expandAll p.1.g p.1.s (neighbors p.1.s) { st with opn := p.2 })

/-- `aStar` from the source: the early goal test, then the search from
the initial open list `[{f: h0, g: 0, s: start}]` with `parent[start] =
null` and `gbest[start] = 0`. -/
def aStar (start : Config) (fuel : ℕ) : Option (Option (List Config)) :=
  if start = GOAL then some (some [])
  else loopFuel fuel
    { opn := [⟨manhattan start, 0, start⟩],
      parent := [(start, none)],
      gbest := [(start, 0)] }

/-- The early identity test: `aStar` on the goal with any fuel. -/
theorem aStar_goal_eq : ∀ fuel : ℕ, aStar GOAL fuel = some (some []) := by
  intro fuel
  simp [aStar]

/-- **C8.** `solve(goal)` returns the empty sequence (for any fuel: the
early identity test fires before the loop). -/
theorem aStar_goal_empty : ∀ fuel : ℕ, aStar GOAL fuel = some (some []) :=
  aStar_goal_eq

/-! ### Map and popMin lemmas -/

theorem mapGet_eq_none_iff {α : Type} (m : List (Config × α)) (k : Config) :
    mapGet m k = none ↔ k ∉ m.map Prod.fst := by
  induction m with
  | nil => simp [mapGet]
  | cons p rest ih =>
    obtain ⟨k2, v2⟩ := p
    by_cases hk : k2 = k
    · subst hk
      simp [mapGet]
    · simp [mapGet, hk, ih, Ne.symm hk]

theorem mapSet_absent {α : Type} (m : List (Config × α)) (k : Config) (v : α)
    (h : mapGet m k = none) : mapSet m k v = m ++ [(k, v)] := by
  induction m with
  | nil => simp [mapSet]
  | cons p rest ih =>
    obtain ⟨k2, v2⟩ := p
    by_cases hk : k2 = k
    · subst hk
      simp [mapGet] at h
    · simp only [mapGet, if_neg hk] at h
      simp [mapSet, hk, ih h]

theorem mapSet_present_keys {α : Type} (m : List (Config × α)) (k : Config) (v : α) (old : α)
    (h : mapGet m k = some old) : (mapSet m k v).map Prod.fst = m.map Prod.fst := by
  induction m with
  | nil => simp [mapGet] at h
  | cons p rest ih =>
    obtain ⟨k2, v2⟩ := p
    by_cases hk : k2 = k
    · subst hk
      simp [mapSet]
    · simp only [mapGet, if_neg hk] at h
      simp [mapSet, hk, ih h]

theorem mapSet_present_sum (m : List (Config × ℕ)) (k : Config) (v : ℕ) (old : ℕ)
    (h : mapGet m k = some old) :
    ((mapSet m k v).map Prod.snd).sum + old = (m.map Prod.snd).sum + v := by
  induction m with
  | nil => simp [mapGet] at h
  | cons p rest ih =>
    obtain ⟨k2, v2⟩ := p
    by_cases hk : k2 = k
    · subst hk
      simp [mapGet] at h
      subst h
      simp [mapSet]
      omega
    · simp only [mapGet, if_neg hk] at h
      have := ih h
      simp [mapSet, hk]
      omega

theorem mapSet_mem {α : Type} (m : List (Config × α)) (k : Config) (v : α) :
    ∀ p ∈ mapSet m k v, p = (k, v) ∨ p ∈ m := by
  induction m with
  | nil => simp [mapSet]
  | cons q rest ih =>
    obtain ⟨k2, v2⟩ := q
    intro p hp
    by_cases hk : k2 = k
    · subst hk
      simp only [mapSet, if_true, List.mem_cons, eq_self_iff_true, if_pos] at hp
      rcases hp with h | h
      · exact Or.inl h
      · exact Or.inr (List.mem_cons_of_mem _ h)
    · simp only [mapSet, if_neg hk, List.mem_cons] at hp
      rcases hp with h | h
      · exact Or.inr (by simp [h])
      · rcases ih p h with h2 | h2
        · exact Or.inl h2
        · exact Or.inr (List.mem_cons_of_mem _ h2)

theorem mapSet_keys_nodup {α : Type} (m : List (Config × α)) (k : Config) (v : α)
    (hnd : (m.map Prod.fst).Nodup) : ((mapSet m k v).map Prod.fst).Nodup := by
  cases h : mapGet m k with
  | none =>
    rw [mapSet_absent m k v h]
    have hk : k ∉ m.map Prod.fst := (mapGet_eq_none_iff m k).1 h
    simp only [List.map_append, List.map_cons, List.map_nil]
    rw [List.nodup_append]
    refine ⟨hnd, by simp, ?_⟩
    intro a ha hmem
    simp only [List.mem_singleton] at hmem
    exact hk (hmem ▸ ha)
  | some old =>
    rw [mapSet_present_keys m k v old h]
    exact hnd

theorem mapSet_absent_length {α : Type} (m : List (Config × α)) (k : Config) (v : α)
    (h : mapGet m k = none) : (mapSet m k v).length = m.length + 1 := by
  rw [mapSet_absent m k v h]
  simp

theorem mapSet_present_length {α : Type} (m : List (Config × α)) (k : Config) (v : α) (old : α)
    (h : mapGet m k = some old) : (mapSet m k v).length = m.length := by
  have h1 : ((mapSet m k v).map Prod.fst).length = (m.map Prod.fst).length := by
    rw [mapSet_present_keys m k v old h]
  simpa using h1

/-- The popped node and the remaining open list permute the input. -/
theorem popMin_perm (b : Node) (l : List Node) :
    List.Perm ((popMin b l).1 :: (popMin b l).2) (b :: l) := by
  induction l generalizing b with
  | nil => simp [popMin]
  | cons x xs ih =>
    by_cases h : x.f < b.f
    · simp only [popMin, if_pos h]
      exact (List.Perm.swap b (popMin x xs).1 (popMin x xs).2).trans
        (List.Perm.cons b (ih x))
    · simp only [popMin, if_neg h]
      exact ((List.Perm.swap x (popMin b xs).1 (popMin b xs).2).trans
        (List.Perm.cons x (ih b))).trans (List.Perm.swap b x xs)

/-! ### Termination of the search loop -/

/-- The loop invariant: every configuration in the open list and in the
best-cost map is a permutation of the goal, and the best-cost map's keys
are distinct. -/
def InvState (st : SState) : Prop :=
  (∀ nd ∈ st.opn, List.Perm nd.s GOAL) ∧
  (∀ p ∈ st.gbest, List.Perm p.1 GOAL) ∧
  (st.gbest.map Prod.fst).Nodup

/-- Total recorded cost, part of the termination measure. -/
def gbestSum (st : SState) : ℕ := (st.gbest.map Prod.snd).sum

/-- A duplicate-free list of valid configurations has at most `9^9`
elements (each one is determined by its nine entries, all below 9). -/
theorem valid_keys_length_le (keys : List Config) (hnd : keys.Nodup)
    (hval : ∀ k ∈ keys, List.Perm k GOAL) : keys.length ≤ 9 ^ 9 := by
  have hlt9 : ∀ x ∈ GOAL, x < 9 := by decide
  have hinj : ∀ k1 ∈ keys, ∀ k2 ∈ keys,
      (fun (l : Config) => (fun i : Fin 9 => (⟨l.getD i 0 % 9, Nat.mod_lt _ (by omega)⟩ : Fin 9)))
          k1 =
        (fun (l : Config) => (fun i : Fin 9 => (⟨l.getD i 0 % 9, Nat.mod_lt _ (by omega)⟩ :
          Fin 9))) k2 → k1 = k2 := by
    intro k1 h1 k2 h2 he
    have hl1 : k1.length = 9 := valid_length (hval k1 h1)
    have hl2 : k2.length = 9 := valid_length (hval k2 h2)
    refine List.ext_getElem (by omega) ?_
    intro i hi1 hi2
    have hi9 : i < 9 := by omega
    have he2 := congrFun he ⟨i, hi9⟩
    simp only [Fin.mk.injEq] at he2
    have hg1 : k1.getD i 0 = k1[i] := List.getD_eq_getElem k1 0 hi1
    have hg2 : k2.getD i 0 = k2[i] := List.getD_eq_getElem k2 0 hi2
    have hb1 : k1[i] < 9 := hlt9 _ ((hval k1 h1).mem_iff.1 (k1.getElem_mem hi1))
    have hb2 : k2[i] < 9 := hlt9 _ ((hval k2 h2).mem_iff.1 (k2.getElem_mem hi2))
    rw [hg1, hg2] at he2
    rw [Nat.mod_eq_of_lt hb1, Nat.mod_eq_of_lt hb2] at he2
    exact he2
  have hnd2 := hnd.map_on hinj
  have := hnd2.length_le_card
  simpa using this

/-- Under the invariant, the best-cost map cannot outgrow the encoding
bound. -/
theorem inv_gbest_length_le (st : SState) (h : InvState st) : st.gbest.length ≤ 9 ^ 9 := by
  have := valid_keys_length_le (st.gbest.map Prod.fst) h.2.2 ?_
  · simpa using this
  · intro k hk
    obtain ⟨p, hp, rfl⟩ := List.mem_map.1 hk
    exact h.2.1 p hp

/-- Strict decrease on the (undiscovered-count, total-cost) pair. -/
def meas2Rel (a b : ℕ × ℕ) : Prop := a.1 < b.1 ∨ (a.1 = b.1 ∧ a.2 < b.2)

theorem meas2Rel_trans {a b c : ℕ × ℕ} (h1 : meas2Rel a b) (h2 : meas2Rel b c) :
    meas2Rel a c := by
  rcases h1 with h1 | ⟨h1, h1b⟩ <;> rcases h2 with h2 | ⟨h2, h2b⟩ <;>
    [exact Or.inl (by omega); exact Or.inl (by omega); exact Or.inl (by omega);
      exact Or.inr (by omega)]

/-- The three-component termination measure: undiscovered-count bound,
total recorded cost, open-list length. -/
def meas (st : SState) : ℕ × ℕ × ℕ := (9 ^ 9 - st.gbest.length, gbestSum st, st.opn.length)

def measRel (a b : ℕ × ℕ × ℕ) : Prop :=
  a.1 < b.1 ∨ (a.1 = b.1 ∧ (a.2.1 < b.2.1 ∨ (a.2.1 = b.2.1 ∧ a.2.2 < b.2.2)))

theorem measRel_wf : WellFounded measRel := by
  have hlex : WellFounded (Prod.Lex (· < · : ℕ → ℕ → Prop)
      (Prod.Lex (· < · : ℕ → ℕ → Prop) (· < · : ℕ → ℕ → Prop))) :=
    (Nat.lt_wfRel.wf).prod_lex ((Nat.lt_wfRel.wf).prod_lex (Nat.lt_wfRel.wf))
  refine Subrelation.wf ?_ hlex
  intro a b h
  obtain ⟨a1, a2, a3⟩ := a
  obtain ⟨b1, b2, b3⟩ := b
  rcases h with h | ⟨h1, h | ⟨h2, h3⟩⟩
  · exact Prod.Lex.left _ _ h
  · subst h1
    exact Prod.Lex.right _ (Prod.Lex.left _ _ h)
  · subst h1
    subst h2
    exact Prod.Lex.right _ (Prod.Lex.right _ h3)

/-- One relaxation step: the invariant is preserved, the
(undiscovered, total-cost) measure strictly drops unless nothing
happened, and the open list is only appended to with copies of the
relaxed neighbour. -/
theorem expandOne_step (g : ℕ) (sk : Config) (st : SState) (n : Config)
    (hn : List.Perm n GOAL) (hInv : InvState st) :
    InvState (expandOne g sk st n) ∧
    (expandOne g sk st n = st ∨
      meas2Rel (9 ^ 9 - (expandOne g sk st n).gbest.length, gbestSum (expandOne g sk st n))
        (9 ^ 9 - st.gbest.length, gbestSum st)) ∧
    ∃ tail, (expandOne g sk st n).opn = st.opn ++ tail ∧ ∀ nd ∈ tail, nd.s = n := by
  obtain ⟨hOpn, hKeys, hNd⟩ := hInv
  cases hget : mapGet st.gbest n with
  | none =>
    have hst : expandOne g sk st n =
        { opn := st.opn ++ [⟨g + 1 + manhattan n, g + 1, n⟩],
          parent := mapSet st.parent n (some sk),
          gbest := mapSet st.gbest n (g + 1) } := by
      unfold expandOne
      rw [hget]
    have hInv2 : InvState (expandOne g sk st n) := by
      rw [hst]
      refine ⟨?_, ?_, mapSet_keys_nodup _ _ _ hNd⟩
      · intro nd hnd
        rcases List.mem_append.1 hnd with h | h
        · exact hOpn nd h
        · simp only [List.mem_singleton] at h
          rw [h]
          exact hn
      · intro p hp
        rcases mapSet_mem _ _ _ p hp with h | h
        · rw [h]
          exact hn
        · exact hKeys p h
    refine ⟨hInv2, Or.inr ?_, ⟨[⟨g + 1 + manhattan n, g + 1, n⟩], by rw [hst], ?_⟩⟩
    · left
      have hlen : (expandOne g sk st n).gbest.length = st.gbest.length + 1 := by
        rw [hst]
        exact mapSet_absent_length _ _ _ hget
      have hle := inv_gbest_length_le _ hInv2
      omega
    · intro nd hnd
      simp only [List.mem_singleton] at hnd
      rw [hnd]
  | some old =>
    by_cases hlt : g + 1 < old
    · have hst : expandOne g sk st n =
          { opn := st.opn ++ [⟨g + 1 + manhattan n, g + 1, n⟩],
            parent := mapSet st.parent n (some sk),
            gbest := mapSet st.gbest n (g + 1) } := by
        have hst0 : expandOne g sk st n =
            if g + 1 < old then
              { opn := st.opn ++ [⟨g + 1 + manhattan n, g + 1, n⟩],
                parent := mapSet st.parent n (some sk),
                gbest := mapSet st.gbest n (g + 1) }
            else st := by
          unfold expandOne
          rw [hget]
        rw [hst0, if_pos hlt]
      have hInv2 : InvState (expandOne g sk st n) := by
        rw [hst]
        refine ⟨?_, ?_, mapSet_keys_nodup _ _ _ hNd⟩
        · intro nd hnd
          rcases List.mem_append.1 hnd with h | h
          · exact hOpn nd h
          · simp only [List.mem_singleton] at h
            rw [h]
            exact hn
        · intro p hp
          rcases mapSet_mem _ _ _ p hp with h | h
          · rw [h]
            exact hn
          · exact hKeys p h
      refine ⟨hInv2, Or.inr ?_, ⟨[⟨g + 1 + manhattan n, g + 1, n⟩], by rw [hst], ?_⟩⟩
      · right
        have hlen : (expandOne g sk st n).gbest.length = st.gbest.length := by
          rw [hst]
          exact mapSet_present_length _ _ _ old hget
        have hsum : gbestSum (expandOne g sk st n) + old = gbestSum st + (g + 1) := by
          rw [hst]
          exact mapSet_present_sum _ _ _ old hget
        constructor
        · rw [hlen]
        · unfold gbestSum at hsum ⊢
          omega
      · intro nd hnd
        simp only [List.mem_singleton] at hnd
        rw [hnd]
    · have hst : expandOne g sk st n = st := by
        have hst0 : expandOne g sk st n =
            if g + 1 < old then
              { opn := st.opn ++ [⟨g + 1 + manhattan n, g + 1, n⟩],
                parent := mapSet st.parent n (some sk),
                gbest := mapSet st.gbest n (g + 1) }
            else st := by
          unfold expandOne
          rw [hget]
        rw [hst0, if_neg hlt]
      rw [hst]
      exact ⟨⟨hOpn, hKeys, hNd⟩, Or.inl rfl, ⟨[], by simp, by simp⟩⟩

/-- The whole neighbour loop: same statement, folded. -/
theorem expandAll_step (g : ℕ) (sk : Config) (ns : List Config)
    (hns : ∀ n ∈ ns, List.Perm n GOAL) :
    ∀ st, InvState st →
      InvState (expandAll g sk ns st) ∧
      (expandAll g sk ns st = st ∨
        meas2Rel (9 ^ 9 - (expandAll g sk ns st).gbest.length, gbestSum (expandAll g sk ns st))
          (9 ^ 9 - st.gbest.length, gbestSum st)) ∧
      ∃ tail, (expandAll g sk ns st).opn = st.opn ++ tail ∧ ∀ nd ∈ tail, nd.s ∈ ns := by
  induction ns with
  | nil =>
    intro st hInv
    exact ⟨hInv, Or.inl rfl, ⟨[], by simp [expandAll], by simp⟩⟩
  | cons n ns ih =>
    intro st hInv
    have hn : List.Perm n GOAL := hns n (by simp)
    have hns2 : ∀ m ∈ ns, List.Perm m GOAL := fun m hm => hns m (by simp [hm])
    obtain ⟨hInv1, hdec1, tail1, htail1, htail1s⟩ := expandOne_step g sk st n hn hInv
    have hfold : expandAll g sk (n :: ns) st = expandAll g sk ns (expandOne g sk st n) := rfl
    obtain ⟨hInv2, hdec2, tail2, htail2, htail2s⟩ := ih hns2 (expandOne g sk st n) hInv1
    rw [hfold]
    refine ⟨hInv2, ?_, ⟨tail1 ++ tail2, ?_, ?_⟩⟩
    · rcases hdec1 with he1 | hd1
      · rw [he1] at hdec2 ⊢
        exact hdec2
      · rcases hdec2 with he2 | hd2
        · rw [he2]
          exact Or.inr hd1
        · exact Or.inr (meas2Rel_trans hd2 hd1)
    · rw [htail2, htail1, List.append_assoc]
    · intro nd hnd
      rcases List.mem_append.1 hnd with h | h
      · simp [htail1s nd h]
      · simp [htail2s nd h]

/-- popMin removes exactly one node. -/
theorem popMin_length (b : Node) (l : List Node) : (popMin b l).2.length = l.length := by
  have := (popMin_perm b l).length_eq
  simpa using this

theorem loopFuel_nil (fuel : ℕ) (st : SState) (h : st.opn = []) :
    loopFuel (fuel + 1) st = some none := by
  unfold loopFuel
  rw [h]

theorem loopFuel_cons_goal (fuel : ℕ) (st : SState) (x : Node) (xs : List Node)
    (h : st.opn = x :: xs) (hgoal : (popMin x xs).1.s = GOAL) :
    loopFuel (fuel + 1) st = some (some (reconstruct st.parent (popMin x xs).1.s)) := by
  unfold loopFuel
  rw [h]
  simp only [if_pos hgoal]

theorem loopFuel_cons_expand (fuel : ℕ) (st : SState) (x : Node) (xs : List Node)
    (h : st.opn = x :: xs) (hgoal : ¬ (popMin x xs).1.s = GOAL) :
    loopFuel (fuel + 1) st = loopFuel fuel
      (expandAll (popMin x xs).1.g (popMin x xs).1.s (neighbors (popMin x xs).1.s)
        { st with opn := (popMin x xs).2 }) := by
  conv_lhs => unfold loopFuel
  rw [h]
  simp only [if_neg hgoal]

/-- The search loop always halts: some fuel produces a definite answer;
moreover, if every open configuration is unsolvable, that answer is the
source's `null`. Proved by well-founded induction on the measure
(undiscovered bound, total recorded cost, open-list length). -/
theorem loopFuel_result (st : SState) (hInv : InvState st) :
    ∃ n r, loopFuel n st = some r ∧
      ((∀ nd ∈ st.opn, isSolvable nd.s = false) → r = none) := by
  revert hInv
  refine @WellFounded.induction SState (InvImage measRel meas) (InvImage.wf meas measRel_wf)
    (fun st => InvState st →
      ∃ n r, loopFuel n st = some r ∧
        ((∀ nd ∈ st.opn, isSolvable nd.s = false) → r = none)) st ?_
  intro st ih hInv
  cases hopn : st.opn with
  | nil => exact ⟨1, none, loopFuel_nil 0 st hopn, fun _ => rfl⟩
  | cons x xs =>
    have hperm := popMin_perm x xs
    have hmem1 : (popMin x xs).1 ∈ st.opn := by
      rw [hopn]
      exact hperm.mem_iff.1 (List.mem_cons_self _ _)
    have hvpop : List.Perm (popMin x xs).1.s GOAL := hInv.1 _ hmem1
    by_cases hgoal : (popMin x xs).1.s = GOAL
    · refine ⟨1, some (reconstruct st.parent (popMin x xs).1.s),
        loopFuel_cons_goal 0 st x xs hopn hgoal, ?_⟩
      intro hall
      have hsol := hall _ (hopn ▸ hmem1)
      rw [hgoal] at hsol
      exact absurd hsol (by decide)
    · have hns : ∀ n ∈ neighbors (popMin x xs).1.s, List.Perm n GOAL := by
        intro n hn
        exact ((neighbors_full _ hvpop).2.1 n hn).1
      have hmidInv : InvState { st with opn := (popMin x xs).2 } := by
        refine ⟨?_, hInv.2.1, hInv.2.2⟩
        intro nd hnd
        refine hInv.1 nd ?_
        rw [hopn]
        exact hperm.mem_iff.1 (List.mem_cons_of_mem _ hnd)
      obtain ⟨hInv2, hdec2, tail, htail, htails⟩ :=
        expandAll_step (popMin x xs).1.g (popMin x xs).1.s (neighbors (popMin x xs).1.s) hns
          { st with opn := (popMin x xs).2 } hmidInv
      have hmeas : InvImage measRel meas
          (expandAll (popMin x xs).1.g (popMin x xs).1.s (neighbors (popMin x xs).1.s)
            { st with opn := (popMin x xs).2 }) st := by
      -- the measure drops: strictly in the open-list length if the
      -- expansion did nothing, otherwise lexicographically earlier
        show measRel _ (meas st)
        rcases hdec2 with heq | hd
        · rw [heq]
          unfold meas gbestSum
          refine Or.inr ⟨rfl, Or.inr ⟨rfl, ?_⟩⟩
          show (popMin x xs).2.length < st.opn.length
          rw [hopn, popMin_length]
          simp
        · rcases hd with hd | ⟨hd1, hd2⟩
          · exact Or.inl hd
          · exact Or.inr ⟨hd1, Or.inl hd2⟩
      obtain ⟨n, r, heq, himp⟩ := ih _ hmeas hInv2
      refine ⟨n + 1, r, ?_, ?_⟩
      · rw [loopFuel_cons_expand n st x xs hopn hgoal]
        exact heq
      · intro hall
        refine himp ?_
        intro nd hnd
        rw [htail] at hnd
        rcases List.mem_append.1 hnd with h | h
        · exact hall nd (hperm.mem_iff.1 (List.mem_cons_of_mem _ h))
        · have hsn := htails nd h
          have hpar := (parity_invariant_full _ hvpop nd.s hsn).2
          rw [hpar]
          exact hall _ (hopn ▸ hmem1)

/-- The initial search state for a non-goal start. -/
def initState (start : Config) : SState :=
  { opn := [⟨manhattan start, 0, start⟩],
    parent := [(start, none)],
    gbest := [(start, 0)] }

theorem initState_inv (start : Config) (hs : List.Perm start GOAL) :
    InvState (initState start) := by
  refine ⟨?_, ?_, by simp [initState]⟩
  · intro nd hnd
    simp only [initState, List.mem_singleton] at hnd
    rw [hnd]
    exact hs
  · intro p hp
    simp only [initState, List.mem_singleton] at hp
    rw [hp]
    exact hs

theorem aStar_eq_loop (start : Config) (fuel : ℕ) (hg : start ≠ GOAL) :
    aStar start fuel = loopFuel fuel (initState start) := by
  unfold aStar initState
  rw [if_neg hg]

/-- **C7.** The solver terminates on every valid configuration: some
finite fuel yields a definite answer (the `while` loop performs only
finitely many iterations, by the well-founded measure over the at most
`9^9` distinct keys with strictly decreasing recorded costs). -/
theorem aStar_terminates (start : Config) (hs : List.Perm start GOAL) :
    ∃ n, (aStar start n).isSome = true := by
  by_cases hg : start = GOAL
  · refine ⟨0, ?_⟩
    rw [hg, aStar_goal_eq]
    rfl
  · obtain ⟨n, r, heq, -⟩ := loopFuel_result (initState start) (initState_inv start hs)
    refine ⟨n, ?_⟩
    rw [aStar_eq_loop start n hg, heq]
    rfl

/-- Witness for `aStar_terminates` at the goal configuration. -/
theorem aStar_terminates_witness :
    List.Perm GOAL GOAL ∧ ∃ n, (aStar GOAL n).isSome = true :=
  ⟨List.Perm.refl GOAL, aStar_terminates GOAL (List.Perm.refl GOAL)⟩

/-- **C6.** On an unsolvable valid configuration, the solver's loop
runs to exhaustion and returns the unsolvable signal (`null`), never a
path: the parity invariant keeps every open configuration unsolvable,
so the goal test never fires. -/
theorem aStar_unsolvable (start : Config) (hs : List.Perm start GOAL)
    (hu : isSolvable start = false) :
    ∃ n, aStar start n = some none := by
  have hg : start ≠ GOAL := by
    intro h
    rw [h] at hu
    exact absurd hu (by decide)
  obtain ⟨n, r, heq, himp⟩ := loopFuel_result (initState start) (initState_inv start hs)
  have hr : r = none := by
    refine himp ?_
    intro nd hnd
    simp only [initState, List.mem_singleton] at hnd
    rw [hnd]
    exact hu
  refine ⟨n, ?_⟩
  rw [aStar_eq_loop start n hg, heq, hr]

/-- Witness for `aStar_unsolvable` at the classic odd-parity
configuration (goal with tiles 1 and 2 exchanged). -/
theorem aStar_unsolvable_witness :
    List.Perm [2, 1, 3, 4, 5, 6, 7, 8, 0] GOAL ∧
    isSolvable [2, 1, 3, 4, 5, 6, 7, 8, 0] = false ∧
    ∃ n, aStar [2, 1, 3, 4, 5, 6, 7, 8, 0] n = some none :=
  ⟨by decide, by decide, aStar_unsolvable _ (by decide) (by decide)⟩

/-- Witness for `tryMove_spec` at the goal configuration, index 5. -/
theorem tryMove_spec_witness :
    List.Perm GOAL GOAL ∧ 5 < 9 ∧
    (((tryMove GOAL 5).isSome = true ↔ swapAt GOAL (GOAL.indexOf 0) 5 ∈ neighbors GOAL) ∧
      (∀ t, tryMove GOAL 5 = some t →
        t = swapAt GOAL (GOAL.indexOf 0) 5 ∧ t ∈ neighbors GOAL)) :=
  ⟨List.Perm.refl GOAL, by omega, tryMove_spec GOAL (List.Perm.refl GOAL) 5 (by omega)⟩

/-! ### Move sequences (solution paths)

A solution path, as the claims describe it, is start-exclusive and
goal-inclusive: a list of configurations each of which is a legal
neighbour of its predecessor (the first being a neighbour of the start),
whose last element is the goal. -/

/-- `ChainFrom a l`: `l` is a legal move sequence starting from `a`. -/
def ChainFrom (a : Config) : List Config → Prop
  | [] => True
  | x :: xs => x ∈ neighbors a ∧ ChainFrom x xs

/-- The configuration at the end of a move sequence (`a` if empty). -/
def endOf (a : Config) (l : List Config) : Config := l.getLastD a

theorem endOf_nil (a : Config) : endOf a [] = a := rfl

theorem endOf_cons (a x : Config) (xs : List Config) :
    endOf a (x :: xs) = endOf x xs := by
  unfold endOf
  exact List.getLastD_cons a x xs

theorem endOf_append (a : Config) (l1 l2 : List Config) :
    endOf a (l1 ++ l2) = endOf (endOf a l1) l2 := by
  induction l1 generalizing a with
  | nil => simp [endOf]
  | cons x xs ih =>
    rw [List.cons_append, endOf_cons, endOf_cons]
    exact ih x

theorem chainFrom_append (a : Config) (l1 l2 : List Config) :
    ChainFrom a (l1 ++ l2) ↔ ChainFrom a l1 ∧ ChainFrom (endOf a l1) l2 := by
  induction l1 generalizing a with
  | nil => simp [ChainFrom, endOf]
  | cons x xs ih =>
    rw [List.cons_append]
    show x ∈ neighbors a ∧ ChainFrom x (xs ++ l2) ↔ _
    rw [ih x, endOf_cons]
    show _ ↔ (x ∈ neighbors a ∧ ChainFrom x xs) ∧ _
    tauto

theorem chainFrom_snoc (a u : Config) (l : List Config)
    (hl : ChainFrom a l) (hu : u ∈ neighbors (endOf a l)) :
    ChainFrom a (l ++ [u]) ∧ endOf a (l ++ [u]) = u := by
  constructor
  · rw [chainFrom_append]
    exact ⟨hl, hu, trivial⟩
  · rw [endOf_append]
    rfl

/-- Every configuration along a chain from a valid configuration is
valid. -/
theorem chainFrom_valid (a : Config) (ha : List.Perm a GOAL) (l : List Config)
    (hl : ChainFrom a l) : ∀ c ∈ l, List.Perm c GOAL := by
  induction l generalizing a with
  | nil => simp
  | cons x xs ih =>
    obtain ⟨hx, hxs⟩ := hl
    have hxv : List.Perm x GOAL := ((neighbors_full a ha).2.1 x hx).1
    intro c hc
    rcases List.mem_cons.1 hc with h | h
    · rw [h]
      exact hxv
    · exact ih x hxv hxs c h

theorem endOf_valid (a : Config) (ha : List.Perm a GOAL) (l : List Config)
    (hl : ChainFrom a l) : List.Perm (endOf a l) GOAL := by
  induction l generalizing a with
  | nil => exact ha
  | cons x xs ih =>
    rw [endOf_cons]
    exact ih x ((neighbors_full a ha).2.1 x hl.1).1 hl.2

/-- The configuration at index `i` along `start` followed by `P`. -/
def wAt (start : Config) (P : List Config) (i : ℕ) : Config :=
  (start :: P).getD i GOAL

theorem wAt_zero (start : Config) (P : List Config) : wAt start P 0 = start := rfl

theorem wAt_step (start : Config) (P : List Config) (hP : ChainFrom start P) :
    ∀ i, i < P.length → wAt start P (i + 1) ∈ neighbors (wAt start P i) := by
  induction P generalizing start with
  | nil => simp
  | cons x xs ih =>
    intro i hi
    cases i with
    | zero => exact hP.1
    | succ i =>
      have := ih x hP.2 i (by simpa using hi)
      simpa [wAt] using this

theorem wAt_last (start : Config) (P : List Config) :
    wAt start P P.length = endOf start P := by
  induction P generalizing start with
  | nil => rfl
  | cons x xs ih =>
    rw [endOf_cons, ← ih x]
    rfl

/-- The suffix of a chain is a chain from the intermediate point. -/
theorem wAt_suffix (start : Config) (P : List Config) (hP : ChainFrom start P) :
    ∀ i, i ≤ P.length →
      ChainFrom (wAt start P i) (P.drop i) ∧
        endOf (wAt start P i) (P.drop i) = endOf start P := by
  induction P generalizing start with
  | nil =>
    intro i hi
    simp at hi
    subst hi
    exact ⟨trivial, rfl⟩
  | cons x xs ih =>
    intro i hi
    cases i with
    | zero => exact ⟨hP, rfl⟩
    | succ i =>
      have := ih x hP.2 i (by simpa using hi)
      refine ⟨this.1, ?_⟩
      show endOf (wAt x xs i) (List.drop i xs) = endOf start (x :: xs)
      rw [endOf_cons]
      exact this.2

/-- Prefix optimality: along a minimal solution, no shortcut reaches the
`j`-th configuration in fewer than `j` moves. -/
theorem wAt_length_lower_bound (start : Config) (P : List Config)
    (hP : ChainFrom start P) (hPend : endOf start P = GOAL)
    (hmin : ∀ l, ChainFrom start l → endOf start l = GOAL → P.length ≤ l.length)
    (j : ℕ) (hj : j ≤ P.length)
    (l : List Config) (hl : ChainFrom start l) (hle : endOf start l = wAt start P j) :
    j ≤ l.length := by
  obtain ⟨hsuf, hsufend⟩ := wAt_suffix start P hP j hj
  have hcomp : ChainFrom start (l ++ P.drop j) := by
    rw [chainFrom_append]
    refine ⟨hl, ?_⟩
    rw [hle]
    exact hsuf
  have hcompend : endOf start (l ++ P.drop j) = GOAL := by
    rw [endOf_append, hle, hsufend, hPend]
  have hlen := hmin _ hcomp hcompend
  rw [List.length_append, List.length_drop] at hlen
  omega

/-! ### Admissibility of the Manhattan heuristic -/

/-- One tile's contribution to `manhattan`. -/
def mterm (i gi : ℕ) : ℕ :=
  ((i : ℤ) / 3 - (gi : ℤ) / 3).natAbs + ((i : ℤ) % 3 - (gi : ℤ) % 3).natAbs

theorem manhattan_eq (s : Config) :
    manhattan s = ([1, 2, 3, 4, 5, 6, 7, 8].map (fun v => mterm (s.indexOf v) (v - 1))).sum :=
  rfl

theorem manhattan_goal_zero : manhattan GOAL = 0 := by decide

/-- Moving one cell changes a tile's Manhattan term by at most one. -/
theorem mterm_adjacent : ∀ z < 9, ∀ j ∈ cand z, ∀ gi < 9, mterm j gi ≤ mterm z gi + 1 := by
  decide

/-- After a swap, position `i` holds the old element of position `j`. -/
theorem swapAt_getElem_fst (l : List ℕ) (i j : ℕ) (hi : i < l.length) (hj : j < l.length)
    (hij : i ≠ j) (hb : i < (swapAt l i j).length) :
    (swapAt l i j)[i] = l[j] := by
  unfold swapAt
  rw [List.getElem_set_ne (Ne.symm hij), List.getElem_set_self (by simpa), List.getD_eq_getElem l 0 hj]

/-- The moved tile ends up at the blank's old position. -/
theorem swapAt_indexOf_moved (s : Config) (hs : List.Perm s GOAL) (j : ℕ) (hj9 : j < 9)
    (hjz : j ≠ s.indexOf 0) (hbj : j < s.length) :
    (swapAt s (s.indexOf 0) j).indexOf s[j] = s.indexOf 0 := by
  have hlen := valid_length hs
  have hz9 := valid_indexOf_zero_lt hs
  have hperm : List.Perm (swapAt s (s.indexOf 0) j) GOAL := neighbor_valid s hs j hj9
  have hb : s.indexOf 0 < (swapAt s (s.indexOf 0) j).length := by
    rw [length_swapAt]
    omega
  have hget : (swapAt s (s.indexOf 0) j)[s.indexOf 0] = s[j] :=
    swapAt_getElem_fst s _ j (by omega) (by omega) (fun h => hjz h.symm) hb
  have := List.indexOf_getElem (valid_nodup hperm) (s.indexOf 0) hb
  rwa [hget] at this

/-- Tiles other than the moved one and the blank keep their index. -/
theorem swapAt_indexOf_other (s : Config) (hs : List.Perm s GOAL) (j : ℕ) (hj9 : j < 9)
    (hjz : j ≠ s.indexOf 0) (hbj : j < s.length) (v : ℕ) (hv0 : v ≠ 0) (hvj : v ≠ s[j])
    (hvmem : v ∈ GOAL) :
    (swapAt s (s.indexOf 0) j).indexOf v = s.indexOf v := by
  have hlen := valid_length hs
  have hz9 := valid_indexOf_zero_lt hs
  have hperm : List.Perm (swapAt s (s.indexOf 0) j) GOAL := neighbor_valid s hs j hj9
  have hvs : v ∈ s := hs.mem_iff.2 hvmem
  have hp : s.indexOf v < s.length := List.indexOf_lt_length.2 hvs
  have hgetv : s[s.indexOf v] = v := List.getElem_indexOf hp
  have hq : s[s.indexOf v]? = some v := by
    rw [List.getElem?_eq_getElem hp, hgetv]
  have hpz : s.indexOf v ≠ s.indexOf 0 := by
    intro h
    rw [h, List.getElem?_eq_getElem (by omega : s.indexOf 0 < s.length),
      valid_getElem_indexOf_zero hs (by omega)] at hq
    simp at hq
    exact hv0 hq.symm
  have hpj : s.indexOf v ≠ j := by
    intro h
    rw [h, List.getElem?_eq_getElem hbj] at hq
    simp at hq
    exact hvj hq.symm
  have hb : s.indexOf v < (swapAt s (s.indexOf 0) j).length := by
    rw [length_swapAt]
    omega
  have hget : (swapAt s (s.indexOf 0) j)[s.indexOf v] = v := by
    rw [swapAt_getElem_other s _ j _ hp hpz hpj hb]
    exact hgetv
  have := List.indexOf_getElem (valid_nodup hperm) (s.indexOf v) hb
  rwa [hget] at this

theorem goalvals_sub_lt : ∀ w ∈ GOAL, w - 1 < 9 := by decide

theorem goalvals_mem : ∀ x ∈ [1, 2, 3, 4, 5, 6, 7, 8], x ∈ GOAL := by decide

theorem indicator_sum_eq_one :
    ∀ w ∈ GOAL, w ≠ 0 →
      ([1, 2, 3, 4, 5, 6, 7, 8].map (fun v => if v = w then 1 else 0)).sum = 1 := by
  decide

/-- One move cannot decrease the Manhattan heuristic by more than 1. -/
theorem manhattan_step (a : Config) (ha : List.Perm a GOAL) (b : Config)
    (hb : b ∈ neighbors a) : manhattan a ≤ manhattan b + 1 := by
  have hz9 := valid_indexOf_zero_lt ha
  have hlen := valid_length ha
  rw [neighbors_eq_map] at hb
  obtain ⟨j, hj, rfl⟩ := List.mem_map.1 hb
  obtain ⟨hj9, hjz, -⟩ := cand_mem_facts _ hz9 j hj
  have hbj : j < a.length := by omega
  have hwmem : a[j] ∈ GOAL := ha.mem_iff.1 (a.getElem_mem hbj)
  have hw0 : a[j] ≠ 0 := by
    intro h
    have h2 := List.indexOf_getElem (valid_nodup ha) j hbj
    rw [h] at h2
    exact hjz h2.symm
  have hidxw : a.indexOf a[j] = j := List.indexOf_getElem (valid_nodup ha) j hbj
  have hmov := swapAt_indexOf_moved a ha j hj9 hjz hbj
  have hpoint : ∀ v ∈ [1, 2, 3, 4, 5, 6, 7, 8],
      mterm (a.indexOf v) (v - 1) ≤
        mterm ((swapAt a (a.indexOf 0) j).indexOf v) (v - 1) +
          (if v = a[j] then 1 else 0) := by
    intro v hv
    by_cases hvw : v = a[j]
    · rw [hvw, hidxw, hmov, if_pos rfl]
      exact mterm_adjacent _ hz9 j hj _ (goalvals_sub_lt _ hwmem)
    · have hv0 : v ≠ 0 := by
        intro h
        have : (0 : ℕ) ∉ [1, 2, 3, 4, 5, 6, 7, 8] := by decide
        exact this (h ▸ hv)
      rw [swapAt_indexOf_other a ha j hj9 hjz hbj v hv0 hvw (goalvals_mem v hv), if_neg hvw]
      simp
  have h1 := List.sum_le_sum hpoint
  rw [sum_map_add] at h1
  have hind := indicator_sum_eq_one a[j] hwmem hw0
  rw [manhattan_eq a, manhattan_eq (swapAt a (a.indexOf 0) j)]
  omega

/-- Admissibility: the Manhattan heuristic never exceeds the length of
any solution path. -/
theorem manhattan_le_chain (a : Config) (ha : List.Perm a GOAL) (l : List Config)
    (hl : ChainFrom a l) (hend : endOf a l = GOAL) : manhattan a ≤ l.length := by
  induction l generalizing a with
  | nil =>
    rw [endOf_nil] at hend
    rw [hend, manhattan_goal_zero]
    exact Nat.zero_le _
  | cons x xs ih =>
    have hxv : List.Perm x GOAL := ((neighbors_full a ha).2.1 x hl.1).1
    have h1 := manhattan_step a ha x hl.1
    have h2 := ih x hxv hl.2 (by rw [← endOf_cons a]; exact hend)
    simp only [List.length_cons]
    omega

/-- The popped node has minimal `f` among the open nodes. -/
theorem popMin_min (b : Node) (l : List Node) : ∀ nd ∈ b :: l, (popMin b l).1.f ≤ nd.f := by
  induction l generalizing b with
  | nil =>
    intro nd hnd
    simp only [List.mem_singleton] at hnd
    simp [popMin, hnd]
  | cons x xs ih =>
    intro nd hnd
    by_cases h : x.f < b.f
    · simp only [popMin, if_pos h]
      rcases List.mem_cons.1 hnd with rfl | hnd2
      · have := ih x x (List.mem_cons_self x xs)
        omega
      · exact ih x nd hnd2
    · simp only [popMin, if_neg h]
      rcases List.mem_cons.1 hnd with rfl | hnd2
      · exact ih nd nd (List.mem_cons_self nd xs)
      · rcases List.mem_cons.1 hnd2 with rfl | hnd3
        · have := ih b b (List.mem_cons_self b xs)
          omega
        · exact ih b nd (List.mem_cons_of_mem b hnd3)

/-- A node different from the popped one stays in the open list. -/
theorem popMin_rest_mem (b : Node) (l : List Node) (nd : Node) (hnd : nd ∈ b :: l)
    (hne : nd ≠ (popMin b l).1) : nd ∈ (popMin b l).2 := by
  have hperm := popMin_perm b l
  have h2 := hperm.mem_iff.2 hnd
  rcases List.mem_cons.1 h2 with h | h
  · exact absurd h hne
  · exact h

theorem mapGet_mapSet_self {α : Type} (m : List (Config × α)) (k : Config) (v : α) :
    mapGet (mapSet m k v) k = some v := by
  induction m with
  | nil => simp [mapSet, mapGet]
  | cons p rest ih =>
    obtain ⟨k2, v2⟩ := p
    by_cases hk : k2 = k
    · subst hk
      simp [mapSet, mapGet]
    · simp [mapSet, mapGet, hk, ih]

theorem mapGet_mapSet_ne {α : Type} (m : List (Config × α)) (k : Config) (v : α) (c : Config)
    (h : k ≠ c) : mapGet (mapSet m k v) c = mapGet m c := by
  induction m with
  | nil => simp [mapSet, mapGet, h]
  | cons p rest ih =>
    obtain ⟨k2, v2⟩ := p
    by_cases hk : k2 = k
    · subst hk
      simp [mapSet, mapGet, h, ih]
    · simp [mapSet, mapGet, hk, ih]

/-- `expandOne` either does nothing (the neighbour is not improved) or
performs the full relaxation. -/
theorem expandOne_cases (g : ℕ) (sk : Config) (st : SState) (n : Config) :
    (expandOne g sk st n = st ∧ ∃ v0, mapGet st.gbest n = some v0 ∧ v0 ≤ g + 1) ∨
    (expandOne g sk st n =
        { opn := st.opn ++ [⟨g + 1 + manhattan n, g + 1, n⟩],
          parent := mapSet st.parent n (some sk),
          gbest := mapSet st.gbest n (g + 1) } ∧
      (mapGet st.gbest n = none ∨ ∃ v0, mapGet st.gbest n = some v0 ∧ g + 1 < v0)) := by
  cases hget : mapGet st.gbest n with
  | none =>
    refine Or.inr ⟨?_, Or.inl rfl⟩
    unfold expandOne
    rw [hget]
  | some old =>
    have hst0 : expandOne g sk st n =
        if g + 1 < old then
          { opn := st.opn ++ [⟨g + 1 + manhattan n, g + 1, n⟩],
            parent := mapSet st.parent n (some sk),
            gbest := mapSet st.gbest n (g + 1) }
        else st := by
      unfold expandOne
      rw [hget]
    by_cases hlt : g + 1 < old
    · rw [if_pos hlt] at hst0
      exact Or.inr ⟨hst0, Or.inr ⟨old, rfl, hlt⟩⟩
    · rw [if_neg hlt] at hst0
      exact Or.inl ⟨hst0, old, rfl, by omega⟩

/-- How `mapSet` transforms the key list. -/
theorem mapSet_keys {α : Type} (m : List (Config × α)) (k : Config) (v : α) :
    (mapSet m k v).map Prod.fst =
      if k ∈ m.map Prod.fst then m.map Prod.fst else m.map Prod.fst ++ [k] := by
  induction m with
  | nil => simp [mapSet]
  | cons p rest ih =>
    obtain ⟨k2, v2⟩ := p
    by_cases hk : k2 = k
    · subst hk
      simp [mapSet]
    · simp only [mapSet, if_neg hk, List.map_cons]
      rw [ih]
      by_cases hmem : k ∈ rest.map Prod.fst
      · rw [if_pos hmem, if_pos (by simp [hmem])]
      · rw [if_neg hmem, if_neg (by simp [hmem, Ne.symm hk])]
        simp

/-- Everything one neighbour sweep guarantees, relating the state before
(`st`) and after (`fin`): the open list is only appended with freshly
relaxed nodes; entries at most `g+1` are untouched; every entry is old
or freshly relaxed (and then pushed); recorded costs only decrease;
every swept neighbour ends up recorded at most `g+1`; parent entries are
old or point to the expanded configuration; unchanged costs keep their
parent; and the two maps keep synchronised, duplicate-free key lists. -/
def ExpandFacts (g : ℕ) (sk : Config) (ns : List Config) (st fin : SState) : Prop :=
  ∃ tail,
    fin.opn = st.opn ++ tail ∧
    (∀ nd ∈ tail, ∃ u, u ∈ ns ∧ nd = ⟨g + 1 + manhattan u, g + 1, u⟩ ∧
      mapGet fin.gbest u = some (g + 1) ∧ mapGet fin.parent u = some (some sk)) ∧
    (∀ u v, mapGet st.gbest u = some v → v ≤ g + 1 →
      mapGet fin.gbest u = some v ∧ mapGet fin.parent u = mapGet st.parent u) ∧
    (∀ u v, mapGet fin.gbest u = some v →
      mapGet st.gbest u = some v ∨
        (u ∈ ns ∧ v = g + 1 ∧ (⟨g + 1 + manhattan u, g + 1, u⟩ : Node) ∈ tail)) ∧
    (∀ u v0, mapGet st.gbest u = some v0 →
      ∃ v, mapGet fin.gbest u = some v ∧ v ≤ v0) ∧
    (∀ u ∈ ns, ∃ v, mapGet fin.gbest u = some v ∧ v ≤ g + 1) ∧
    (∀ u pv, mapGet fin.parent u = some pv →
      mapGet st.parent u = some pv ∨
        (pv = some sk ∧ u ∈ ns ∧ mapGet fin.gbest u = some (g + 1))) ∧
    (∀ u v, mapGet st.gbest u = some v → mapGet fin.gbest u = some v →
      mapGet fin.parent u = mapGet st.parent u) ∧
    (st.parent.map Prod.fst = st.gbest.map Prod.fst →
      fin.parent.map Prod.fst = fin.gbest.map Prod.fst) ∧
    ((st.parent.map Prod.fst).Nodup → (fin.parent.map Prod.fst).Nodup)

theorem expandFacts_refl (g : ℕ) (sk : Config) (st : SState) :
    ExpandFacts g sk [] st st := by
  refine ⟨[], (List.append_nil _).symm, fun nd hnd => absurd hnd (List.not_mem_nil nd),
    ?_, ?_, ?_, ?_, ?_, ?_, ?_, ?_⟩
  · exact fun u v h _ => ⟨h, rfl⟩
  · exact fun u v h => Or.inl h
  · exact fun u v0 h => ⟨v0, h, Nat.le_refl v0⟩
  · intro u hu
    exact absurd hu (List.not_mem_nil u)
  · exact fun u pv h => Or.inl h
  · exact fun u v _ _ => rfl
  · exact fun h => h
  · exact fun h => h

/-- Weakening the swept-list in an `ExpandFacts`, plus coverage for the
skipped head (it was already at most `g+1`). -/
theorem expandFacts_cons_nochange (g : ℕ) (sk : Config) (n : Config) (ns : List Config)
    (st fin : SState) (v0 : ℕ) (hv0 : mapGet st.gbest n = some v0) (hv0le : v0 ≤ g + 1)
    (hEF : ExpandFacts g sk ns st fin) : ExpandFacts g sk (n :: ns) st fin := by
  obtain ⟨tail, h1, h2, h3, h4, h5, h6, h7, h8, h9, h10⟩ := hEF
  refine ⟨tail, h1, ?_, h3, ?_, h5, ?_, ?_, h8, h9, h10⟩
  · intro nd hnd
    obtain ⟨u, hu, hnd2, hg, hp⟩ := h2 nd hnd
    exact ⟨u, List.mem_cons_of_mem n hu, hnd2, hg, hp⟩
  · intro u v h
    rcases h4 u v h with h | ⟨hu, hv, hmem⟩
    · exact Or.inl h
    · exact Or.inr ⟨List.mem_cons_of_mem n hu, hv, hmem⟩
  · intro u hu
    rcases List.mem_cons.1 hu with rfl | hu2
    · obtain ⟨v, hv, hvle⟩ := h5 u v0 hv0
      exact ⟨v, hv, by omega⟩
    · exact h6 u hu2
  · intro u pv h
    rcases h7 u pv h with h | ⟨hpv, hu, hg⟩
    · exact Or.inl h
    · exact Or.inr ⟨hpv, List.mem_cons_of_mem n hu, hg⟩

/-- Composing one actual relaxation with a sweep of the remaining
neighbours. -/
theorem expandFacts_cons_change (g : ℕ) (sk : Config) (n : Config) (ns : List Config)
    (st fin : SState)
    (hpre : mapGet st.gbest n = none ∨ ∃ v0, mapGet st.gbest n = some v0 ∧ g + 1 < v0)
    (hEF : ExpandFacts g sk ns
      { opn := st.opn ++ [⟨g + 1 + manhattan n, g + 1, n⟩],
        parent := mapSet st.parent n (some sk),
        gbest := mapSet st.gbest n (g + 1) } fin) :
    ExpandFacts g sk (n :: ns) st fin := by
  obtain ⟨tail2, h1, h2, h3, h4, h5, h6, h7, h8, h9, h10⟩ := hEF
  dsimp only at h1 h2 h3 h4 h5 h6 h7 h8 h9 h10
  have hmidg_self : mapGet (mapSet st.gbest n (g + 1)) n = some (g + 1) :=
    mapGet_mapSet_self _ _ _
  have hmidg_ne : ∀ u, u ≠ n → mapGet (mapSet st.gbest n (g + 1)) u = mapGet st.gbest u :=
    fun u hu => mapGet_mapSet_ne _ n _ u (Ne.symm hu)
  have hmidp_self : mapGet (mapSet st.parent n (some sk)) n = some (some sk) :=
    mapGet_mapSet_self _ _ _
  have hmidp_ne : ∀ u, u ≠ n →
      mapGet (mapSet st.parent n (some sk)) u = mapGet st.parent u :=
    fun u hu => mapGet_mapSet_ne _ n _ u (Ne.symm hu)
  refine ⟨⟨g + 1 + manhattan n, g + 1, n⟩ :: tail2, ?_, ?_, ?_, ?_, ?_, ?_, ?_, ?_, ?_, ?_⟩
  · rw [h1]
    simp
  · intro nd hnd
    rcases List.mem_cons.1 hnd with rfl | hnd2
    · refine ⟨n, List.mem_cons_self n ns, rfl, (h3 n (g + 1) hmidg_self (Nat.le_refl _)).1, ?_⟩
      rw [(h3 n (g + 1) hmidg_self (Nat.le_refl _)).2]
      exact hmidp_self
    · obtain ⟨u, hu, hnd3, hg, hp⟩ := h2 nd hnd2
      exact ⟨u, List.mem_cons_of_mem n hu, hnd3, hg, hp⟩
  · intro u v hv hvle
    have hun : u ≠ n := by
      intro h
      subst h
      rcases hpre with hp | ⟨v0, hp, hlt⟩
      · rw [hp] at hv
        exact Option.noConfusion hv
      · rw [hp] at hv
        have := Option.some.inj hv
        omega
    have hmidv : mapGet (mapSet st.gbest n (g + 1)) u = some v := by
      rw [hmidg_ne u hun]
      exact hv
    have hh := h3 u v hmidv hvle
    exact ⟨hh.1, by rw [hh.2, hmidp_ne u hun]⟩
  · intro u v hv
    rcases h4 u v hv with hmid | ⟨hu, hveq, hmem⟩
    · by_cases hun : u = n
      · subst hun
        rw [hmidg_self] at hmid
        exact Or.inr ⟨List.mem_cons_self u ns, (Option.some.inj hmid).symm,
          List.mem_cons_self _ tail2⟩
      · rw [hmidg_ne u hun] at hmid
        exact Or.inl hmid
    · exact Or.inr ⟨List.mem_cons_of_mem n hu, hveq, List.mem_cons_of_mem _ hmem⟩
  · intro u v0 hv0
    by_cases hun : u = n
    · subst hun
      rcases hpre with hp | ⟨v0', hp, hlt⟩
      · rw [hp] at hv0
        exact Option.noConfusion hv0
      · rw [hp] at hv0
        have hv0eq := Option.some.inj hv0
        obtain ⟨v, hvv, hvle⟩ := h5 u (g + 1) hmidg_self
        exact ⟨v, hvv, by omega⟩
    · have hmidv : mapGet (mapSet st.gbest n (g + 1)) u = some v0 := by
        rw [hmidg_ne u hun]
        exact hv0
      exact h5 u v0 hmidv
  · intro u hu
    rcases List.mem_cons.1 hu with rfl | hu2
    · exact h5 u (g + 1) hmidg_self
    · exact h6 u hu2
  · intro u pv hpv
    rcases h7 u pv hpv with hmid | ⟨hpveq, hu, hg⟩
    · by_cases hun : u = n
      · subst hun
        rw [hmidp_self] at hmid
        exact Or.inr ⟨(Option.some.inj hmid).symm, List.mem_cons_self u ns,
          (h3 u (g + 1) hmidg_self (Nat.le_refl _)).1⟩
      · rw [hmidp_ne u hun] at hmid
        exact Or.inl hmid
    · exact Or.inr ⟨hpveq, List.mem_cons_of_mem n hu, hg⟩
  · intro u v hpre2 hfin
    by_cases hun : u = n
    · subst hun
      rcases hpre with hp | ⟨v0, hp, hlt⟩
      · rw [hp] at hpre2
        exact Option.noConfusion hpre2
      · rw [hp] at hpre2
        have hveq := Option.some.inj hpre2
        obtain ⟨v2, hv2, hv2le⟩ := h5 u (g + 1) hmidg_self
        rw [hfin] at hv2
        have := Option.some.inj hv2
        omega
    · have hmidv : mapGet (mapSet st.gbest n (g + 1)) u = some v := by
        rw [hmidg_ne u hun]
        exact hpre2
      have hh := h8 u v hmidv hfin
      rw [hh, hmidp_ne u hun]
  · intro hsync
    refine h9 ?_
    rw [mapSet_keys, mapSet_keys, hsync]
  · intro hnd
    exact h10 (mapSet_keys_nodup _ _ _ hnd)

/-- The neighbour sweep satisfies all the `ExpandFacts`. -/
theorem expandAll_facts (g : ℕ) (sk : Config) (ns : List Config) :
    ∀ st : SState, ExpandFacts g sk ns st (expandAll g sk ns st) := by
  induction ns with
  | nil => exact fun st => expandFacts_refl g sk st
  | cons n ns ih =>
    intro st
    have hfold : expandAll g sk (n :: ns) st = expandAll g sk ns (expandOne g sk st n) := rfl
    rw [hfold]
    rcases expandOne_cases g sk st n with ⟨heq, v0, hv0, hv0le⟩ | ⟨heq, hpre⟩
    · rw [heq]
      exact expandFacts_cons_nochange g sk n ns st _ v0 hv0 hv0le (ih st)
    · rw [heq]
      exact expandFacts_cons_change g sk n ns st _ hpre (ih _)

/-! ### Optimality of the returned path (C1) -/

/-- A key with a recorded value is in the key list. -/
theorem mem_keys_of_mapGet_some {α : Type} (m : List (Config × α)) (k : Config) (v : α)
    (h : mapGet m k = some v) : k ∈ m.map Prod.fst := by
  by_contra hmem
  rw [(mapGet_eq_none_iff m k).2 hmem] at h
  exact Option.noConfusion h

/-- A key in the key list has a recorded value. -/
theorem mapGet_some_of_mem_keys {α : Type} (m : List (Config × α)) (k : Config)
    (h : k ∈ m.map Prod.fst) : ∃ v, mapGet m k = some v := by
  cases hg : mapGet m k with
  | none => exact absurd ((mapGet_eq_none_iff m k).1 hg) (by simp [h])
  | some v => exact ⟨v, rfl⟩

/-- The prefix of a chain is a chain, ending at the indexed point. -/
theorem wAt_prefix (start : Config) (P : List Config) (hP : ChainFrom start P) :
    ∀ j, j ≤ P.length →
      ChainFrom start (P.take j) ∧ endOf start (P.take j) = wAt start P j := by
  induction P generalizing start with
  | nil =>
    intro j hj
    simp at hj
    subst hj
    exact ⟨trivial, rfl⟩
  | cons x xs ih =>
    intro j hj
    cases j with
    | zero => exact ⟨trivial, rfl⟩
    | succ j =>
      have h2 := ih x hP.2 j (by simpa using hj)
      refine ⟨⟨hP.1, h2.1⟩, ?_⟩
      show endOf start (x :: List.take j xs) = wAt x xs j
      rw [endOf_cons]
      exact h2.2

/-- Every configuration along a minimal solution, short of the end, is
not the goal. -/
theorem wAt_ne_goal (start : Config) (P : List Config)
    (hP : ChainFrom start P)
    (hmin : ∀ l, ChainFrom start l → endOf start l = GOAL → P.length ≤ l.length)
    (j : ℕ) (hj : j < P.length) : wAt start P j ≠ GOAL := by
  intro h
  obtain ⟨htake, htakeend⟩ := wAt_prefix start P hP j (Nat.le_of_lt hj)
  have := hmin (P.take j) htake (htakeend.trans h)
  rw [List.length_take] at this
  omega

/-- Every configuration along a chain from a valid start is valid. -/
theorem wAt_valid (start : Config) (hs : List.Perm start GOAL) (P : List Config)
    (hP : ChainFrom start P) (j : ℕ) (hj : j ≤ P.length) :
    List.Perm (wAt start P j) GOAL := by
  cases j with
  | zero => exact hs
  | succ j =>
    have hjlt : j + 1 ≤ P.length := hj
    have hb : j + 1 < (start :: P).length := by
      simp only [List.length_cons]
      omega
    have hbp : j < P.length := by omega
    have : wAt start P (j + 1) ∈ P := by
      show (start :: P).getD (j + 1) GOAL ∈ P
      rw [List.getD_eq_getElem (start :: P) GOAL hb]
      show (start :: P)[j + 1] ∈ P
      rw [List.getElem_cons_succ]
      exact P.getElem_mem hbp
    exact chainFrom_valid start hs P hP _ this

/-- The full A* correctness invariant, relative to a fixed minimal
solution `P` from `start`: the recorded costs are sound (realised by
actual move chains), open nodes carry consistent `f`-values and recorded
costs, every expanded configuration has all neighbours recorded within
one, goal entries keep their node in the open list, some prefix point of
`P` sits in the open list at its exact optimal cost, parent links
realise strictly cost-decreasing legal moves, and the two maps have the
same keys. -/
def AInv (start : Config) (P : List Config) (st : SState) : Prop :=
  InvState st ∧
  mapGet st.gbest start = some 0 ∧
  mapGet st.parent start = some none ∧
  (∀ c v, mapGet st.gbest c = some v →
    ∃ l, ChainFrom start l ∧ endOf start l = c ∧ l.length = v) ∧
  (∀ nd ∈ st.opn, nd.f = nd.g + manhattan nd.s ∧
    (∃ l, ChainFrom start l ∧ endOf start l = nd.s ∧ l.length = nd.g) ∧
    ∃ gb, mapGet st.gbest nd.s = some gb ∧ gb ≤ nd.g) ∧
  (∀ c v, mapGet st.gbest c = some v → c ≠ GOAL →
    ((⟨v + manhattan c, v, c⟩ : Node) ∈ st.opn ∨
      ∀ u ∈ neighbors c, ∃ gu, mapGet st.gbest u = some gu ∧ gu ≤ v + 1)) ∧
  (∀ v, mapGet st.gbest GOAL = some v → (⟨v + manhattan GOAL, v, GOAL⟩ : Node) ∈ st.opn) ∧
  (∃ i, i ≤ P.length ∧ mapGet st.gbest (wAt start P i) = some i ∧
    (⟨i + manhattan (wAt start P i), i, wAt start P i⟩ : Node) ∈ st.opn) ∧
  (∀ c v, mapGet st.gbest c = some v →
    c = start ∨ ∃ p gp, mapGet st.parent c = some (some p) ∧ c ∈ neighbors p ∧
      mapGet st.gbest p = some gp ∧ gp < v) ∧
  st.parent.map Prod.fst = st.gbest.map Prod.fst

/-- The invariant holds on the initial search state. -/
theorem AInv_init (start : Config) (hs : List.Perm start GOAL) (hne : start ≠ GOAL)
    (P : List Config) : AInv start P (initState start) := by
  have hnode : (⟨0 + manhattan start, 0, start⟩ : Node) = ⟨manhattan start, 0, start⟩ := by
    rw [Nat.zero_add]
  have hget : ∀ c v, mapGet [(start, (0 : ℕ))] c = some v → c = start ∧ v = 0 := by
    intro c v h
    by_cases hc : start = c
    · subst hc
      simp [mapGet] at h
      exact ⟨rfl, h.symm⟩
    · simp [mapGet, hc] at h
  refine ⟨initState_inv start hs, by simp [initState, mapGet], by simp [initState, mapGet],
    ?_, ?_, ?_, ?_, ?_, ?_, by simp [initState]⟩
  · intro c v h
    obtain ⟨rfl, rfl⟩ := hget c v h
    exact ⟨[], trivial, rfl, rfl⟩
  · intro nd hnd
    simp only [initState, List.mem_singleton] at hnd
    subst hnd
    refine ⟨by simp, ⟨[], trivial, rfl, rfl⟩, 0, by simp [mapGet], Nat.le_refl 0⟩
  · intro c v h _
    obtain ⟨rfl, rfl⟩ := hget c v h
    refine Or.inl ?_
    show _ ∈ [(⟨manhattan c, 0, c⟩ : Node)]
    rw [hnode]
    exact List.mem_singleton.2 rfl
  · intro v h
    obtain ⟨hc, -⟩ := hget GOAL v h
    exact absurd hc.symm hne
  · refine ⟨0, Nat.zero_le _, ?_, ?_⟩
    · show mapGet [(start, (0 : ℕ))] start = some 0
      simp [mapGet]
    · show _ ∈ [(⟨manhattan start, 0, start⟩ : Node)]
      show (⟨0 + manhattan (wAt start P 0), 0, wAt start P 0⟩ : Node) ∈ _
      rw [wAt_zero, hnode]
      exact List.mem_singleton.2 rfl
  · intro c v h
    exact Or.inl (hget c v h).1

theorem reconstructAux_none_eq (fuel : ℕ) (par : List (Config × Option Config)) (cur : Config)
    (h : mapGet par cur = some none) : reconstructAux (fuel + 1) par cur = [] := by
  conv_lhs => unfold reconstructAux
  rw [h]

theorem reconstructAux_step_eq (fuel : ℕ) (par : List (Config × Option Config)) (cur p : Config)
    (h : mapGet par cur = some (some p)) :
    reconstructAux (fuel + 1) par cur = cur :: reconstructAux fuel par p := by
  conv_lhs => unfold reconstructAux
  rw [h]

/-- Full description of the parent-chain walk: given enough fuel it
produces (reversed) a legal move chain from `start` to the queried
configuration, no longer than that configuration's recorded cost,
duplicate-free, avoiding `start`, with every member a recorded key; and
the result is fuel-insensitive beyond its own length. -/
theorem reconstructAux_spec (start : Config) (par : List (Config × Option Config))
    (gb : List (Config × ℕ))
    (hstart0 : mapGet gb start = some 0)
    (hstartp : mapGet par start = some none)
    (hPInv : ∀ c v, mapGet gb c = some v → c = start ∨ ∃ p gp,
      mapGet par c = some (some p) ∧ c ∈ neighbors p ∧ mapGet gb p = some gp ∧ gp < v) :
    ∀ fuel v cur, mapGet gb cur = some v → v < fuel →
      ChainFrom start (reconstructAux fuel par cur).reverse ∧
      endOf start (reconstructAux fuel par cur).reverse = cur ∧
      (reconstructAux fuel par cur).length ≤ v ∧
      start ∉ reconstructAux fuel par cur ∧
      (reconstructAux fuel par cur).Nodup ∧
      (∀ c ∈ reconstructAux fuel par cur, ∃ vc, mapGet gb c = some vc ∧ vc ≤ v) ∧
      (∀ c ∈ reconstructAux fuel par cur, c ∈ par.map Prod.fst) ∧
      (∀ fuel2, (reconstructAux fuel par cur).length < fuel2 →
        reconstructAux fuel2 par cur = reconstructAux fuel par cur) := by
  intro fuel
  induction fuel with
  | zero =>
    intro v cur _ hv
    exact absurd hv (Nat.not_lt_zero v)
  | succ f ih =>
    intro v cur hcur hv
    rcases hPInv cur v hcur with rfl | ⟨p, gp, hpc, hcnp, hgbp, hlt⟩
    · rw [reconstructAux_none_eq f par cur hstartp]
      refine ⟨trivial, rfl, Nat.zero_le v, List.not_mem_nil _, List.nodup_nil,
        ?_, ?_, ?_⟩
      · intro c hc
        exact absurd hc (List.not_mem_nil c)
      · intro c hc
        exact absurd hc (List.not_mem_nil c)
      · intro fuel2 hf2
        cases fuel2 with
        | zero => exact absurd hf2 (by simp)
        | succ f2 => exact reconstructAux_none_eq f2 par cur hstartp
    · have hcs : cur ≠ start := by
        intro h
        rw [h, hstart0] at hcur
        have := Option.some.inj hcur
        omega
      have hgpf : gp < f := by omega
      obtain ⟨ih1, ih2, ih3, ih4, ih5, ih6, ih7, ih8⟩ := ih gp p hgbp hgpf
      rw [reconstructAux_step_eq f par cur p hpc]
      have hsnoc := chainFrom_snoc start cur (reconstructAux f par p).reverse ih1
        (by rw [ih2]; exact hcnp)
      refine ⟨?_, ?_, ?_, ?_, ?_, ?_, ?_, ?_⟩
      · rw [List.reverse_cons]
        exact hsnoc.1
      · rw [List.reverse_cons]
        exact hsnoc.2
      · simp only [List.length_cons]
        omega
      · intro hmem
        rcases List.mem_cons.1 hmem with h | h
        · exact hcs h.symm
        · exact ih4 h
      · refine List.nodup_cons.2 ⟨?_, ih5⟩
        intro hmem
        obtain ⟨vc, hvc, hvcle⟩ := ih6 cur hmem
        rw [hcur] at hvc
        have := Option.some.inj hvc
        omega
      · intro c hc
        rcases List.mem_cons.1 hc with rfl | h
        · exact ⟨v, hcur, Nat.le_refl v⟩
        · obtain ⟨vc, hvc, hvcle⟩ := ih6 c h
          exact ⟨vc, hvc, by omega⟩
      · intro c hc
        rcases List.mem_cons.1 hc with rfl | h
        · exact mem_keys_of_mapGet_some par c (some p) hpc
        · exact ih7 c h
      · intro fuel2 hf2
        cases fuel2 with
        | zero => exact absurd hf2 (by simp)
        | succ f2 =>
          rw [reconstructAux_step_eq f2 par cur p hpc]
          rw [ih8 f2 (by simp only [List.length_cons] at hf2; omega)]

/-- Correctness of the source's path reconstruction at the goal: under
the parent/cost soundness facts of the search invariant, it yields a
legal move chain from `start` ending at the goal, at most `k` long. -/
theorem reconstruct_spec (start : Config) (par : List (Config × Option Config))
    (gb : List (Config × ℕ)) (k : ℕ)
    (hstart0 : mapGet gb start = some 0)
    (hstartp : mapGet par start = some none)
    (hPInv : ∀ c v, mapGet gb c = some v → c = start ∨ ∃ p gp,
      mapGet par c = some (some p) ∧ c ∈ neighbors p ∧ mapGet gb p = some gp ∧ gp < v)
    (hk : mapGet gb GOAL = some k) :
    ChainFrom start (reconstruct par GOAL) ∧
    endOf start (reconstruct par GOAL) = GOAL ∧
    (reconstruct par GOAL).length ≤ k := by
  obtain ⟨h1, h2, h3, h4, h5, h6, h7, h8⟩ :=
    reconstructAux_spec start par gb hstart0 hstartp hPInv (k + 1) k GOAL hk
      (Nat.lt_succ_self k)
  have hsub : List.Subperm (start :: reconstructAux (k + 1) par GOAL)
      (par.map Prod.fst) := by
    refine List.Nodup.subperm (List.nodup_cons.2 ⟨h4, h5⟩) ?_
    intro c hc
    rcases List.mem_cons.1 hc with rfl | hc2
    · exact mem_keys_of_mapGet_some par c none hstartp
    · exact h7 c hc2
  have hlen := hsub.length_le
  simp only [List.length_cons, List.length_map] at hlen
  have hstab := h8 par.length (by omega)
  unfold reconstruct
  rw [hstab]
  exact ⟨h1, h2, by simpa using h3⟩

/-- One non-goal iteration of the search loop preserves the full
invariant: pop the minimal-`f` node and sweep its neighbours. -/
theorem AInv_step (start : Config) (P : List Config)
    (hP : ChainFrom start P) (hPend : endOf start P = GOAL)
    (hmin : ∀ l, ChainFrom start l → endOf start l = GOAL → P.length ≤ l.length)
    (st : SState) (hA : AInv start P st)
    (x : Node) (xs : List Node) (hopn : st.opn = x :: xs)
    (hgoal : ¬ (popMin x xs).1.s = GOAL) :
    AInv start P
      (expandAll (popMin x xs).1.g (popMin x xs).1.s (neighbors (popMin x xs).1.s)
        { st with opn := (popMin x xs).2 }) := by
  obtain ⟨hInv, hS0g, hS0p, hS1, hS2, hK, hKG, hM, hPI, hsync⟩ := hA
  obtain ⟨pd, rest, hpop⟩ : ∃ pd rest, popMin x xs = (pd, rest) :=
    ⟨(popMin x xs).1, (popMin x xs).2, rfl⟩
  rw [hpop] at hgoal ⊢
  dsimp only at hgoal ⊢
  have hperm := popMin_perm x xs
  rw [hpop] at hperm
  dsimp only at hperm
  have hperm2 : List.Perm (pd :: rest) st.opn := by
    rw [hopn]
    exact hperm
  have hmem1 : pd ∈ st.opn := hperm2.mem_iff.1 (List.mem_cons_self _ _)
  have hrest_sub : ∀ nd ∈ rest, nd ∈ st.opn :=
    fun nd hnd => hperm2.mem_iff.1 (List.mem_cons_of_mem _ hnd)
  have hrest_mem : ∀ nd ∈ st.opn, nd ≠ pd → nd ∈ rest := by
    intro nd hnd hne
    have h := popMin_rest_mem x xs nd (by rw [← hopn]; exact hnd)
      (by rw [hpop]; exact hne)
    rw [hpop] at h
    exact h
  obtain ⟨hpdf, ⟨lpd, hlpd, hlpdend, hlpdlen⟩, gbpd, hgbpd, hgbpdle⟩ := hS2 pd hmem1
  have hpdval : List.Perm pd.s GOAL := hInv.1 pd hmem1
  have hns : ∀ n ∈ neighbors pd.s, List.Perm n GOAL :=
    fun n hn => ((neighbors_full _ hpdval).2.1 n hn).1
  have hmidInv : InvState { st with opn := rest } := by
    refine ⟨?_, hInv.2.1, hInv.2.2⟩
    intro nd hnd
    exact hInv.1 nd (hrest_sub nd hnd)
  have hEF := expandAll_facts pd.g pd.s (neighbors pd.s) { st with opn := rest }
  set fin := expandAll pd.g pd.s (neighbors pd.s) { st with opn := rest } with hfindef
  obtain ⟨tail, E1, E2, E3, E4, E5, E6, E7, E8, E9, E10⟩ := hEF
  dsimp only at E1 E2 E3 E4 E5 E6 E7 E8 E9 E10
  have hInvfin : InvState fin := by
    rw [hfindef]
    exact (expandAll_step pd.g pd.s (neighbors pd.s) hns { st with opn := rest } hmidInv).1
  have hS1fin : ∀ c v, mapGet fin.gbest c = some v →
      ∃ l, ChainFrom start l ∧ endOf start l = c ∧ l.length = v := by
    intro c v hv
    rcases E4 c v hv with hpre | ⟨hcns, hveq, htl⟩
    · exact hS1 c v hpre
    · subst hveq
      obtain ⟨hchain, hend⟩ := chainFrom_snoc start c lpd hlpd (by rw [hlpdend]; exact hcns)
      exact ⟨lpd ++ [c], hchain, hend, by simp [hlpdlen]⟩
  have hlow : ∀ j, j ≤ P.length → ∀ v,
      mapGet fin.gbest (wAt start P j) = some v → j ≤ v := by
    intro j hj v hv
    obtain ⟨l, hl, hle, hlen⟩ := hS1fin _ v hv
    have := wAt_length_lower_bound start P hP hPend hmin j hj l hl hle
    omega
  have hforce : ∀ j, j ≤ P.length → ∀ v,
      mapGet fin.gbest (wAt start P j) = some v → v ≤ j → v = j :=
    fun j hj v hv hle => Nat.le_antisymm hle (hlow j hj v hv)
  have hKfin : ∀ c v, mapGet fin.gbest c = some v → c ≠ GOAL →
      ((⟨v + manhattan c, v, c⟩ : Node) ∈ fin.opn ∨
        ∀ u ∈ neighbors c, ∃ gu, mapGet fin.gbest u = some gu ∧ gu ≤ v + 1) := by
    intro c v hv hcg
    rcases E4 c v hv with hpre | ⟨hcns, hveq, htl⟩
    · rcases hK c v hpre hcg with hnode | hbnd
      · by_cases hne : (⟨v + manhattan c, v, c⟩ : Node) = pd
        · have hcs : c = pd.s := by rw [← hne]
          have hvg : v = pd.g := by rw [← hne]
          refine Or.inr ?_
          intro u hu
          rw [hcs] at hu
          obtain ⟨gu, hgu, hgule⟩ := E6 u hu
          exact ⟨gu, hgu, by omega⟩
        · refine Or.inl ?_
          rw [E1]
          exact List.mem_append_left _ (hrest_mem _ hnode hne)
      · refine Or.inr ?_
        intro u hu
        obtain ⟨gu, hgu, hgule⟩ := hbnd u hu
        obtain ⟨gu2, hgu2, hgu2le⟩ := E5 u gu hgu
        exact ⟨gu2, hgu2, by omega⟩
    · subst hveq
      refine Or.inl ?_
      rw [E1]
      exact List.mem_append_right _ htl
  have hKGfin : ∀ v, mapGet fin.gbest GOAL = some v →
      (⟨v + manhattan GOAL, v, GOAL⟩ : Node) ∈ fin.opn := by
    intro v hv
    rcases E4 GOAL v hv with hpre | ⟨hcns, hveq, htl⟩
    · have hnode := hKG v hpre
      have hne : (⟨v + manhattan GOAL, v, GOAL⟩ : Node) ≠ pd := by
        intro h
        apply hgoal
        rw [← h]
      rw [E1]
      exact List.mem_append_left _ (hrest_mem _ hnode hne)
    · subst hveq
      rw [E1]
      exact List.mem_append_right _ htl
  have hS2fin : ∀ nd ∈ fin.opn, nd.f = nd.g + manhattan nd.s ∧
      (∃ l, ChainFrom start l ∧ endOf start l = nd.s ∧ l.length = nd.g) ∧
      ∃ gb, mapGet fin.gbest nd.s = some gb ∧ gb ≤ nd.g := by
    intro nd hnd
    rw [E1] at hnd
    rcases List.mem_append.1 hnd with h | h
    · obtain ⟨hf, hpath, gb2, hgb2, hgb2le⟩ := hS2 nd (hrest_sub nd h)
      obtain ⟨gb3, hgb3, hgb3le⟩ := E5 nd.s gb2 hgb2
      exact ⟨hf, hpath, gb3, hgb3, by omega⟩
    · obtain ⟨u, hu, hndeq, hufin, hupar⟩ := E2 nd h
      subst hndeq
      refine ⟨rfl, ?_, pd.g + 1, hufin, Nat.le_refl _⟩
      obtain ⟨hchain, hend⟩ := chainFrom_snoc start u lpd hlpd (by rw [hlpdend]; exact hu)
      exact ⟨lpd ++ [u], hchain, hend, by simp [hlpdlen]⟩
  have hPIfin : ∀ c v, mapGet fin.gbest c = some v →
      c = start ∨ ∃ p gp, mapGet fin.parent c = some (some p) ∧ c ∈ neighbors p ∧
        mapGet fin.gbest p = some gp ∧ gp < v := by
    intro c v hv
    rcases E4 c v hv with hpre | ⟨hcns, hveq, htl⟩
    · have hpar : mapGet fin.parent c = mapGet st.parent c := E8 c v hpre hv
      rcases hPI c v hpre with hcst | ⟨p, gp, hpc, hcnp, hgbp, hlt⟩
      · exact Or.inl hcst
      · refine Or.inr ?_
        obtain ⟨gp2, hgp2, hgp2le⟩ := E5 p gp hgbp
        exact ⟨p, gp2, by rw [hpar]; exact hpc, hcnp, hgp2, by omega⟩
    · subst hveq
      refine Or.inr ?_
      obtain ⟨u, hu, hndeq, hufin, hupar⟩ := E2 _ htl
      have hcu : c = u := congrArg Node.s hndeq
      have hupar2 : mapGet fin.parent c = some (some pd.s) := by
        rw [hcu]
        exact hupar
      obtain ⟨gpd2, hgpd2, hgpd2le⟩ := E5 pd.s gbpd hgbpd
      exact ⟨pd.s, gpd2, hupar2, hcns, hgpd2, by omega⟩
  obtain ⟨i, hik, hgbi, hndi⟩ := hM
  have hWk : wAt start P P.length = GOAL := by
    rw [wAt_last]
    exact hPend
  have hMfin : ∃ i2, i2 ≤ P.length ∧ mapGet fin.gbest (wAt start P i2) = some i2 ∧
      (⟨i2 + manhattan (wAt start P i2), i2, wAt start P i2⟩ : Node) ∈ fin.opn := by
    obtain ⟨v, hvfin, hvle⟩ := E5 _ i hgbi
    have hv_eq : v = i := hforce i hik v hvfin hvle
    rw [hv_eq] at hvfin
    by_cases hcase : (⟨i + manhattan (wAt start P i), i, wAt start P i⟩ : Node) = pd
    · have hclimb : ∀ d i2, i2 + d = P.length →
          mapGet fin.gbest (wAt start P i2) = some i2 →
          ∃ i3, i3 ≤ P.length ∧ mapGet fin.gbest (wAt start P i3) = some i3 ∧
            (⟨i3 + manhattan (wAt start P i3), i3, wAt start P i3⟩ : Node) ∈ fin.opn := by
        intro d
        induction d with
        | zero =>
          intro i2 hi2 hgb2
          have hi2e : i2 = P.length := by omega
          subst hi2e
          refine ⟨P.length, Nat.le_refl _, hgb2, ?_⟩
          rw [hWk] at hgb2 ⊢
          exact hKGfin P.length hgb2
        | succ d ih =>
          intro i2 hi2 hgb2
          have hi2lt : i2 < P.length := by omega
          have hne2 : wAt start P i2 ≠ GOAL := wAt_ne_goal start P hP hmin i2 hi2lt
          rcases hKfin _ i2 hgb2 hne2 with hnode | hbnd
          · exact ⟨i2, by omega, hgb2, hnode⟩
          · have hstep := wAt_step start P hP i2 hi2lt
            obtain ⟨gu, hgu, hgule⟩ := hbnd _ hstep
            have hgu_eq : gu = i2 + 1 := hforce (i2 + 1) (by omega) gu hgu hgule
            rw [hgu_eq] at hgu
            exact ih (i2 + 1) (by omega) hgu
      exact hclimb (P.length - i) i (by omega) hvfin
    · refine ⟨i, hik, hvfin, ?_⟩
      rw [E1]
      exact List.mem_append_left _ (hrest_mem _ hndi hcase)
  refine ⟨hInvfin, ?_, ?_, hS1fin, hS2fin, hKfin, hKGfin, hMfin, hPIfin, E9 hsync⟩
  · exact (E3 start 0 hS0g (Nat.zero_le _)).1
  · rw [(E3 start 0 hS0g (Nat.zero_le _)).2]
    exact hS0p

/-- The search loop, started in any state satisfying the invariant for a
minimal solution `P`, terminates with a solution path of exactly the
minimal length. -/
theorem loopFuel_optimal (start : Config) (hstart : List.Perm start GOAL)
    (P : List Config) (hP : ChainFrom start P) (hPend : endOf start P = GOAL)
    (hmin : ∀ l, ChainFrom start l → endOf start l = GOAL → P.length ≤ l.length)
    (st : SState) (hA : AInv start P st) :
    ∃ n path, loopFuel n st = some (some path) ∧
      ChainFrom start path ∧ endOf start path = GOAL ∧ path.length = P.length := by
  revert hA
  refine @WellFounded.induction SState (InvImage measRel meas) (InvImage.wf meas measRel_wf)
    (fun st => AInv start P st →
      ∃ n path, loopFuel n st = some (some path) ∧
        ChainFrom start path ∧ endOf start path = GOAL ∧ path.length = P.length) st ?_
  intro st ih hA
  cases hopn : st.opn with
  | nil =>
    obtain ⟨i, hik, hgbi, hndi⟩ := hA.2.2.2.2.2.2.2.1
    rw [hopn] at hndi
    exact absurd hndi (List.not_mem_nil _)
  | cons x xs =>
    have hperm := popMin_perm x xs
    have hmem1 : (popMin x xs).1 ∈ st.opn := by
      rw [hopn]
      exact hperm.mem_iff.1 (List.mem_cons_self _ _)
    by_cases hgoal : (popMin x xs).1.s = GOAL
    · have hS0g := hA.2.1
      have hS0p := hA.2.2.1
      have hS1 := hA.2.2.2.1
      have hS2 := hA.2.2.2.2.1
      have hM := hA.2.2.2.2.2.2.2.1
      have hPI := hA.2.2.2.2.2.2.2.2.1
      obtain ⟨hpdf, ⟨lpd, hlpd, hlpdend, hlpdlen⟩, gbpd, hgbpd, hgbpdle⟩ := hS2 _ hmem1
      have hpdf2 : (popMin x xs).1.f = (popMin x xs).1.g := by
        rw [hpdf, hgoal, manhattan_goal_zero]
        omega
      have hlower : P.length ≤ (popMin x xs).1.g := by
        have := hmin lpd hlpd (by rw [hlpdend, hgoal])
        omega
      obtain ⟨i, hik, hgbi, hndi⟩ := hM
      have hfle : (popMin x xs).1.f ≤ i + manhattan (wAt start P i) :=
        popMin_min x xs ⟨i + manhattan (wAt start P i), i, wAt start P i⟩
          (by rw [← hopn]; exact hndi)
      have hman : manhattan (wAt start P i) ≤ P.length - i := by
        obtain ⟨hsuf, hsufend⟩ := wAt_suffix start P hP i hik
        have hval := wAt_valid start hstart P hP i hik
        have := manhattan_le_chain _ hval (P.drop i) hsuf (by rw [hsufend, hPend])
        rw [List.length_drop] at this
        exact this
      have hgk : (popMin x xs).1.g = P.length := by omega
      have hgbgoal : mapGet st.gbest GOAL = some P.length := by
        rw [← hgoal]
        obtain ⟨l2, hl2, hl2end, hl2len⟩ := hS1 _ gbpd hgbpd
        have hk2 : P.length ≤ gbpd := by
          have := hmin l2 hl2 (by rw [hl2end, hgoal])
          omega
        have hgbe : gbpd = P.length := by omega
        rw [hgbpd, hgbe]
      obtain ⟨hrc, hrce, hrcl⟩ :=
        reconstruct_spec start st.parent st.gbest P.length hS0g hS0p hPI hgbgoal
      have hlen2 : P.length ≤ (reconstruct st.parent GOAL).length := hmin _ hrc hrce
      refine ⟨1, reconstruct st.parent GOAL, ?_, hrc, hrce, by omega⟩
      have hstep := loopFuel_cons_goal 0 st x xs hopn hgoal
      rw [hstep, hgoal]
    · have hA2 := AInv_step start P hP hPend hmin st hA x xs hopn hgoal
      have hvpop : List.Perm (popMin x xs).1.s GOAL := hA.1.1 _ hmem1
      have hns : ∀ n ∈ neighbors (popMin x xs).1.s, List.Perm n GOAL := by
        intro n hn
        exact ((neighbors_full _ hvpop).2.1 n hn).1
      have hmidInv : InvState { st with opn := (popMin x xs).2 } := by
        refine ⟨?_, hA.1.2.1, hA.1.2.2⟩
        intro nd hnd
        refine hA.1.1 nd ?_
        rw [hopn]
        exact hperm.mem_iff.1 (List.mem_cons_of_mem _ hnd)
      obtain ⟨hInv2, hdec2, tail, htail, htails⟩ :=
        expandAll_step (popMin x xs).1.g (popMin x xs).1.s (neighbors (popMin x xs).1.s) hns
          { st with opn := (popMin x xs).2 } hmidInv
      have hmeas : InvImage measRel meas
          (expandAll (popMin x xs).1.g (popMin x xs).1.s (neighbors (popMin x xs).1.s)
            { st with opn := (popMin x xs).2 }) st := by
        show measRel _ (meas st)
        rcases hdec2 with heq | hd
        · rw [heq]
          unfold meas gbestSum
          refine Or.inr ⟨rfl, Or.inr ⟨rfl, ?_⟩⟩
          show (popMin x xs).2.length < st.opn.length
          rw [hopn, popMin_length]
          simp
        · rcases hd with hd | ⟨hd1, hd2⟩
          · exact Or.inl hd
          · exact Or.inr ⟨hd1, Or.inl hd2⟩
      obtain ⟨n, path, heq, hc1, hc2, hc3⟩ := ih _ hmeas hA2
      refine ⟨n + 1, path, ?_, hc1, hc2, hc3⟩
      rw [loopFuel_cons_expand n st x xs hopn hgoal]
      exact heq

/-- Working form of the full A* correctness statement. -/
theorem aStar_optimal_full (start : Config) (hs : List.Perm start GOAL)
    (hreach : ∃ l, ChainFrom start l ∧ endOf start l = GOAL) :
    ∃ fuel path, aStar start fuel = some (some path) ∧
      ChainFrom start path ∧ endOf start path = GOAL ∧
      ∀ l, ChainFrom start l → endOf start l = GOAL → path.length ≤ l.length := by
  obtain ⟨l0, hl0, hl0e⟩ := hreach
  have hne : {n : ℕ | ∃ l, ChainFrom start l ∧ endOf start l = GOAL ∧ l.length = n}.Nonempty :=
    ⟨l0.length, l0, hl0, hl0e, rfl⟩
  obtain ⟨P, hP, hPe, hPlen⟩ := Nat.sInf_mem hne
  have hmin : ∀ l, ChainFrom start l → endOf start l = GOAL → P.length ≤ l.length := by
    intro l hl hle
    rw [hPlen]
    exact Nat.sInf_le ⟨l, hl, hle, rfl⟩
  by_cases hg : start = GOAL
  · refine ⟨0, [], ?_, trivial, ?_, ?_⟩
    · rw [hg]
      exact aStar_goal_eq 0
    · rw [endOf_nil]
      exact hg
    · intro l _ _
      exact Nat.zero_le _
  · obtain ⟨n, path, heq, hc1, hc2, hc3⟩ :=
      loopFuel_optimal start hs P hP hPe hmin (initState start) (AInv_init start hs hg P)
    refine ⟨n, path, ?_, hc1, hc2, ?_⟩
    · rw [aStar_eq_loop start n hg]
      exact heq
    · intro l hl hle
      rw [hc3]
      exact hmin l hl hle

/-- **C1.** Full A* correctness: for a valid configuration from which
the goal is reachable by legal moves (the claim's "true minimum number
of moves from C" presupposes such a move sequence exists), some fuel
makes `solve` return a path that is a legal move chain from the start
(start-exclusive: each element, the first included, is a neighbour of
its predecessor), ends at the goal (goal-inclusive), and is no longer
than any legal solution — its length is the true minimum number of
moves. -/
theorem aStar_optimal (start : Config) (hs : List.Perm start GOAL)
    (hreach : ∃ l, ChainFrom start l ∧ endOf start l = GOAL) :
    ∃ fuel path, aStar start fuel = some (some path) ∧
      ChainFrom start path ∧ endOf start path = GOAL ∧
      ∀ l, ChainFrom start l → endOf start l = GOAL → path.length ≤ l.length :=
  aStar_optimal_full start hs hreach

/-- Witness for `aStar_optimal` at a one-move-from-goal configuration,
with the one-step solution as the reachability certificate. -/
theorem aStar_optimal_witness :
    List.Perm [1, 2, 3, 4, 5, 0, 7, 8, 6] GOAL ∧
    (∃ l, ChainFrom [1, 2, 3, 4, 5, 0, 7, 8, 6] l ∧
      endOf [1, 2, 3, 4, 5, 0, 7, 8, 6] l = GOAL) ∧
    ∃ fuel path, aStar [1, 2, 3, 4, 5, 0, 7, 8, 6] fuel = some (some path) ∧
      ChainFrom [1, 2, 3, 4, 5, 0, 7, 8, 6] path ∧
      endOf [1, 2, 3, 4, 5, 0, 7, 8, 6] path = GOAL ∧
      ∀ l, ChainFrom [1, 2, 3, 4, 5, 0, 7, 8, 6] l →
        endOf [1, 2, 3, 4, 5, 0, 7, 8, 6] l = GOAL → path.length ≤ l.length :=
  ⟨by decide, ⟨[GOAL], ⟨by decide, trivial⟩, rfl⟩,
    aStar_optimal _ (by decide) ⟨[GOAL], ⟨by decide, trivial⟩, rfl⟩⟩

/-! ### Solvability and reachability (C2) -/

/-! ### Reachability by legal moves -/

/-- `b` is reachable from `a` by a sequence of legal moves. -/
def Reach (a b : Config) : Prop := ∃ l, ChainFrom a l ∧ endOf a l = b

theorem reach_refl (a : Config) : Reach a a := ⟨[], trivial, rfl⟩

theorem Reach.trans {a b c : Config} (h1 : Reach a b) (h2 : Reach b c) : Reach a c := by
  obtain ⟨l1, hc1, he1⟩ := h1
  obtain ⟨l2, hc2, he2⟩ := h2
  refine ⟨l1 ++ l2, ?_, ?_⟩
  · rw [chainFrom_append]
    refine ⟨hc1, ?_⟩
    rw [he1]
    exact hc2
  · rw [endOf_append, he1, he2]

theorem reach_step (a b : Config) (h : b ∈ neighbors a) : Reach a b :=
  ⟨[b], ⟨h, trivial⟩, rfl⟩

/-- The grid adjacency underlying `cand` is symmetric. -/
theorem cand_symm : ∀ z < 9, ∀ j ∈ cand z, z ∈ cand j := by decide

/-- Swapping back restores the original list. -/
theorem swapAt_invol (l : List ℕ) (i j : ℕ) (hi : i < l.length) (hj : j < l.length)
    (hij : i ≠ j) : swapAt (swapAt l i j) j i = l := by
  have hlen1 : (swapAt l i j).length = l.length := length_swapAt l i j
  refine List.ext_getElem (by rw [length_swapAt, length_swapAt]) ?_
  intro k hk1 hk2
  have hkm : k < (swapAt l i j).length := by
    rw [hlen1]
    exact hk2
  by_cases hki : k = i
  · subst hki
    rw [swapAt_getElem_snd (swapAt l k j) j k (by omega) (by omega) hk1]
    exact swapAt_getElem_snd l k j hi hj (by rw [length_swapAt]; omega)
  · by_cases hkj : k = j
    · subst hkj
      rw [swapAt_getElem_fst (swapAt l i k) k i (by omega) (by omega) (fun h => hij h.symm) hk1]
      exact swapAt_getElem_fst l i k hi hj hij (by rw [length_swapAt]; omega)
    · rw [swapAt_getElem_other (swapAt l i j) j i k (by omega) hkj hki hk1]
      exact swapAt_getElem_other l i j k hk2 hki hkj hkm

/-- Legal moves are reversible. -/
theorem neighbors_symm (s : Config) (hs : List.Perm s GOAL) (n : Config)
    (hn : n ∈ neighbors s) : s ∈ neighbors n := by
  have hz9 := valid_indexOf_zero_lt hs
  have hlen := valid_length hs
  rw [neighbors_eq_map] at hn
  obtain ⟨j, hj, rfl⟩ := List.mem_map.1 hn
  obtain ⟨hj9, hjz, -⟩ := cand_mem_facts _ hz9 j hj
  have hidx : (swapAt s (s.indexOf 0) j).indexOf 0 = j := swapAt_zero_indexOf s hs j hj9
  rw [neighbors_eq_map, hidx]
  refine List.mem_map.2 ⟨s.indexOf 0, cand_symm _ hz9 j hj, ?_⟩
  exact swapAt_invol s (s.indexOf 0) j (by omega) (by omega) (fun h => hjz h.symm)

theorem reach_symm (a : Config) (ha : List.Perm a GOAL) (b : Config) (h : Reach a b) :
    Reach b a := by
  obtain ⟨l, hc, he⟩ := h
  subst he
  induction l generalizing a with
  | nil => exact reach_refl a
  | cons x xs ih =>
    have hxv : List.Perm x GOAL := ((neighbors_full a ha).2.1 x hc.1).1
    have h1 : Reach (endOf x xs) x := ih x hxv hc.2
    have h2 : Reach x a := reach_step x a (neighbors_symm a ha x hc.1)
    rw [endOf_cons]
    exact h1.trans h2

/-- Reachability preserves inversion parity. -/
theorem reach_parity (a : Config) (ha : List.Perm a GOAL) (b : Config) (h : Reach a b) :
    inversions b % 2 = inversions a % 2 := by
  obtain ⟨l, hc, he⟩ := h
  subst he
  induction l generalizing a with
  | nil => rfl
  | cons x xs ih =>
    have hxv : List.Perm x GOAL := ((neighbors_full a ha).2.1 x hc.1).1
    have hx := (parity_invariant_full a ha x hc.1).1
    rw [endOf_cons]
    exact (ih x hxv hc.2).trans hx

/-- Reachability preserves validity. -/
theorem reach_valid (a : Config) (ha : List.Perm a GOAL) (b : Config) (h : Reach a b) :
    List.Perm b GOAL := by
  obtain ⟨l, hc, he⟩ := h
  rw [← he]
  exact endOf_valid a ha l hc

/-! ### Tile-relabeling equivariance -/

/-- Exchange the tile values `a` and `b`. -/
def swapT (a b : ℕ) : ℕ → ℕ := fun v => if v = a then b else if v = b then a else v

theorem swapT_invol (a b v : ℕ) : swapT a b (swapT a b v) = v := by
  unfold swapT
  split_ifs <;> omega

theorem swapT_zero (a b : ℕ) (ha : a ≠ 0) (hb : b ≠ 0) : swapT a b 0 = 0 := by
  unfold swapT
  rw [if_neg (fun h => ha h.symm), if_neg (fun h => hb h.symm)]

theorem swapT_eq_zero (a b v : ℕ) (ha : a ≠ 0) (hb : b ≠ 0) (h : swapT a b v = 0) : v = 0 := by
  unfold swapT at h
  split_ifs at h <;> omega

/-- Relabeling tiles (fixing the blank) does not move the blank. -/
theorem indexOf_zero_map (f : ℕ → ℕ) (hf : f 0 = 0) (hf2 : ∀ v, f v = 0 → v = 0)
    (s : List ℕ) : (s.map f).indexOf 0 = s.indexOf 0 := by
  induction s with
  | nil => rfl
  | cons x xs ih =>
    by_cases hx : x = 0
    · subst hx
      rw [List.map_cons, hf, List.indexOf_cons_self, List.indexOf_cons_self]
    · have hfx : f x ≠ 0 := fun h => hx (hf2 x h)
      rw [List.map_cons, List.indexOf_cons_ne _ hfx, List.indexOf_cons_ne _ hx, ih]

theorem getD_map_zero (f : ℕ → ℕ) (hf : f 0 = 0) (l : List ℕ) (n : ℕ) :
    (l.map f).getD n 0 = f (l.getD n 0) := by
  induction l generalizing n with
  | nil => simp [hf]
  | cons x xs ih =>
    cases n with
    | zero => rfl
    | succ n => exact ih n

/-- Relabeling commutes with swapping. -/
theorem swapAt_map (f : ℕ → ℕ) (hf : f 0 = 0) (l : List ℕ) (i j : ℕ) :
    swapAt (l.map f) i j = (swapAt l i j).map f := by
  unfold swapAt
  rw [getD_map_zero f hf, getD_map_zero f hf, List.map_set, List.map_set]

/-- Relabeling commutes with the move generator. -/
theorem neighbors_map (f : ℕ → ℕ) (hf : f 0 = 0) (hf2 : ∀ v, f v = 0 → v = 0)
    (s : Config) : neighbors (s.map f) = (neighbors s).map (List.map f) := by
  rw [neighbors_eq_map, neighbors_eq_map, indexOf_zero_map f hf hf2 s, List.map_map]
  refine List.map_congr_left ?_
  intro j _
  exact swapAt_map f hf s (s.indexOf 0) j

theorem chainFrom_map (f : ℕ → ℕ) (hf : f 0 = 0) (hf2 : ∀ v, f v = 0 → v = 0)
    (a : Config) (l : List Config) (h : ChainFrom a l) :
    ChainFrom (a.map f) (l.map (List.map f)) := by
  induction l generalizing a with
  | nil => trivial
  | cons x xs ih =>
    refine ⟨?_, ih x h.2⟩
    rw [neighbors_map f hf hf2 a]
    exact List.mem_map.2 ⟨x, h.1, rfl⟩

theorem endOf_map (f : ℕ → ℕ) (a : Config) (l : List Config) :
    endOf (a.map f) (l.map (List.map f)) = (endOf a l).map f := by
  induction l generalizing a with
  | nil => rfl
  | cons x xs ih =>
    rw [List.map_cons, endOf_cons, endOf_cons]
    exact ih x

/-- Reachability is preserved by tile relabelings that fix the blank. -/
theorem reach_map (f : ℕ → ℕ) (hf : f 0 = 0) (hf2 : ∀ v, f v = 0 → v = 0)
    (a b : Config) (h : Reach a b) : Reach (a.map f) (b.map f) := by
  obtain ⟨l, hc, he⟩ := h
  refine ⟨l.map (List.map f), chainFrom_map f hf hf2 a l hc, ?_⟩
  rw [endOf_map, he]

/-! ### Executable chain checking -/

/-- Boolean chain check, for concrete certificates. -/
def chainb (a : Config) : List Config → Bool
  | [] => true
  | x :: xs => (neighbors a).contains x && chainb x xs

theorem chainb_sound (a : Config) (l : List Config) (h : chainb a l = true) :
    ChainFrom a l := by
  induction l generalizing a with
  | nil => trivial
  | cons x xs ih =>
    rw [chainb, Bool.and_eq_true] at h
    exact ⟨List.elem_iff.1 h.1, ih x h.2⟩

/-! ### Explicit generator chains -/

theorem reachG123456780 : Reach GOAL [1, 2, 3, 4, 5, 6, 7, 8, 0] :=
  reach_refl GOAL

theorem reachG312456780 : Reach GOAL [3, 1, 2, 4, 5, 6, 7, 8, 0] :=
  ⟨[[1, 2, 3, 4, 5, 0, 7, 8, 6],
    [1, 2, 0, 4, 5, 3, 7, 8, 6],
    [1, 0, 2, 4, 5, 3, 7, 8, 6],
    [1, 5, 2, 4, 0, 3, 7, 8, 6],
    [1, 5, 2, 4, 3, 0, 7, 8, 6],
    [1, 5, 2, 4, 3, 6, 7, 8, 0],
    [1, 5, 2, 4, 3, 6, 7, 0, 8],
    [1, 5, 2, 4, 3, 6, 0, 7, 8],
    [1, 5, 2, 0, 3, 6, 4, 7, 8],
    [1, 5, 2, 3, 0, 6, 4, 7, 8],
    [1, 0, 2, 3, 5, 6, 4, 7, 8],
    [0, 1, 2, 3, 5, 6, 4, 7, 8],
    [3, 1, 2, 0, 5, 6, 4, 7, 8],
    [3, 1, 2, 4, 5, 6, 0, 7, 8],
    [3, 1, 2, 4, 5, 6, 7, 0, 8],
    [3, 1, 2, 4, 5, 6, 7, 8, 0]],
   chainb_sound _ _ (by decide), by decide⟩

theorem reachG231456780 : Reach GOAL [2, 3, 1, 4, 5, 6, 7, 8, 0] :=
  ⟨[[1, 2, 3, 4, 5, 0, 7, 8, 6],
    [1, 2, 0, 4, 5, 3, 7, 8, 6],
    [1, 0, 2, 4, 5, 3, 7, 8, 6],
    [0, 1, 2, 4, 5, 3, 7, 8, 6],
    [4, 1, 2, 0, 5, 3, 7, 8, 6],
    [4, 1, 2, 5, 0, 3, 7, 8, 6],
    [4, 0, 2, 5, 1, 3, 7, 8, 6],
    [4, 2, 0, 5, 1, 3, 7, 8, 6],
    [4, 2, 3, 5, 1, 0, 7, 8, 6],
    [4, 2, 3, 5, 0, 1, 7, 8, 6],
    [4, 2, 3, 0, 5, 1, 7, 8, 6],
    [0, 2, 3, 4, 5, 1, 7, 8, 6],
    [2, 0, 3, 4, 5, 1, 7, 8, 6],
    [2, 3, 0, 4, 5, 1, 7, 8, 6],
    [2, 3, 1, 4, 5, 0, 7, 8, 6],
    [2, 3, 1, 4, 5, 6, 7, 8, 0]],
   chainb_sound _ _ (by decide), by decide⟩

theorem reachG413256780 : Reach GOAL [4, 1, 3, 2, 5, 6, 7, 8, 0] :=
  ⟨[[1, 2, 3, 4, 5, 0, 7, 8, 6],
    [1, 2, 3, 4, 0, 5, 7, 8, 6],
    [1, 0, 3, 4, 2, 5, 7, 8, 6],
    [0, 1, 3, 4, 2, 5, 7, 8, 6],
    [4, 1, 3, 0, 2, 5, 7, 8, 6],
    [4, 1, 3, 2, 0, 5, 7, 8, 6],
    [4, 1, 3, 2, 5, 0, 7, 8, 6],
    [4, 1, 3, 2, 5, 6, 7, 8, 0]],
   chainb_sound _ _ (by decide), by decide⟩

theorem reachG243156780 : Reach GOAL [2, 4, 3, 1, 5, 6, 7, 8, 0] :=
  ⟨[[1, 2, 3, 4, 5, 0, 7, 8, 6],
    [1, 2, 3, 4, 0, 5, 7, 8, 6],
    [1, 2, 3, 0, 4, 5, 7, 8, 6],
    [0, 2, 3, 1, 4, 5, 7, 8, 6],
    [2, 0, 3, 1, 4, 5, 7, 8, 6],
    [2, 4, 3, 1, 0, 5, 7, 8, 6],
    [2, 4, 3, 1, 5, 0, 7, 8, 6],
    [2, 4, 3, 1, 5, 6, 7, 8, 0]],
   chainb_sound _ _ (by decide), by decide⟩

theorem reachG513426780 : Reach GOAL [5, 1, 3, 4, 2, 6, 7, 8, 0] :=
  ⟨[[1, 2, 3, 4, 5, 6, 7, 0, 8],
    [1, 2, 3, 4, 5, 6, 0, 7, 8],
    [1, 2, 3, 0, 5, 6, 4, 7, 8],
    [1, 2, 3, 5, 0, 6, 4, 7, 8],
    [1, 0, 3, 5, 2, 6, 4, 7, 8],
    [0, 1, 3, 5, 2, 6, 4, 7, 8],
    [5, 1, 3, 0, 2, 6, 4, 7, 8],
    [5, 1, 3, 4, 2, 6, 0, 7, 8],
    [5, 1, 3, 4, 2, 6, 7, 0, 8],
    [5, 1, 3, 4, 2, 6, 7, 8, 0]],
   chainb_sound _ _ (by decide), by decide⟩

theorem reachG253416780 : Reach GOAL [2, 5, 3, 4, 1, 6, 7, 8, 0] :=
  ⟨[[1, 2, 3, 4, 5, 6, 7, 0, 8],
    [1, 2, 3, 4, 5, 6, 0, 7, 8],
    [1, 2, 3, 0, 5, 6, 4, 7, 8],
    [0, 2, 3, 1, 5, 6, 4, 7, 8],
    [2, 0, 3, 1, 5, 6, 4, 7, 8],
    [2, 5, 3, 1, 0, 6, 4, 7, 8],
    [2, 5, 3, 0, 1, 6, 4, 7, 8],
    [2, 5, 3, 4, 1, 6, 0, 7, 8],
    [2, 5, 3, 4, 1, 6, 7, 0, 8],
    [2, 5, 3, 4, 1, 6, 7, 8, 0]],
   chainb_sound _ _ (by decide), by decide⟩

theorem reachG613452780 : Reach GOAL [6, 1, 3, 4, 5, 2, 7, 8, 0] :=
  ⟨[[1, 2, 3, 4, 5, 6, 7, 0, 8],
    [1, 2, 3, 4, 0, 6, 7, 5, 8],
    [1, 0, 3, 4, 2, 6, 7, 5, 8],
    [0, 1, 3, 4, 2, 6, 7, 5, 8],
    [4, 1, 3, 0, 2, 6, 7, 5, 8],
    [4, 1, 3, 2, 0, 6, 7, 5, 8],
    [4, 1, 3, 2, 6, 0, 7, 5, 8],
    [4, 1, 0, 2, 6, 3, 7, 5, 8],
    [4, 0, 1, 2, 6, 3, 7, 5, 8],
    [4, 6, 1, 2, 0, 3, 7, 5, 8],
    [4, 6, 1, 0, 2, 3, 7, 5, 8],
    [0, 6, 1, 4, 2, 3, 7, 5, 8],
    [6, 0, 1, 4, 2, 3, 7, 5, 8],
    [6, 1, 0, 4, 2, 3, 7, 5, 8],
    [6, 1, 3, 4, 2, 0, 7, 5, 8],
    [6, 1, 3, 4, 0, 2, 7, 5, 8],
    [6, 1, 3, 4, 5, 2, 7, 0, 8],
    [6, 1, 3, 4, 5, 2, 7, 8, 0]],
   chainb_sound _ _ (by decide), by decide⟩

theorem reachG263451780 : Reach GOAL [2, 6, 3, 4, 5, 1, 7, 8, 0] :=
  ⟨[[1, 2, 3, 4, 5, 6, 7, 0, 8],
    [1, 2, 3, 4, 0, 6, 7, 5, 8],
    [1, 2, 3, 4, 6, 0, 7, 5, 8],
    [1, 2, 3, 4, 6, 8, 7, 5, 0],
    [1, 2, 3, 4, 6, 8, 7, 0, 5],
    [1, 2, 3, 4, 6, 8, 0, 7, 5],
    [1, 2, 3, 0, 6, 8, 4, 7, 5],
    [0, 2, 3, 1, 6, 8, 4, 7, 5],
    [2, 0, 3, 1, 6, 8, 4, 7, 5],
    [2, 6, 3, 1, 0, 8, 4, 7, 5],
    [2, 6, 3, 0, 1, 8, 4, 7, 5],
    [2, 6, 3, 4, 1, 8, 0, 7, 5],
    [2, 6, 3, 4, 1, 8, 7, 0, 5],
    [2, 6, 3, 4, 1, 8, 7, 5, 0],
    [2, 6, 3, 4, 1, 0, 7, 5, 8],
    [2, 6, 3, 4, 0, 1, 7, 5, 8],
    [2, 6, 3, 4, 5, 1, 7, 0, 8],
    [2, 6, 3, 4, 5, 1, 7, 8, 0]],
   chainb_sound _ _ (by decide), by decide⟩

theorem reachG713456280 : Reach GOAL [7, 1, 3, 4, 5, 6, 2, 8, 0] :=
  ⟨[[1, 2, 3, 4, 5, 0, 7, 8, 6],
    [1, 2, 3, 4, 0, 5, 7, 8, 6],
    [1, 2, 3, 0, 4, 5, 7, 8, 6],
    [1, 2, 3, 7, 4, 5, 0, 8, 6],
    [1, 2, 3, 7, 4, 5, 8, 0, 6],
    [1, 2, 3, 7, 0, 5, 8, 4, 6],
    [1, 0, 3, 7, 2, 5, 8, 4, 6],
    [0, 1, 3, 7, 2, 5, 8, 4, 6],
    [7, 1, 3, 0, 2, 5, 8, 4, 6],
    [7, 1, 3, 2, 0, 5, 8, 4, 6],
    [7, 1, 3, 2, 4, 5, 8, 0, 6],
    [7, 1, 3, 2, 4, 5, 0, 8, 6],
    [7, 1, 3, 0, 4, 5, 2, 8, 6],
    [7, 1, 3, 4, 0, 5, 2, 8, 6],
    [7, 1, 3, 4, 5, 0, 2, 8, 6],
    [7, 1, 3, 4, 5, 6, 2, 8, 0]],
   chainb_sound _ _ (by decide), by decide⟩

theorem reachG273456180 : Reach GOAL [2, 7, 3, 4, 5, 6, 1, 8, 0] :=
  ⟨[[1, 2, 3, 4, 5, 0, 7, 8, 6],
    [1, 2, 3, 4, 0, 5, 7, 8, 6],
    [1, 2, 3, 0, 4, 5, 7, 8, 6],
    [1, 2, 3, 7, 4, 5, 0, 8, 6],
    [1, 2, 3, 7, 4, 5, 8, 0, 6],
    [1, 2, 3, 7, 0, 5, 8, 4, 6],
    [1, 2, 3, 0, 7, 5, 8, 4, 6],
    [0, 2, 3, 1, 7, 5, 8, 4, 6],
    [2, 0, 3, 1, 7, 5, 8, 4, 6],
    [2, 7, 3, 1, 0, 5, 8, 4, 6],
    [2, 7, 3, 1, 4, 5, 8, 0, 6],
    [2, 7, 3, 1, 4, 5, 0, 8, 6],
    [2, 7, 3, 0, 4, 5, 1, 8, 6],
    [2, 7, 3, 4, 0, 5, 1, 8, 6],
    [2, 7, 3, 4, 5, 0, 1, 8, 6],
    [2, 7, 3, 4, 5, 6, 1, 8, 0]],
   chainb_sound _ _ (by decide), by decide⟩

theorem reachG813456720 : Reach GOAL [8, 1, 3, 4, 5, 6, 7, 2, 0] :=
  ⟨[[1, 2, 3, 4, 5, 0, 7, 8, 6],
    [1, 2, 3, 4, 0, 5, 7, 8, 6],
    [1, 2, 3, 4, 8, 5, 7, 0, 6],
    [1, 2, 3, 4, 8, 5, 0, 7, 6],
    [1, 2, 3, 0, 8, 5, 4, 7, 6],
    [1, 2, 3, 8, 0, 5, 4, 7, 6],
    [1, 0, 3, 8, 2, 5, 4, 7, 6],
    [0, 1, 3, 8, 2, 5, 4, 7, 6],
    [8, 1, 3, 0, 2, 5, 4, 7, 6],
    [8, 1, 3, 4, 2, 5, 0, 7, 6],
    [8, 1, 3, 4, 2, 5, 7, 0, 6],
    [8, 1, 3, 4, 0, 5, 7, 2, 6],
    [8, 1, 3, 4, 5, 0, 7, 2, 6],
    [8, 1, 3, 4, 5, 6, 7, 2, 0]],
   chainb_sound _ _ (by decide), by decide⟩

theorem reachG283456710 : Reach GOAL [2, 8, 3, 4, 5, 6, 7, 1, 0] :=
  ⟨[[1, 2, 3, 4, 5, 0, 7, 8, 6],
    [1, 2, 3, 4, 0, 5, 7, 8, 6],
    [1, 2, 3, 4, 8, 5, 7, 0, 6],
    [1, 2, 3, 4, 8, 5, 0, 7, 6],
    [1, 2, 3, 0, 8, 5, 4, 7, 6],
    [0, 2, 3, 1, 8, 5, 4, 7, 6],
    [2, 0, 3, 1, 8, 5, 4, 7, 6],
    [2, 8, 3, 1, 0, 5, 4, 7, 6],
    [2, 8, 3, 0, 1, 5, 4, 7, 6],
    [2, 8, 3, 4, 1, 5, 0, 7, 6],
    [2, 8, 3, 4, 1, 5, 7, 0, 6],
    [2, 8, 3, 4, 0, 5, 7, 1, 6],
    [2, 8, 3, 4, 5, 0, 7, 1, 6],
    [2, 8, 3, 4, 5, 6, 7, 1, 0]],
   chainb_sound _ _ (by decide), by decide⟩

theorem reachG214356780 : Reach GOAL [2, 1, 4, 3, 5, 6, 7, 8, 0] :=
  ⟨[[1, 2, 3, 4, 5, 0, 7, 8, 6],
    [1, 2, 3, 4, 0, 5, 7, 8, 6],
    [1, 0, 3, 4, 2, 5, 7, 8, 6],
    [1, 3, 0, 4, 2, 5, 7, 8, 6],
    [1, 3, 5, 4, 2, 0, 7, 8, 6],
    [1, 3, 5, 4, 0, 2, 7, 8, 6],
    [1, 3, 5, 0, 4, 2, 7, 8, 6],
    [0, 3, 5, 1, 4, 2, 7, 8, 6],
    [3, 0, 5, 1, 4, 2, 7, 8, 6],
    [3, 4, 5, 1, 0, 2, 7, 8, 6],
    [3, 4, 5, 1, 2, 0, 7, 8, 6],
    [3, 4, 0, 1, 2, 5, 7, 8, 6],
    [3, 0, 4, 1, 2, 5, 7, 8, 6],
    [3, 2, 4, 1, 0, 5, 7, 8, 6],
    [3, 2, 4, 0, 1, 5, 7, 8, 6],
    [0, 2, 4, 3, 1, 5, 7, 8, 6],
    [2, 0, 4, 3, 1, 5, 7, 8, 6],
    [2, 1, 4, 3, 0, 5, 7, 8, 6],
    [2, 1, 4, 3, 5, 0, 7, 8, 6],
    [2, 1, 4, 3, 5, 6, 7, 8, 0]],
   chainb_sound _ _ (by decide), by decide⟩

theorem reachG215436780 : Reach GOAL [2, 1, 5, 4, 3, 6, 7, 8, 0] :=
  ⟨[[1, 2, 3, 4, 5, 0, 7, 8, 6],
    [1, 2, 3, 4, 0, 5, 7, 8, 6],
    [1, 0, 3, 4, 2, 5, 7, 8, 6],
    [1, 3, 0, 4, 2, 5, 7, 8, 6],
    [1, 3, 5, 4, 2, 0, 7, 8, 6],
    [1, 3, 5, 4, 2, 6, 7, 8, 0],
    [1, 3, 5, 4, 2, 6, 7, 0, 8],
    [1, 3, 5, 4, 2, 6, 0, 7, 8],
    [1, 3, 5, 0, 2, 6, 4, 7, 8],
    [1, 3, 5, 2, 0, 6, 4, 7, 8],
    [1, 0, 5, 2, 3, 6, 4, 7, 8],
    [0, 1, 5, 2, 3, 6, 4, 7, 8],
    [2, 1, 5, 0, 3, 6, 4, 7, 8],
    [2, 1, 5, 4, 3, 6, 0, 7, 8],
    [2, 1, 5, 4, 3, 6, 7, 0, 8],
    [2, 1, 5, 4, 3, 6, 7, 8, 0]],
   chainb_sound _ _ (by decide), by decide⟩

theorem reachG216453780 : Reach GOAL [2, 1, 6, 4, 5, 3, 7, 8, 0] :=
  ⟨[[1, 2, 3, 4, 5, 0, 7, 8, 6],
    [1, 2, 3, 4, 0, 5, 7, 8, 6],
    [1, 0, 3, 4, 2, 5, 7, 8, 6],
    [1, 3, 0, 4, 2, 5, 7, 8, 6],
    [1, 3, 5, 4, 2, 0, 7, 8, 6],
    [1, 3, 5, 4, 2, 6, 7, 8, 0],
    [1, 3, 5, 4, 2, 6, 7, 0, 8],
    [1, 3, 5, 4, 2, 6, 0, 7, 8],
    [1, 3, 5, 0, 2, 6, 4, 7, 8],
    [1, 3, 5, 2, 0, 6, 4, 7, 8],
    [1, 0, 5, 2, 3, 6, 4, 7, 8],
    [1, 5, 0, 2, 3, 6, 4, 7, 8],
    [1, 5, 6, 2, 3, 0, 4, 7, 8],
    [1, 5, 6, 2, 0, 3, 4, 7, 8],
    [1, 0, 6, 2, 5, 3, 4, 7, 8],
    [0, 1, 6, 2, 5, 3, 4, 7, 8],
    [2, 1, 6, 0, 5, 3, 4, 7, 8],
    [2, 1, 6, 4, 5, 3, 0, 7, 8],
    [2, 1, 6, 4, 5, 3, 7, 0, 8],
    [2, 1, 6, 4, 5, 3, 7, 8, 0]],
   chainb_sound _ _ (by decide), by decide⟩

theorem reachG217456380 : Reach GOAL [2, 1, 7, 4, 5, 6, 3, 8, 0] :=
  ⟨[[1, 2, 3, 4, 5, 0, 7, 8, 6],
    [1, 2, 3, 4, 0, 5, 7, 8, 6],
    [1, 0, 3, 4, 2, 5, 7, 8, 6],
    [1, 3, 0, 4, 2, 5, 7, 8, 6],
    [1, 3, 5, 4, 2, 0, 7, 8, 6],
    [1, 3, 5, 4, 2, 6, 7, 8, 0],
    [1, 3, 5, 4, 2, 6, 7, 0, 8],
    [1, 3, 5, 4, 2, 6, 0, 7, 8],
    [1, 3, 5, 0, 2, 6, 4, 7, 8],
    [1, 3, 5, 2, 0, 6, 4, 7, 8],
    [1, 3, 5, 2, 7, 6, 4, 0, 8],
    [1, 3, 5, 2, 7, 6, 4, 8, 0],
    [1, 3, 5, 2, 7, 0, 4, 8, 6],
    [1, 3, 5, 2, 0, 7, 4, 8, 6],
    [1, 0, 5, 2, 3, 7, 4, 8, 6],
    [1, 5, 0, 2, 3, 7, 4, 8, 6],
    [1, 5, 7, 2, 3, 0, 4, 8, 6],
    [1, 5, 7, 2, 3, 6, 4, 8, 0],
    [1, 5, 7, 2, 3, 6, 4, 0, 8],
    [1, 5, 7, 2, 0, 6, 4, 3, 8],
    [1, 0, 7, 2, 5, 6, 4, 3, 8],
    [0, 1, 7, 2, 5, 6, 4, 3, 8],
    [2, 1, 7, 0, 5, 6, 4, 3, 8],
    [2, 1, 7, 4, 5, 6, 0, 3, 8],
    [2, 1, 7, 4, 5, 6, 3, 0, 8],
    [2, 1, 7, 4, 5, 6, 3, 8, 0]],
   chainb_sound _ _ (by decide), by decide⟩

theorem reachG218456730 : Reach GOAL [2, 1, 8, 4, 5, 6, 7, 3, 0] :=
  ⟨[[1, 2, 3, 4, 5, 0, 7, 8, 6],
    [1, 2, 3, 4, 0, 5, 7, 8, 6],
    [1, 2, 3, 4, 8, 5, 7, 0, 6],
    [1, 2, 3, 4, 8, 5, 7, 6, 0],
    [1, 2, 3, 4, 8, 0, 7, 6, 5],
    [1, 2, 3, 4, 0, 8, 7, 6, 5],
    [1, 0, 3, 4, 2, 8, 7, 6, 5],
    [1, 3, 0, 4, 2, 8, 7, 6, 5],
    [1, 3, 8, 4, 2, 0, 7, 6, 5],
    [1, 3, 8, 4, 2, 5, 7, 6, 0],
    [1, 3, 8, 4, 2, 5, 7, 0, 6],
    [1, 3, 8, 4, 2, 5, 0, 7, 6],
    [1, 3, 8, 0, 2, 5, 4, 7, 6],
    [1, 3, 8, 2, 0, 5, 4, 7, 6],
    [1, 0, 8, 2, 3, 5, 4, 7, 6],
    [0, 1, 8, 2, 3, 5, 4, 7, 6],
    [2, 1, 8, 0, 3, 5, 4, 7, 6],
    [2, 1, 8, 4, 3, 5, 0, 7, 6],
    [2, 1, 8, 4, 3, 5, 7, 0, 6],
    [2, 1, 8, 4, 0, 5, 7, 3, 6],
    [2, 1, 8, 4, 5, 0, 7, 3, 6],
    [2, 1, 8, 4, 5, 6, 7, 3, 0]],
   chainb_sound _ _ (by decide), by decide⟩

theorem reachG213546780 : Reach GOAL [2, 1, 3, 5, 4, 6, 7, 8, 0] :=
  ⟨[[1, 2, 3, 4, 5, 0, 7, 8, 6],
    [1, 2, 0, 4, 5, 3, 7, 8, 6],
    [1, 0, 2, 4, 5, 3, 7, 8, 6],
    [1, 5, 2, 4, 0, 3, 7, 8, 6],
    [1, 5, 2, 0, 4, 3, 7, 8, 6],
    [0, 5, 2, 1, 4, 3, 7, 8, 6],
    [5, 0, 2, 1, 4, 3, 7, 8, 6],
    [5, 2, 0, 1, 4, 3, 7, 8, 6],
    [5, 2, 3, 1, 4, 0, 7, 8, 6],
    [5, 2, 3, 1, 0, 4, 7, 8, 6],
    [5, 2, 3, 0, 1, 4, 7, 8, 6],
    [0, 2, 3, 5, 1, 4, 7, 8, 6],
    [2, 0, 3, 5, 1, 4, 7, 8, 6],
    [2, 1, 3, 5, 0, 4, 7, 8, 6],
    [2, 1, 3, 5, 4, 0, 7, 8, 6],
    [2, 1, 3, 5, 4, 6, 7, 8, 0]],
   chainb_sound _ _ (by decide), by decide⟩

theorem reachG213654780 : Reach GOAL [2, 1, 3, 6, 5, 4, 7, 8, 0] :=
  ⟨[[1, 2, 3, 4, 5, 6, 7, 0, 8],
    [1, 2, 3, 4, 0, 6, 7, 5, 8],
    [1, 0, 3, 4, 2, 6, 7, 5, 8],
    [0, 1, 3, 4, 2, 6, 7, 5, 8],
    [4, 1, 3, 0, 2, 6, 7, 5, 8],
    [4, 1, 3, 2, 0, 6, 7, 5, 8],
    [4, 1, 3, 2, 6, 0, 7, 5, 8],
    [4, 1, 0, 2, 6, 3, 7, 5, 8],
    [4, 0, 1, 2, 6, 3, 7, 5, 8],
    [0, 4, 1, 2, 6, 3, 7, 5, 8],
    [2, 4, 1, 0, 6, 3, 7, 5, 8],
    [2, 4, 1, 6, 0, 3, 7, 5, 8],
    [2, 0, 1, 6, 4, 3, 7, 5, 8],
    [2, 1, 0, 6, 4, 3, 7, 5, 8],
    [2, 1, 3, 6, 4, 0, 7, 5, 8],
    [2, 1, 3, 6, 0, 4, 7, 5, 8],
    [2, 1, 3, 6, 5, 4, 7, 0, 8],
    [2, 1, 3, 6, 5, 4, 7, 8, 0]],
   chainb_sound _ _ (by decide), by decide⟩

theorem reachG213756480 : Reach GOAL [2, 1, 3, 7, 5, 6, 4, 8, 0] :=
  ⟨[[1, 2, 3, 4, 5, 0, 7, 8, 6],
    [1, 2, 0, 4, 5, 3, 7, 8, 6],
    [1, 0, 2, 4, 5, 3, 7, 8, 6],
    [1, 5, 2, 4, 0, 3, 7, 8, 6],
    [1, 5, 2, 0, 4, 3, 7, 8, 6],
    [0, 5, 2, 1, 4, 3, 7, 8, 6],
    [5, 0, 2, 1, 4, 3, 7, 8, 6],
    [5, 2, 0, 1, 4, 3, 7, 8, 6],
    [5, 2, 3, 1, 4, 0, 7, 8, 6],
    [5, 2, 3, 1, 4, 6, 7, 8, 0],
    [5, 2, 3, 1, 4, 6, 7, 0, 8],
    [5, 2, 3, 1, 0, 6, 7, 4, 8],
    [5, 2, 3, 0, 1, 6, 7, 4, 8],
    [0, 2, 3, 5, 1, 6, 7, 4, 8],
    [2, 0, 3, 5, 1, 6, 7, 4, 8],
    [2, 1, 3, 5, 0, 6, 7, 4, 8],
    [2, 1, 3, 0, 5, 6, 7, 4, 8],
    [2, 1, 3, 7, 5, 6, 0, 4, 8],
    [2, 1, 3, 7, 5, 6, 4, 0, 8],
    [2, 1, 3, 7, 5, 6, 4, 8, 0]],
   chainb_sound _ _ (by decide), by decide⟩

theorem reachG213856740 : Reach GOAL [2, 1, 3, 8, 5, 6, 7, 4, 0] :=
  ⟨[[1, 2, 3, 4, 5, 0, 7, 8, 6],
    [1, 2, 3, 4, 0, 5, 7, 8, 6],
    [1, 2, 3, 4, 8, 5, 7, 0, 6],
    [1, 2, 3, 4, 8, 5, 7, 6, 0],
    [1, 2, 3, 4, 8, 0, 7, 6, 5],
    [1, 2, 0, 4, 8, 3, 7, 6, 5],
    [1, 0, 2, 4, 8, 3, 7, 6, 5],
    [1, 8, 2, 4, 0, 3, 7, 6, 5],
    [1, 8, 2, 0, 4, 3, 7, 6, 5],
    [0, 8, 2, 1, 4, 3, 7, 6, 5],
    [8, 0, 2, 1, 4, 3, 7, 6, 5],
    [8, 2, 0, 1, 4, 3, 7, 6, 5],
    [8, 2, 3, 1, 4, 0, 7, 6, 5],
    [8, 2, 3, 1, 4, 5, 7, 6, 0],
    [8, 2, 3, 1, 4, 5, 7, 0, 6],
    [8, 2, 3, 1, 0, 5, 7, 4, 6],
    [8, 2, 3, 0, 1, 5, 7, 4, 6],
    [0, 2, 3, 8, 1, 5, 7, 4, 6],
    [2, 0, 3, 8, 1, 5, 7, 4, 6],
    [2, 1, 3, 8, 0, 5, 7, 4, 6],
    [2, 1, 3, 8, 5, 0, 7, 4, 6],
    [2, 1, 3, 8, 5, 6, 7, 4, 0]],
   chainb_sound _ _ (by decide), by decide⟩

theorem reachG213465780 : Reach GOAL [2, 1, 3, 4, 6, 5, 7, 8, 0] :=
  ⟨[[1, 2, 3, 4, 5, 0, 7, 8, 6],
    [1, 2, 3, 4, 0, 5, 7, 8, 6],
    [1, 0, 3, 4, 2, 5, 7, 8, 6],
    [1, 3, 0, 4, 2, 5, 7, 8, 6],
    [1, 3, 5, 4, 2, 0, 7, 8, 6],
    [1, 3, 5, 4, 2, 6, 7, 8, 0],
    [1, 3, 5, 4, 2, 6, 7, 0, 8],
    [1, 3, 5, 4, 2, 6, 0, 7, 8],
    [1, 3, 5, 0, 2, 6, 4, 7, 8],
    [1, 3, 5, 2, 0, 6, 4, 7, 8],
    [1, 3, 5, 2, 6, 0, 4, 7, 8],
    [1, 3, 0, 2, 6, 5, 4, 7, 8],
    [1, 0, 3, 2, 6, 5, 4, 7, 8],
    [0, 1, 3, 2, 6, 5, 4, 7, 8],
    [2, 1, 3, 0, 6, 5, 4, 7, 8],
    [2, 1, 3, 4, 6, 5, 0, 7, 8],
    [2, 1, 3, 4, 6, 5, 7, 0, 8],
    [2, 1, 3, 4, 6, 5, 7, 8, 0]],
   chainb_sound _ _ (by decide), by decide⟩

theorem reachG213476580 : Reach GOAL [2, 1, 3, 4, 7, 6, 5, 8, 0] :=
  ⟨[[1, 2, 3, 4, 5, 0, 7, 8, 6],
    [1, 2, 0, 4, 5, 3, 7, 8, 6],
    [1, 0, 2, 4, 5, 3, 7, 8, 6],
    [0, 1, 2, 4, 5, 3, 7, 8, 6],
    [4, 1, 2, 0, 5, 3, 7, 8, 6],
    [4, 1, 2, 5, 0, 3, 7, 8, 6],
    [4, 0, 2, 5, 1, 3, 7, 8, 6],
    [4, 2, 0, 5, 1, 3, 7, 8, 6],
    [4, 2, 3, 5, 1, 0, 7, 8, 6],
    [4, 2, 3, 5, 1, 6, 7, 8, 0],
    [4, 2, 3, 5, 1, 6, 7, 0, 8],
    [4, 2, 3, 5, 1, 6, 0, 7, 8],
    [4, 2, 3, 0, 1, 6, 5, 7, 8],
    [0, 2, 3, 4, 1, 6, 5, 7, 8],
    [2, 0, 3, 4, 1, 6, 5, 7, 8],
    [2, 1, 3, 4, 0, 6, 5, 7, 8],
    [2, 1, 3, 4, 7, 6, 5, 0, 8],
    [2, 1, 3, 4, 7, 6, 5, 8, 0]],
   chainb_sound _ _ (by decide), by decide⟩

theorem reachG213486750 : Reach GOAL [2, 1, 3, 4, 8, 6, 7, 5, 0] :=
  ⟨[[1, 2, 3, 4, 5, 6, 7, 0, 8],
    [1, 2, 3, 4, 0, 6, 7, 5, 8],
    [1, 0, 3, 4, 2, 6, 7, 5, 8],
    [1, 3, 0, 4, 2, 6, 7, 5, 8],
    [1, 3, 6, 4, 2, 0, 7, 5, 8],
    [1, 3, 6, 4, 2, 8, 7, 5, 0],
    [1, 3, 6, 4, 2, 8, 7, 0, 5],
    [1, 3, 6, 4, 2, 8, 0, 7, 5],
    [1, 3, 6, 0, 2, 8, 4, 7, 5],
    [1, 3, 6, 2, 0, 8, 4, 7, 5],
    [1, 3, 6, 2, 8, 0, 4, 7, 5],
    [1, 3, 0, 2, 8, 6, 4, 7, 5],
    [1, 0, 3, 2, 8, 6, 4, 7, 5],
    [0, 1, 3, 2, 8, 6, 4, 7, 5],
    [2, 1, 3, 0, 8, 6, 4, 7, 5],
    [2, 1, 3, 4, 8, 6, 0, 7, 5],
    [2, 1, 3, 4, 8, 6, 7, 0, 5],
    [2, 1, 3, 4, 8, 6, 7, 5, 0]],
   chainb_sound _ _ (by decide), by decide⟩

theorem reachG213457680 : Reach GOAL [2, 1, 3, 4, 5, 7, 6, 8, 0] :=
  ⟨[[1, 2, 3, 4, 5, 0, 7, 8, 6],
    [1, 2, 0, 4, 5, 3, 7, 8, 6],
    [1, 0, 2, 4, 5, 3, 7, 8, 6],
    [1, 5, 2, 4, 0, 3, 7, 8, 6],
    [1, 5, 2, 4, 8, 3, 7, 0, 6],
    [1, 5, 2, 4, 8, 3, 0, 7, 6],
    [1, 5, 2, 0, 8, 3, 4, 7, 6],
    [0, 5, 2, 1, 8, 3, 4, 7, 6],
    [5, 0, 2, 1, 8, 3, 4, 7, 6],
    [5, 2, 0, 1, 8, 3, 4, 7, 6],
    [5, 2, 3, 1, 8, 0, 4, 7, 6],
    [5, 2, 3, 1, 0, 8, 4, 7, 6],
    [5, 2, 3, 1, 7, 8, 4, 0, 6],
    [5, 2, 3, 1, 7, 8, 4, 6, 0],
    [5, 2, 3, 1, 7, 0, 4, 6, 8],
    [5, 2, 3, 1, 0, 7, 4, 6, 8],
    [5, 2, 3, 0, 1, 7, 4, 6, 8],
    [0, 2, 3, 5, 1, 7, 4, 6, 8],
    [2, 0, 3, 5, 1, 7, 4, 6, 8],
    [2, 1, 3, 5, 0, 7, 4, 6, 8],
    [2, 1, 3, 0, 5, 7, 4, 6, 8],
    [2, 1, 3, 4, 5, 7, 0, 6, 8],
    [2, 1, 3, 4, 5, 7, 6, 0, 8],
    [2, 1, 3, 4, 5, 7, 6, 8, 0]],
   chainb_sound _ _ (by decide), by decide⟩

theorem reachG213458760 : Reach GOAL [2, 1, 3, 4, 5, 8, 7, 6, 0] :=
  ⟨[[1, 2, 3, 4, 5, 0, 7, 8, 6],
    [1, 2, 0, 4, 5, 3, 7, 8, 6],
    [1, 0, 2, 4, 5, 3, 7, 8, 6],
    [1, 5, 2, 4, 0, 3, 7, 8, 6],
    [1, 5, 2, 4, 8, 3, 7, 0, 6],
    [1, 5, 2, 4, 8, 3, 0, 7, 6],
    [1, 5, 2, 0, 8, 3, 4, 7, 6],
    [0, 5, 2, 1, 8, 3, 4, 7, 6],
    [5, 0, 2, 1, 8, 3, 4, 7, 6],
    [5, 2, 0, 1, 8, 3, 4, 7, 6],
    [5, 2, 3, 1, 8, 0, 4, 7, 6],
    [5, 2, 3, 1, 0, 8, 4, 7, 6],
    [5, 2, 3, 0, 1, 8, 4, 7, 6],
    [0, 2, 3, 5, 1, 8, 4, 7, 6],
    [2, 0, 3, 5, 1, 8, 4, 7, 6],
    [2, 1, 3, 5, 0, 8, 4, 7, 6],
    [2, 1, 3, 0, 5, 8, 4, 7, 6],
    [2, 1, 3, 4, 5, 8, 0, 7, 6],
    [2, 1, 3, 4, 5, 8, 7, 0, 6],
    [2, 1, 3, 4, 5, 8, 7, 6, 0]],
   chainb_sound _ _ (by decide), by decide⟩

theorem reachG213456870 : Reach GOAL [2, 1, 3, 4, 5, 6, 8, 7, 0] :=
  ⟨[[1, 2, 3, 4, 5, 0, 7, 8, 6],
    [1, 2, 0, 4, 5, 3, 7, 8, 6],
    [1, 0, 2, 4, 5, 3, 7, 8, 6],
    [1, 5, 2, 4, 0, 3, 7, 8, 6],
    [1, 5, 2, 4, 8, 3, 7, 0, 6],
    [1, 5, 2, 4, 8, 3, 0, 7, 6],
    [1, 5, 2, 0, 8, 3, 4, 7, 6],
    [0, 5, 2, 1, 8, 3, 4, 7, 6],
    [5, 0, 2, 1, 8, 3, 4, 7, 6],
    [5, 2, 0, 1, 8, 3, 4, 7, 6],
    [5, 2, 3, 1, 8, 0, 4, 7, 6],
    [5, 2, 3, 1, 8, 6, 4, 7, 0],
    [5, 2, 3, 1, 8, 6, 4, 0, 7],
    [5, 2, 3, 1, 0, 6, 4, 8, 7],
    [5, 2, 3, 0, 1, 6, 4, 8, 7],
    [0, 2, 3, 5, 1, 6, 4, 8, 7],
    [2, 0, 3, 5, 1, 6, 4, 8, 7],
    [2, 1, 3, 5, 0, 6, 4, 8, 7],
    [2, 1, 3, 0, 5, 6, 4, 8, 7],
    [2, 1, 3, 4, 5, 6, 0, 8, 7],
    [2, 1, 3, 4, 5, 6, 8, 0, 7],
    [2, 1, 3, 4, 5, 6, 8, 7, 0]],
   chainb_sound _ _ (by decide), by decide⟩

/-- Every transposition of two tiles, corrected by the 1-2 swap to an
even relabeling, is realised on the goal by an explicit move chain. -/
theorem master_gen (a b : ℕ) (ha1 : 1 ≤ a) (ha8 : a ≤ 8) (hb1 : 1 ≤ b) (hb8 : b ≤ 8)
    (hab : a ≠ b) :
    Reach GOAL (GOAL.map (fun v => swapT 1 2 (swapT a b v))) ∧
    Reach GOAL (GOAL.map (fun v => swapT a b (swapT 1 2 v))) := by
  interval_cases a <;> interval_cases b
  · exact absurd rfl hab
  · refine ⟨?_, ?_⟩
    · have e : GOAL.map (fun v => swapT 1 2 (swapT 1 2 v)) = [1, 2, 3, 4, 5, 6, 7, 8, 0] := by decide
      rw [e]
      exact reachG123456780
    · have e : GOAL.map (fun v => swapT 1 2 (swapT 1 2 v)) = [1, 2, 3, 4, 5, 6, 7, 8, 0] := by decide
      rw [e]
      exact reachG123456780
  · refine ⟨?_, ?_⟩
    · have e : GOAL.map (fun v => swapT 1 2 (swapT 1 3 v)) = [3, 1, 2, 4, 5, 6, 7, 8, 0] := by decide
      rw [e]
      exact reachG312456780
    · have e : GOAL.map (fun v => swapT 1 3 (swapT 1 2 v)) = [2, 3, 1, 4, 5, 6, 7, 8, 0] := by decide
      rw [e]
      exact reachG231456780
  · refine ⟨?_, ?_⟩
    · have e : GOAL.map (fun v => swapT 1 2 (swapT 1 4 v)) = [4, 1, 3, 2, 5, 6, 7, 8, 0] := by decide
      rw [e]
      exact reachG413256780
    · have e : GOAL.map (fun v => swapT 1 4 (swapT 1 2 v)) = [2, 4, 3, 1, 5, 6, 7, 8, 0] := by decide
      rw [e]
      exact reachG243156780
  · refine ⟨?_, ?_⟩
    · have e : GOAL.map (fun v => swapT 1 2 (swapT 1 5 v)) = [5, 1, 3, 4, 2, 6, 7, 8, 0] := by decide
      rw [e]
      exact reachG513426780
    · have e : GOAL.map (fun v => swapT 1 5 (swapT 1 2 v)) = [2, 5, 3, 4, 1, 6, 7, 8, 0] := by decide
      rw [e]
      exact reachG253416780
  · refine ⟨?_, ?_⟩
    · have e : GOAL.map (fun v => swapT 1 2 (swapT 1 6 v)) = [6, 1, 3, 4, 5, 2, 7, 8, 0] := by decide
      rw [e]
      exact reachG613452780
    · have e : GOAL.map (fun v => swapT 1 6 (swapT 1 2 v)) = [2, 6, 3, 4, 5, 1, 7, 8, 0] := by decide
      rw [e]
      exact reachG263451780
  · refine ⟨?_, ?_⟩
    · have e : GOAL.map (fun v => swapT 1 2 (swapT 1 7 v)) = [7, 1, 3, 4, 5, 6, 2, 8, 0] := by decide
      rw [e]
      exact reachG713456280
    · have e : GOAL.map (fun v => swapT 1 7 (swapT 1 2 v)) = [2, 7, 3, 4, 5, 6, 1, 8, 0] := by decide
      rw [e]
      exact reachG273456180
  · refine ⟨?_, ?_⟩
    · have e : GOAL.map (fun v => swapT 1 2 (swapT 1 8 v)) = [8, 1, 3, 4, 5, 6, 7, 2, 0] := by decide
      rw [e]
      exact reachG813456720
    · have e : GOAL.map (fun v => swapT 1 8 (swapT 1 2 v)) = [2, 8, 3, 4, 5, 6, 7, 1, 0] := by decide
      rw [e]
      exact reachG283456710
  · refine ⟨?_, ?_⟩
    · have e : GOAL.map (fun v => swapT 1 2 (swapT 2 1 v)) = [1, 2, 3, 4, 5, 6, 7, 8, 0] := by decide
      rw [e]
      exact reachG123456780
    · have e : GOAL.map (fun v => swapT 2 1 (swapT 1 2 v)) = [1, 2, 3, 4, 5, 6, 7, 8, 0] := by decide
      rw [e]
      exact reachG123456780
  · exact absurd rfl hab
  · refine ⟨?_, ?_⟩
    · have e : GOAL.map (fun v => swapT 1 2 (swapT 2 3 v)) = [2, 3, 1, 4, 5, 6, 7, 8, 0] := by decide
      rw [e]
      exact reachG231456780
    · have e : GOAL.map (fun v => swapT 2 3 (swapT 1 2 v)) = [3, 1, 2, 4, 5, 6, 7, 8, 0] := by decide
      rw [e]
      exact reachG312456780
  · refine ⟨?_, ?_⟩
    · have e : GOAL.map (fun v => swapT 1 2 (swapT 2 4 v)) = [2, 4, 3, 1, 5, 6, 7, 8, 0] := by decide
      rw [e]
      exact reachG243156780
    · have e : GOAL.map (fun v => swapT 2 4 (swapT 1 2 v)) = [4, 1, 3, 2, 5, 6, 7, 8, 0] := by decide
      rw [e]
      exact reachG413256780
  · refine ⟨?_, ?_⟩
    · have e : GOAL.map (fun v => swapT 1 2 (swapT 2 5 v)) = [2, 5, 3, 4, 1, 6, 7, 8, 0] := by decide
      rw [e]
      exact reachG253416780
    · have e : GOAL.map (fun v => swapT 2 5 (swapT 1 2 v)) = [5, 1, 3, 4, 2, 6, 7, 8, 0] := by decide
      rw [e]
      exact reachG513426780
  · refine ⟨?_, ?_⟩
    · have e : GOAL.map (fun v => swapT 1 2 (swapT 2 6 v)) = [2, 6, 3, 4, 5, 1, 7, 8, 0] := by decide
      rw [e]
      exact reachG263451780
    · have e : GOAL.map (fun v => swapT 2 6 (swapT 1 2 v)) = [6, 1, 3, 4, 5, 2, 7, 8, 0] := by decide
      rw [e]
      exact reachG613452780
  · refine ⟨?_, ?_⟩
    · have e : GOAL.map (fun v => swapT 1 2 (swapT 2 7 v)) = [2, 7, 3, 4, 5, 6, 1, 8, 0] := by decide
      rw [e]
      exact reachG273456180
    · have e : GOAL.map (fun v => swapT 2 7 (swapT 1 2 v)) = [7, 1, 3, 4, 5, 6, 2, 8, 0] := by decide
      rw [e]
      exact reachG713456280
  · refine ⟨?_, ?_⟩
    · have e : GOAL.map (fun v => swapT 1 2 (swapT 2 8 v)) = [2, 8, 3, 4, 5, 6, 7, 1, 0] := by decide
      rw [e]
      exact reachG283456710
    · have e : GOAL.map (fun v => swapT 2 8 (swapT 1 2 v)) = [8, 1, 3, 4, 5, 6, 7, 2, 0] := by decide
      rw [e]
      exact reachG813456720
  · refine ⟨?_, ?_⟩
    · have e : GOAL.map (fun v => swapT 1 2 (swapT 3 1 v)) = [3, 1, 2, 4, 5, 6, 7, 8, 0] := by decide
      rw [e]
      exact reachG312456780
    · have e : GOAL.map (fun v => swapT 3 1 (swapT 1 2 v)) = [2, 3, 1, 4, 5, 6, 7, 8, 0] := by decide
      rw [e]
      exact reachG231456780
  · refine ⟨?_, ?_⟩
    · have e : GOAL.map (fun v => swapT 1 2 (swapT 3 2 v)) = [2, 3, 1, 4, 5, 6, 7, 8, 0] := by decide
      rw [e]
      exact reachG231456780
    · have e : GOAL.map (fun v => swapT 3 2 (swapT 1 2 v)) = [3, 1, 2, 4, 5, 6, 7, 8, 0] := by decide
      rw [e]
      exact reachG312456780
  · exact absurd rfl hab
  · refine ⟨?_, ?_⟩
    · have e : GOAL.map (fun v => swapT 1 2 (swapT 3 4 v)) = [2, 1, 4, 3, 5, 6, 7, 8, 0] := by decide
      rw [e]
      exact reachG214356780
    · have e : GOAL.map (fun v => swapT 3 4 (swapT 1 2 v)) = [2, 1, 4, 3, 5, 6, 7, 8, 0] := by decide
      rw [e]
      exact reachG214356780
  · refine ⟨?_, ?_⟩
    · have e : GOAL.map (fun v => swapT 1 2 (swapT 3 5 v)) = [2, 1, 5, 4, 3, 6, 7, 8, 0] := by decide
      rw [e]
      exact reachG215436780
    · have e : GOAL.map (fun v => swapT 3 5 (swapT 1 2 v)) = [2, 1, 5, 4, 3, 6, 7, 8, 0] := by decide
      rw [e]
      exact reachG215436780
  · refine ⟨?_, ?_⟩
    · have e : GOAL.map (fun v => swapT 1 2 (swapT 3 6 v)) = [2, 1, 6, 4, 5, 3, 7, 8, 0] := by decide
      rw [e]
      exact reachG216453780
    · have e : GOAL.map (fun v => swapT 3 6 (swapT 1 2 v)) = [2, 1, 6, 4, 5, 3, 7, 8, 0] := by decide
      rw [e]
      exact reachG216453780
  · refine ⟨?_, ?_⟩
    · have e : GOAL.map (fun v => swapT 1 2 (swapT 3 7 v)) = [2, 1, 7, 4, 5, 6, 3, 8, 0] := by decide
      rw [e]
      exact reachG217456380
    · have e : GOAL.map (fun v => swapT 3 7 (swapT 1 2 v)) = [2, 1, 7, 4, 5, 6, 3, 8, 0] := by decide
      rw [e]
      exact reachG217456380
  · refine ⟨?_, ?_⟩
    · have e : GOAL.map (fun v => swapT 1 2 (swapT 3 8 v)) = [2, 1, 8, 4, 5, 6, 7, 3, 0] := by decide
      rw [e]
      exact reachG218456730
    · have e : GOAL.map (fun v => swapT 3 8 (swapT 1 2 v)) = [2, 1, 8, 4, 5, 6, 7, 3, 0] := by decide
      rw [e]
      exact reachG218456730
  · refine ⟨?_, ?_⟩
    · have e : GOAL.map (fun v => swapT 1 2 (swapT 4 1 v)) = [4, 1, 3, 2, 5, 6, 7, 8, 0] := by decide
      rw [e]
      exact reachG413256780
    · have e : GOAL.map (fun v => swapT 4 1 (swapT 1 2 v)) = [2, 4, 3, 1, 5, 6, 7, 8, 0] := by decide
      rw [e]
      exact reachG243156780
  · refine ⟨?_, ?_⟩
    · have e : GOAL.map (fun v => swapT 1 2 (swapT 4 2 v)) = [2, 4, 3, 1, 5, 6, 7, 8, 0] := by decide
      rw [e]
      exact reachG243156780
    · have e : GOAL.map (fun v => swapT 4 2 (swapT 1 2 v)) = [4, 1, 3, 2, 5, 6, 7, 8, 0] := by decide
      rw [e]
      exact reachG413256780
  · refine ⟨?_, ?_⟩
    · have e : GOAL.map (fun v => swapT 1 2 (swapT 4 3 v)) = [2, 1, 4, 3, 5, 6, 7, 8, 0] := by decide
      rw [e]
      exact reachG214356780
    · have e : GOAL.map (fun v => swapT 4 3 (swapT 1 2 v)) = [2, 1, 4, 3, 5, 6, 7, 8, 0] := by decide
      rw [e]
      exact reachG214356780
  · exact absurd rfl hab
  · refine ⟨?_, ?_⟩
    · have e : GOAL.map (fun v => swapT 1 2 (swapT 4 5 v)) = [2, 1, 3, 5, 4, 6, 7, 8, 0] := by decide
      rw [e]
      exact reachG213546780
    · have e : GOAL.map (fun v => swapT 4 5 (swapT 1 2 v)) = [2, 1, 3, 5, 4, 6, 7, 8, 0] := by decide
      rw [e]
      exact reachG213546780
  · refine ⟨?_, ?_⟩
    · have e : GOAL.map (fun v => swapT 1 2 (swapT 4 6 v)) = [2, 1, 3, 6, 5, 4, 7, 8, 0] := by decide
      rw [e]
      exact reachG213654780
    · have e : GOAL.map (fun v => swapT 4 6 (swapT 1 2 v)) = [2, 1, 3, 6, 5, 4, 7, 8, 0] := by decide
      rw [e]
      exact reachG213654780
  · refine ⟨?_, ?_⟩
    · have e : GOAL.map (fun v => swapT 1 2 (swapT 4 7 v)) = [2, 1, 3, 7, 5, 6, 4, 8, 0] := by decide
      rw [e]
      exact reachG213756480
    · have e : GOAL.map (fun v => swapT 4 7 (swapT 1 2 v)) = [2, 1, 3, 7, 5, 6, 4, 8, 0] := by decide
      rw [e]
      exact reachG213756480
  · refine ⟨?_, ?_⟩
    · have e : GOAL.map (fun v => swapT 1 2 (swapT 4 8 v)) = [2, 1, 3, 8, 5, 6, 7, 4, 0] := by decide
      rw [e]
      exact reachG213856740
    · have e : GOAL.map (fun v => swapT 4 8 (swapT 1 2 v)) = [2, 1, 3, 8, 5, 6, 7, 4, 0] := by decide
      rw [e]
      exact reachG213856740
  · refine ⟨?_, ?_⟩
    · have e : GOAL.map (fun v => swapT 1 2 (swapT 5 1 v)) = [5, 1, 3, 4, 2, 6, 7, 8, 0] := by decide
      rw [e]
      exact reachG513426780
    · have e : GOAL.map (fun v => swapT 5 1 (swapT 1 2 v)) = [2, 5, 3, 4, 1, 6, 7, 8, 0] := by decide
      rw [e]
      exact reachG253416780
  · refine ⟨?_, ?_⟩
    · have e : GOAL.map (fun v => swapT 1 2 (swapT 5 2 v)) = [2, 5, 3, 4, 1, 6, 7, 8, 0] := by decide
      rw [e]
      exact reachG253416780
    · have e : GOAL.map (fun v => swapT 5 2 (swapT 1 2 v)) = [5, 1, 3, 4, 2, 6, 7, 8, 0] := by decide
      rw [e]
      exact reachG513426780
  · refine ⟨?_, ?_⟩
    · have e : GOAL.map (fun v => swapT 1 2 (swapT 5 3 v)) = [2, 1, 5, 4, 3, 6, 7, 8, 0] := by decide
      rw [e]
      exact reachG215436780
    · have e : GOAL.map (fun v => swapT 5 3 (swapT 1 2 v)) = [2, 1, 5, 4, 3, 6, 7, 8, 0] := by decide
      rw [e]
      exact reachG215436780
  · refine ⟨?_, ?_⟩
    · have e : GOAL.map (fun v => swapT 1 2 (swapT 5 4 v)) = [2, 1, 3, 5, 4, 6, 7, 8, 0] := by decide
      rw [e]
      exact reachG213546780
    · have e : GOAL.map (fun v => swapT 5 4 (swapT 1 2 v)) = [2, 1, 3, 5, 4, 6, 7, 8, 0] := by decide
      rw [e]
      exact reachG213546780
  · exact absurd rfl hab
  · refine ⟨?_, ?_⟩
    · have e : GOAL.map (fun v => swapT 1 2 (swapT 5 6 v)) = [2, 1, 3, 4, 6, 5, 7, 8, 0] := by decide
      rw [e]
      exact reachG213465780
    · have e : GOAL.map (fun v => swapT 5 6 (swapT 1 2 v)) = [2, 1, 3, 4, 6, 5, 7, 8, 0] := by decide
      rw [e]
      exact reachG213465780
  · refine ⟨?_, ?_⟩
    · have e : GOAL.map (fun v => swapT 1 2 (swapT 5 7 v)) = [2, 1, 3, 4, 7, 6, 5, 8, 0] := by decide
      rw [e]
      exact reachG213476580
    · have e : GOAL.map (fun v => swapT 5 7 (swapT 1 2 v)) = [2, 1, 3, 4, 7, 6, 5, 8, 0] := by decide
      rw [e]
      exact reachG213476580
  · refine ⟨?_, ?_⟩
    · have e : GOAL.map (fun v => swapT 1 2 (swapT 5 8 v)) = [2, 1, 3, 4, 8, 6, 7, 5, 0] := by decide
      rw [e]
      exact reachG213486750
    · have e : GOAL.map (fun v => swapT 5 8 (swapT 1 2 v)) = [2, 1, 3, 4, 8, 6, 7, 5, 0] := by decide
      rw [e]
      exact reachG213486750
  · refine ⟨?_, ?_⟩
    · have e : GOAL.map (fun v => swapT 1 2 (swapT 6 1 v)) = [6, 1, 3, 4, 5, 2, 7, 8, 0] := by decide
      rw [e]
      exact reachG613452780
    · have e : GOAL.map (fun v => swapT 6 1 (swapT 1 2 v)) = [2, 6, 3, 4, 5, 1, 7, 8, 0] := by decide
      rw [e]
      exact reachG263451780
  · refine ⟨?_, ?_⟩
    · have e : GOAL.map (fun v => swapT 1 2 (swapT 6 2 v)) = [2, 6, 3, 4, 5, 1, 7, 8, 0] := by decide
      rw [e]
      exact reachG263451780
    · have e : GOAL.map (fun v => swapT 6 2 (swapT 1 2 v)) = [6, 1, 3, 4, 5, 2, 7, 8, 0] := by decide
      rw [e]
      exact reachG613452780
  · refine ⟨?_, ?_⟩
    · have e : GOAL.map (fun v => swapT 1 2 (swapT 6 3 v)) = [2, 1, 6, 4, 5, 3, 7, 8, 0] := by decide
      rw [e]
      exact reachG216453780
    · have e : GOAL.map (fun v => swapT 6 3 (swapT 1 2 v)) = [2, 1, 6, 4, 5, 3, 7, 8, 0] := by decide
      rw [e]
      exact reachG216453780
  · refine ⟨?_, ?_⟩
    · have e : GOAL.map (fun v => swapT 1 2 (swapT 6 4 v)) = [2, 1, 3, 6, 5, 4, 7, 8, 0] := by decide
      rw [e]
      exact reachG213654780
    · have e : GOAL.map (fun v => swapT 6 4 (swapT 1 2 v)) = [2, 1, 3, 6, 5, 4, 7, 8, 0] := by decide
      rw [e]
      exact reachG213654780
  · refine ⟨?_, ?_⟩
    · have e : GOAL.map (fun v => swapT 1 2 (swapT 6 5 v)) = [2, 1, 3, 4, 6, 5, 7, 8, 0] := by decide
      rw [e]
      exact reachG213465780
    · have e : GOAL.map (fun v => swapT 6 5 (swapT 1 2 v)) = [2, 1, 3, 4, 6, 5, 7, 8, 0] := by decide
      rw [e]
      exact reachG213465780
  · exact absurd rfl hab
  · refine ⟨?_, ?_⟩
    · have e : GOAL.map (fun v => swapT 1 2 (swapT 6 7 v)) = [2, 1, 3, 4, 5, 7, 6, 8, 0] := by decide
      rw [e]
      exact reachG213457680
    · have e : GOAL.map (fun v => swapT 6 7 (swapT 1 2 v)) = [2, 1, 3, 4, 5, 7, 6, 8, 0] := by decide
      rw [e]
      exact reachG213457680
  · refine ⟨?_, ?_⟩
    · have e : GOAL.map (fun v => swapT 1 2 (swapT 6 8 v)) = [2, 1, 3, 4, 5, 8, 7, 6, 0] := by decide
      rw [e]
      exact reachG213458760
    · have e : GOAL.map (fun v => swapT 6 8 (swapT 1 2 v)) = [2, 1, 3, 4, 5, 8, 7, 6, 0] := by decide
      rw [e]
      exact reachG213458760
  · refine ⟨?_, ?_⟩
    · have e : GOAL.map (fun v => swapT 1 2 (swapT 7 1 v)) = [7, 1, 3, 4, 5, 6, 2, 8, 0] := by decide
      rw [e]
      exact reachG713456280
    · have e : GOAL.map (fun v => swapT 7 1 (swapT 1 2 v)) = [2, 7, 3, 4, 5, 6, 1, 8, 0] := by decide
      rw [e]
      exact reachG273456180
  · refine ⟨?_, ?_⟩
    · have e : GOAL.map (fun v => swapT 1 2 (swapT 7 2 v)) = [2, 7, 3, 4, 5, 6, 1, 8, 0] := by decide
      rw [e]
      exact reachG273456180
    · have e : GOAL.map (fun v => swapT 7 2 (swapT 1 2 v)) = [7, 1, 3, 4, 5, 6, 2, 8, 0] := by decide
      rw [e]
      exact reachG713456280
  · refine ⟨?_, ?_⟩
    · have e : GOAL.map (fun v => swapT 1 2 (swapT 7 3 v)) = [2, 1, 7, 4, 5, 6, 3, 8, 0] := by decide
      rw [e]
      exact reachG217456380
    · have e : GOAL.map (fun v => swapT 7 3 (swapT 1 2 v)) = [2, 1, 7, 4, 5, 6, 3, 8, 0] := by decide
      rw [e]
      exact reachG217456380
  · refine ⟨?_, ?_⟩
    · have e : GOAL.map (fun v => swapT 1 2 (swapT 7 4 v)) = [2, 1, 3, 7, 5, 6, 4, 8, 0] := by decide
      rw [e]
      exact reachG213756480
    · have e : GOAL.map (fun v => swapT 7 4 (swapT 1 2 v)) = [2, 1, 3, 7, 5, 6, 4, 8, 0] := by decide
      rw [e]
      exact reachG213756480
  · refine ⟨?_, ?_⟩
    · have e : GOAL.map (fun v => swapT 1 2 (swapT 7 5 v)) = [2, 1, 3, 4, 7, 6, 5, 8, 0] := by decide
      rw [e]
      exact reachG213476580
    · have e : GOAL.map (fun v => swapT 7 5 (swapT 1 2 v)) = [2, 1, 3, 4, 7, 6, 5, 8, 0] := by decide
      rw [e]
      exact reachG213476580
  · refine ⟨?_, ?_⟩
    · have e : GOAL.map (fun v => swapT 1 2 (swapT 7 6 v)) = [2, 1, 3, 4, 5, 7, 6, 8, 0] := by decide
      rw [e]
      exact reachG213457680
    · have e : GOAL.map (fun v => swapT 7 6 (swapT 1 2 v)) = [2, 1, 3, 4, 5, 7, 6, 8, 0] := by decide
      rw [e]
      exact reachG213457680
  · exact absurd rfl hab
  · refine ⟨?_, ?_⟩
    · have e : GOAL.map (fun v => swapT 1 2 (swapT 7 8 v)) = [2, 1, 3, 4, 5, 6, 8, 7, 0] := by decide
      rw [e]
      exact reachG213456870
    · have e : GOAL.map (fun v => swapT 7 8 (swapT 1 2 v)) = [2, 1, 3, 4, 5, 6, 8, 7, 0] := by decide
      rw [e]
      exact reachG213456870
  · refine ⟨?_, ?_⟩
    · have e : GOAL.map (fun v => swapT 1 2 (swapT 8 1 v)) = [8, 1, 3, 4, 5, 6, 7, 2, 0] := by decide
      rw [e]
      exact reachG813456720
    · have e : GOAL.map (fun v => swapT 8 1 (swapT 1 2 v)) = [2, 8, 3, 4, 5, 6, 7, 1, 0] := by decide
      rw [e]
      exact reachG283456710
  · refine ⟨?_, ?_⟩
    · have e : GOAL.map (fun v => swapT 1 2 (swapT 8 2 v)) = [2, 8, 3, 4, 5, 6, 7, 1, 0] := by decide
      rw [e]
      exact reachG283456710
    · have e : GOAL.map (fun v => swapT 8 2 (swapT 1 2 v)) = [8, 1, 3, 4, 5, 6, 7, 2, 0] := by decide
      rw [e]
      exact reachG813456720
  · refine ⟨?_, ?_⟩
    · have e : GOAL.map (fun v => swapT 1 2 (swapT 8 3 v)) = [2, 1, 8, 4, 5, 6, 7, 3, 0] := by decide
      rw [e]
      exact reachG218456730
    · have e : GOAL.map (fun v => swapT 8 3 (swapT 1 2 v)) = [2, 1, 8, 4, 5, 6, 7, 3, 0] := by decide
      rw [e]
      exact reachG218456730
  · refine ⟨?_, ?_⟩
    · have e : GOAL.map (fun v => swapT 1 2 (swapT 8 4 v)) = [2, 1, 3, 8, 5, 6, 7, 4, 0] := by decide
      rw [e]
      exact reachG213856740
    · have e : GOAL.map (fun v => swapT 8 4 (swapT 1 2 v)) = [2, 1, 3, 8, 5, 6, 7, 4, 0] := by decide
      rw [e]
      exact reachG213856740
  · refine ⟨?_, ?_⟩
    · have e : GOAL.map (fun v => swapT 1 2 (swapT 8 5 v)) = [2, 1, 3, 4, 8, 6, 7, 5, 0] := by decide
      rw [e]
      exact reachG213486750
    · have e : GOAL.map (fun v => swapT 8 5 (swapT 1 2 v)) = [2, 1, 3, 4, 8, 6, 7, 5, 0] := by decide
      rw [e]
      exact reachG213486750
  · refine ⟨?_, ?_⟩
    · have e : GOAL.map (fun v => swapT 1 2 (swapT 8 6 v)) = [2, 1, 3, 4, 5, 8, 7, 6, 0] := by decide
      rw [e]
      exact reachG213458760
    · have e : GOAL.map (fun v => swapT 8 6 (swapT 1 2 v)) = [2, 1, 3, 4, 5, 8, 7, 6, 0] := by decide
      rw [e]
      exact reachG213458760
  · refine ⟨?_, ?_⟩
    · have e : GOAL.map (fun v => swapT 1 2 (swapT 8 7 v)) = [2, 1, 3, 4, 5, 6, 8, 7, 0] := by decide
      rw [e]
      exact reachG213456870
    · have e : GOAL.map (fun v => swapT 8 7 (swapT 1 2 v)) = [2, 1, 3, 4, 5, 6, 8, 7, 0] := by decide
      rw [e]
      exact reachG213456870
  · exact absurd rfl hab

/-! ### The sorting induction -/

/-- A strictly smaller count when the bad set shrinks and one member
leaves it. -/
theorem countP_lt_of_mem (p q : ℕ → Bool) :
    ∀ l : List ℕ, (∀ x ∈ l, q x = true → p x = true) →
      ∀ x0 ∈ l, p x0 = true → q x0 = false → l.countP q < l.countP p := by
  intro l
  induction l with
  | nil =>
    intro _ x0 hx0
    exact absurd hx0 (List.not_mem_nil x0)
  | cons y t ih =>
    intro hsub x0 hx0 hp hq
    have hsub2 : ∀ x ∈ t, q x = true → p x = true :=
      fun x hx => hsub x (List.mem_cons_of_mem _ hx)
    rw [List.countP_cons, List.countP_cons]
    rcases List.mem_cons.1 hx0 with rfl | hmem
    · rw [hq, hp]
      have hle : t.countP q ≤ t.countP p := List.countP_mono_left hsub2
      rw [if_neg (fun h => Bool.false_ne_true h), if_pos rfl]
      omega
    · have hlt := ih hsub2 x0 hmem hp hq
      have hyy : (if q y = true then 1 else 0) ≤ (if p y = true then 1 else 0) := by
        by_cases hqy : q y = true
        · rw [if_pos hqy, if_pos (hsub y (List.mem_cons_self _ _) hqy)]
        · rw [if_neg hqy]
          omega
      omega

/-- The number of cells 0..7 not holding their goal tile. -/
def misplaced (s : Config) : ℕ :=
  (List.range 8).countP (fun i => decide (s.getD i 0 ≠ i + 1))

theorem goal_getD : ∀ i < 8, GOAL.getD i 0 = i + 1 := by decide

/-- A valid configuration with blank at cell 8 and no misplaced tile is
the goal. -/
theorem misplaced_zero (E : Config) (hE : List.Perm E GOAL) (h8 : E.getD 8 0 = 0)
    (h0 : misplaced E = 0) : E = GOAL := by
  have hlen := valid_length hE
  refine List.ext_getElem (by rw [hlen]; rfl) ?_
  intro i hi1 hi2
  by_cases hi8 : i < 8
  · have hbad := List.countP_eq_zero.1 h0 i (List.mem_range.2 hi8)
    simp only [decide_eq_true_eq, not_not] at hbad
    rw [← List.getD_eq_getElem E 0 hi1, ← List.getD_eq_getElem GOAL 0 hi2, hbad,
      goal_getD i hi8]
  · have hi8e : i = 8 := by
      have : i < 9 := by omega
      omega
    subst hi8e
    rw [← List.getD_eq_getElem E 0 hi1, ← List.getD_eq_getElem GOAL 0 hi2, h8]
    rfl

theorem misplaced_pos (E : Config) (h : misplaced E ≠ 0) :
    ∃ i, i < 8 ∧ E.getD i 0 ≠ i + 1 := by
  by_contra hall
  push_neg at hall
  refine h (List.countP_eq_zero.2 ?_)
  intro i hi hcon
  exact (of_decide_eq_true hcon) (hall i (List.mem_range.1 hi))

/-- Relabeling two tiles keeps the goal a valid multiset. -/
theorem goal_map_swapT_perm (a : ℕ) (ha1 : 1 ≤ a) (ha8 : a ≤ 8) (b : ℕ) (hb1 : 1 ≤ b)
    (hb8 : b ≤ 8) : List.Perm (GOAL.map (swapT a b)) GOAL := by
  interval_cases a <;> interval_cases b <;> decide

/-- Every valid configuration with the blank at cell 8 is reachable from
the goal, possibly after exchanging the tiles 1 and 2 (exactly one of
the two holds, by parity). -/
theorem dichotomy : ∀ n, ∀ E : Config, List.Perm E GOAL → E.getD 8 0 = 0 →
    misplaced E ≤ n → Reach GOAL E ∨ Reach GOAL (E.map (swapT 1 2)) := by
  intro n
  induction n with
  | zero =>
    intro E hE h8 hm
    left
    rw [misplaced_zero E hE h8 (by omega)]
    exact reach_refl GOAL
  | succ n ih =>
    intro E hE h8 hm
    by_cases hz : misplaced E = 0
    · left
      rw [misplaced_zero E hE h8 hz]
      exact reach_refl GOAL
    · obtain ⟨i, hi8, hbad⟩ := misplaced_pos E hz
      have hlen := valid_length hE
      have hib : i < E.length := by omega
      have h8b : (8 : ℕ) < E.length := by omega
      have hnd := valid_nodup hE
      obtain ⟨b, hb⟩ : ∃ b, E.getD i 0 = b := ⟨_, rfl⟩
      have hgetb : E[i] = b := by
        rw [← List.getD_eq_getElem E 0 hib, hb]
      have hE8 : E[8] = 0 := by
        rw [← List.getD_eq_getElem E 0 h8b]
        exact h8
      have hbmem : b ∈ GOAL := hE.mem_iff.1 (hgetb ▸ E.getElem_mem hib)
      have hball : ∀ x ∈ GOAL, x < 9 := by decide
      have hb9 : b < 9 := hball b hbmem
      have hb0 : b ≠ 0 := by
        intro h0
        have heq : E[i] = E[8] := by
          rw [hgetb, hE8, h0]
        have : i = 8 := (hnd.getElem_inj_iff).1 heq
        omega
      have hbne : b ≠ i + 1 := by
        rw [← hb]
        exact hbad
      have hia0 : i + 1 ≠ 0 := by omega
      have hg0 : swapT (i + 1) b 0 = 0 := swapT_zero _ _ hia0 hb0
      have hg2 : ∀ v, swapT (i + 1) b v = 0 → v = 0 :=
        fun v hv => swapT_eq_zero _ _ v hia0 hb0 hv
      have hFval : List.Perm (E.map (swapT (i + 1) b)) GOAL :=
        (hE.map (swapT (i + 1) b)).trans
          (goal_map_swapT_perm (i + 1) (by omega) (by omega) b (by omega) (by omega))
      have hF8 : (E.map (swapT (i + 1) b)).getD 8 0 = 0 := by
        rw [getD_map_zero _ hg0, h8]
        exact hg0
      have hFgetD : ∀ j, (E.map (swapT (i + 1) b)).getD j 0 = swapT (i + 1) b (E.getD j 0) :=
        fun j => getD_map_zero _ hg0 E j
      have hgood : ∀ j, j < 8 → E.getD j 0 = j + 1 →
          (E.map (swapT (i + 1) b)).getD j 0 = j + 1 := by
        intro j hj8 hEj
        rw [hFgetD j, hEj]
        have hji : j + 1 ≠ i + 1 := by
          intro h
          have : j = i := by omega
          rw [this] at hEj
          exact hbad hEj
        have hjb : j + 1 ≠ b := by
          intro h
          have hEjg : E[j] = b := by
            rw [← List.getD_eq_getElem E 0 (by omega), hEj, h]
          have : j = i := (hnd.getElem_inj_iff).1 (by rw [hEjg, hgetb])
          omega
        unfold swapT
        rw [if_neg hji, if_neg hjb]
      have hFi : (E.map (swapT (i + 1) b)).getD i 0 = i + 1 := by
        rw [hFgetD i, hb]
        unfold swapT
        rw [if_neg hbne, if_pos rfl]
      have hFmis : misplaced (E.map (swapT (i + 1) b)) < misplaced E := by
        refine countP_lt_of_mem _ _ (List.range 8) ?_ i (List.mem_range.2 hi8) ?_ ?_
        · intro j hj hq
          have hj8 := List.mem_range.1 hj
          refine decide_eq_true ?_
          intro hEj
          exact (of_decide_eq_true hq) (hgood j hj8 hEj)
        · exact decide_eq_true hbad
        · exact decide_eq_false (by rw [hFi]; omega)
      rcases ih (E.map (swapT (i + 1) b)) hFval hF8 (by omega) with hF | hF
      · right
        have hw0 : (fun v => swapT 1 2 (swapT (i + 1) b v)) 0 = 0 := by
          show swapT 1 2 (swapT (i + 1) b 0) = 0
          rw [hg0]
          exact swapT_zero 1 2 (by omega) (by omega)
        have hw2 : ∀ v, (fun v => swapT 1 2 (swapT (i + 1) b v)) v = 0 → v = 0 := by
          intro v hv
          exact hg2 v (swapT_eq_zero 1 2 _ (by omega) (by omega) hv)
        have h1 := reach_map (fun v => swapT 1 2 (swapT (i + 1) b v)) hw0 hw2 GOAL
          (E.map (swapT (i + 1) b)) hF
        have h2 := (master_gen (i + 1) b (by omega) (by omega) (by omega) (by omega)
          (fun h => hbne h.symm)).1
        have h3 := h2.trans h1
        have hmw : (E.map (swapT (i + 1) b)).map (fun v => swapT 1 2 (swapT (i + 1) b v)) =
            E.map (swapT 1 2) := by
          rw [List.map_map]
          refine List.map_congr_left ?_
          intro v _
          show swapT 1 2 (swapT (i + 1) b (swapT (i + 1) b v)) = swapT 1 2 v
          rw [swapT_invol]
        rw [← hmw]
        exact h3
      · left
        have hw0 : (fun v => swapT (i + 1) b (swapT 1 2 v)) 0 = 0 := by
          show swapT (i + 1) b (swapT 1 2 0) = 0
          rw [swapT_zero 1 2 (by omega) (by omega)]
          exact hg0
        have hw2 : ∀ v, (fun v => swapT (i + 1) b (swapT 1 2 v)) v = 0 → v = 0 := by
          intro v hv
          exact swapT_eq_zero 1 2 _ (by omega) (by omega) (hg2 _ hv)
        have h1 := reach_map (fun v => swapT (i + 1) b (swapT 1 2 v)) hw0 hw2 GOAL
          ((E.map (swapT (i + 1) b)).map (swapT 1 2)) hF
        have h2 := (master_gen (i + 1) b (by omega) (by omega) (by omega) (by omega)
          (fun h => hbne h.symm)).2
        have h3 := h2.trans h1
        have hmw : ((E.map (swapT (i + 1) b)).map (swapT 1 2)).map
            (fun v => swapT (i + 1) b (swapT 1 2 v)) = E := by
          rw [List.map_map, List.map_map]
          refine (List.map_congr_left ?_).trans (List.map_id E)
          intro v _
          show swapT (i + 1) b (swapT 1 2 (swapT 1 2 (swapT (i + 1) b v))) = id v
          rw [swapT_invol, swapT_invol]
          rfl
        rw [← hmw]
        exact h3

/-! ### Blank normalisation and parity -/

/-- From anywhere, the blank can be walked to cell 8. -/
theorem blank_to8 : ∀ k, ∀ C : Config, List.Perm C GOAL → 8 - C.indexOf 0 ≤ k →
    ∃ D, Reach C D ∧ List.Perm D GOAL ∧ D.getD 8 0 = 0 := by
  intro k
  induction k with
  | zero =>
    intro C hC hk
    have hz := valid_indexOf_zero_lt hC
    have hlen := valid_length hC
    have hz8 : C.indexOf 0 = 8 := by omega
    have hget : C.getD 8 0 = 0 := by
      rw [← hz8, List.getD_eq_getElem C 0 (by omega)]
      exact valid_getElem_indexOf_zero hC (by omega)
    exact ⟨C, reach_refl C, hC, hget⟩
  | succ k ih =>
    intro C hC hk
    have hz := valid_indexOf_zero_lt hC
    have hlen := valid_length hC
    by_cases hz8 : C.indexOf 0 = 8
    · have hget : C.getD 8 0 = 0 := by
        rw [← hz8, List.getD_eq_getElem C 0 (by omega)]
        exact valid_getElem_indexOf_zero hC (by omega)
      exact ⟨C, reach_refl C, hC, hget⟩
    · have hzlt : C.indexOf 0 < 8 := by omega
      obtain ⟨j, hjc, hjgt⟩ : ∃ j, j ∈ cand (C.indexOf 0) ∧ C.indexOf 0 < j := by
        have hdec : ∀ z, z < 8 → ∃ j, j ∈ cand z ∧ z < j := by decide
        exact hdec _ hzlt
      have hj9 : j < 9 := (cand_mem_facts _ hz j hjc).1
      have hn : swapAt C (C.indexOf 0) j ∈ neighbors C := by
        rw [neighbors_eq_map]
        exact List.mem_map.2 ⟨j, hjc, rfl⟩
      have hperm2 := neighbor_valid C hC j hj9
      have hidx : (swapAt C (C.indexOf 0) j).indexOf 0 = j := swapAt_zero_indexOf C hC j hj9
      obtain ⟨D, hRD, hDv, hD8⟩ := ih (swapAt C (C.indexOf 0) j) hperm2 (by rw [hidx]; omega)
      exact ⟨D, (reach_step C _ hn).trans hRD, hDv, hD8⟩

/-- Exchanging the values 1 and 2 is the same as swapping their cells. -/
theorem map_swap12_eq (D : Config) (hD : List.Perm D GOAL) :
    D.map (swapT 1 2) = swapAt D (D.indexOf 1) (D.indexOf 2) := by
  have hlen := valid_length hD
  have h1m : (1 : ℕ) ∈ D := hD.mem_iff.2 (by decide)
  have h2m : (2 : ℕ) ∈ D := hD.mem_iff.2 (by decide)
  have hi1 : D.indexOf 1 < D.length := List.indexOf_lt_length.2 h1m
  have hi2 : D.indexOf 2 < D.length := List.indexOf_lt_length.2 h2m
  have hg1 : D[D.indexOf 1] = 1 := List.getElem_indexOf hi1
  have hg2 : D[D.indexOf 2] = 2 := List.getElem_indexOf hi2
  have hnd := valid_nodup hD
  have hne : D.indexOf 1 ≠ D.indexOf 2 := by
    intro h
    have e1 : D[D.indexOf 1]? = some 1 := by rw [List.getElem?_eq_getElem hi1, hg1]
    have e2 : D[D.indexOf 2]? = some 2 := by rw [List.getElem?_eq_getElem hi2, hg2]
    rw [h, e2] at e1
    simp at e1
  refine List.ext_getElem (by rw [List.length_map, length_swapAt]) ?_
  intro k hk1 hk2
  have hkD : k < D.length := by
    rw [List.length_map] at hk1
    exact hk1
  rw [List.getElem_map]
  by_cases hk1e : k = D.indexOf 1
  · subst hk1e
    rw [hg1, swapAt_getElem_fst D (D.indexOf 1) (D.indexOf 2) hi1 hi2 hne hk2, hg2]
    rfl
  · by_cases hk2e : k = D.indexOf 2
    · subst hk2e
      rw [hg2, swapAt_getElem_snd D (D.indexOf 1) (D.indexOf 2) hi1 hi2 hk2, hg1]
      rfl
    · rw [swapAt_getElem_other D (D.indexOf 1) (D.indexOf 2) k hkD hk1e hk2e hk2]
      have hv1 : D[k] ≠ 1 := by
        intro h
        have := List.indexOf_getElem hnd k hkD
        rw [h] at this
        exact hk1e this.symm
      have hv2 : D[k] ≠ 2 := by
        intro h
        have := List.indexOf_getElem hnd k hkD
        rw [h] at this
        exact hk2e this.symm
      unfold swapT
      rw [if_neg hv1, if_neg hv2]

/-- Swapping the cells of tiles 1 and 2 flips the inversion parity. -/
theorem swap12_flip (a : Config) (ha : List.Perm a GOAL) :
    (inversions (swapAt a (a.indexOf 1) (a.indexOf 2)) + inversions a) % 2 = 1 := by
  have h1m : (1 : ℕ) ∈ a := ha.mem_iff.2 (by decide)
  have h2m : (2 : ℕ) ∈ a := ha.mem_iff.2 (by decide)
  have hi1 : a.indexOf 1 < a.length := List.indexOf_lt_length.2 h1m
  have hi2 : a.indexOf 2 < a.length := List.indexOf_lt_length.2 h2m
  have hget1 : a[a.indexOf 1] = 1 := List.getElem_indexOf hi1
  have hget2 : a[a.indexOf 2] = 2 := List.getElem_indexOf hi2
  have hne : a.indexOf 1 ≠ a.indexOf 2 := by
    intro h
    have e1 : a[a.indexOf 1]? = some 1 := by rw [List.getElem?_eq_getElem hi1, hget1]
    have e2 : a[a.indexOf 2]? = some 2 := by rw [List.getElem?_eq_getElem hi2, hget2]
    rw [h, e2] at e1
    simp at e1
  rcases Nat.lt_or_gt_of_ne hne with hlt | hgt
  · obtain ⟨A, B, C, hdec, hA, hB⟩ :=
      exists_split2_at a (a.indexOf 1) (a.indexOf 2) hlt hi2 (by omega)
    rw [hget1, hget2] at hdec
    obtain ⟨-, h1B, -, -, -, h2B, -⟩ := nodup_split2_facts A B C 1 2 (hdec ▸ valid_nodup ha)
    have hswap : swapAt a (a.indexOf 1) (a.indexOf 2) = A ++ 2 :: (B ++ 1 :: C) := by
      rw [show a.indexOf 1 = A.length from hA.symm,
        show a.indexOf 2 = A.length + B.length + 1 from by omega, hdec]
      exact swapAt_split2_lt A B C 1 2
    have hsum := swap12_parity A B C h1B h2B
    rw [hswap]
    conv_lhs => rw [hdec]
    omega
  · obtain ⟨A, B, C, hdec, hA, hB⟩ :=
      exists_split2_at a (a.indexOf 2) (a.indexOf 1) hgt hi1 (by omega)
    rw [hget1, hget2] at hdec
    obtain ⟨-, h2B, -, -, -, h1B, -⟩ := nodup_split2_facts A B C 2 1 (hdec ▸ valid_nodup ha)
    have hswap : swapAt a (a.indexOf 1) (a.indexOf 2) = A ++ 1 :: (B ++ 2 :: C) := by
      rw [show a.indexOf 1 = A.length + B.length + 1 from by omega,
        show a.indexOf 2 = A.length from hA.symm, hdec]
      exact swapAt_split2_gt A B C 2 1
    have hsum := swap12_parity A B C h1B h2B
    rw [hswap]
    conv_lhs => rw [hdec]
    omega

/-- Every solvable valid configuration is reachable from the goal. -/
theorem solvable_reachable (C : Config) (hC : List.Perm C GOAL)
    (hsol : inversions C % 2 = 0) : Reach GOAL C := by
  obtain ⟨D, hCD, hDv, hD8⟩ := blank_to8 8 C hC (by omega)
  have hDpar : inversions D % 2 = 0 := by
    rw [reach_parity C hC D hCD]
    exact hsol
  rcases dichotomy (misplaced D) D hDv hD8 (Nat.le_refl _) with h | h
  · exact h.trans (reach_symm C hC D hCD)
  · exfalso
    have hpar2 : inversions (D.map (swapT 1 2)) % 2 = inversions GOAL % 2 :=
      reach_parity GOAL (List.Perm.refl GOAL) _ h
    have hGpar : inversions GOAL % 2 = 0 := by decide
    rw [map_swap12_eq D hDv] at hpar2
    have hflip := swap12_flip D hDv
    omega

/-- **C2.** For every valid configuration, the solvability classifier
answers true exactly when the configuration is reachable from the goal
by legal moves, which in turn holds exactly when the inversion count
with the blank removed is even. -/
theorem isSolvable_iff_reachable (C : Config) (hC : List.Perm C GOAL) :
    (isSolvable C = true ↔ Reach GOAL C) ∧
    (isSolvable C = true ↔ inversions C % 2 = 0) := by
  have heq : isSolvable C = true ↔ inversions C % 2 = 0 := by
    unfold isSolvable
    simp
  refine ⟨⟨?_, ?_⟩, heq⟩
  · intro h
    exact solvable_reachable C hC (heq.1 h)
  · intro h
    exact heq.2 (reach_parity GOAL (List.Perm.refl GOAL) C h)

/-- Witness for `isSolvable_iff_reachable` at the goal configuration. -/
theorem isSolvable_iff_reachable_witness :
    List.Perm GOAL GOAL ∧
    ((isSolvable GOAL = true ↔ Reach GOAL GOAL) ∧
      (isSolvable GOAL = true ↔ inversions GOAL % 2 = 0)) :=
  ⟨List.Perm.refl GOAL, isSolvable_iff_reachable GOAL (List.Perm.refl GOAL)⟩

/-! ### The concrete scenario (C4) -/

/-! ### Fuel monotonicity and the concrete scenario -/

/-- Once the loop answers, more fuel gives the same answer. -/
theorem loopFuel_mono : ∀ n (st : SState) (r : Option (List Config)),
    loopFuel n st = some r → ∀ m, n ≤ m → loopFuel m st = some r := by
  intro n
  induction n with
  | zero =>
    intro st r h
    exact absurd h (by rw [show loopFuel 0 st = none from rfl]; intro hc; cases hc)
  | succ n ih =>
    intro st r h m hm
    obtain ⟨m2, rfl⟩ : ∃ m2, m = m2 + 1 := ⟨m - 1, by omega⟩
    cases hopn : st.opn with
    | nil =>
      rw [loopFuel_nil n st hopn] at h
      rw [loopFuel_nil m2 st hopn]
      exact h
    | cons x xs =>
      by_cases hg : (popMin x xs).1.s = GOAL
      · rw [loopFuel_cons_goal n st x xs hopn hg] at h
        rw [loopFuel_cons_goal m2 st x xs hopn hg]
        exact h
      · rw [loopFuel_cons_expand n st x xs hopn hg] at h
        rw [loopFuel_cons_expand m2 st x xs hopn hg]
        exact ih _ r h m2 (by omega)

/-- An explicit 18-move solution of the spec's concrete scenario. -/
theorem reach_scenario :
    ChainFrom [8, 1, 2, 7, 0, 3, 6, 5, 4]
      [[8, 1, 2, 0, 7, 3, 6, 5, 4],
       [0, 1, 2, 8, 7, 3, 6, 5, 4],
       [1, 0, 2, 8, 7, 3, 6, 5, 4],
       [1, 2, 0, 8, 7, 3, 6, 5, 4],
       [1, 2, 3, 8, 7, 0, 6, 5, 4],
       [1, 2, 3, 8, 7, 4, 6, 5, 0],
       [1, 2, 3, 8, 7, 4, 6, 0, 5],
       [1, 2, 3, 8, 7, 4, 0, 6, 5],
       [1, 2, 3, 0, 7, 4, 8, 6, 5],
       [1, 2, 3, 7, 0, 4, 8, 6, 5],
       [1, 2, 3, 7, 4, 0, 8, 6, 5],
       [1, 2, 3, 7, 4, 5, 8, 6, 0],
       [1, 2, 3, 7, 4, 5, 8, 0, 6],
       [1, 2, 3, 7, 4, 5, 0, 8, 6],
       [1, 2, 3, 0, 4, 5, 7, 8, 6],
       [1, 2, 3, 4, 0, 5, 7, 8, 6],
       [1, 2, 3, 4, 5, 0, 7, 8, 6],
       [1, 2, 3, 4, 5, 6, 7, 8, 0]] :=
  chainb_sound _ _ (by decide)

/-- **C4.** The spec's concrete scenario is refuted: on the input
`[8,1,2,7,0,3,6,5,4]` the solver does answer, and every sequence it
ever returns is a legal solution ending at the goal of length at most
18 (an explicit 18-move solution exists and the returned path is
minimal), hence never of length 26 as claimed. -/
theorem aStar_c4_length :
    (∃ fuel path, aStar [8, 1, 2, 7, 0, 3, 6, 5, 4] fuel = some (some path)) ∧
    ∀ fuel path, aStar [8, 1, 2, 7, 0, 3, 6, 5, 4] fuel = some (some path) →
      ChainFrom [8, 1, 2, 7, 0, 3, 6, 5, 4] path ∧
      endOf [8, 1, 2, 7, 0, 3, 6, 5, 4] path = GOAL ∧
      path.length ≤ 18 ∧ path.length ≠ 26 := by
  have hval : List.Perm [8, 1, 2, 7, 0, 3, 6, 5, 4] GOAL := by decide
  have hrch : ∃ l, ChainFrom [8, 1, 2, 7, 0, 3, 6, 5, 4] l ∧
      endOf [8, 1, 2, 7, 0, 3, 6, 5, 4] l = GOAL :=
    ⟨_, reach_scenario, by decide⟩
  obtain ⟨fuel0, path0, hret0, hc0, he0, hmin0⟩ := aStar_optimal_full _ hval hrch
  have h18 : path0.length ≤ 18 := by
    have := hmin0 _ reach_scenario (by decide)
    simpa using this
  have hne : [8, 1, 2, 7, 0, 3, 6, 5, 4] ≠ GOAL := by decide
  refine ⟨⟨fuel0, path0, hret0⟩, ?_⟩
  intro fuel path hret
  rw [aStar_eq_loop _ _ hne] at hret hret0
  have h1 := loopFuel_mono fuel0 _ _ hret0 (max fuel fuel0) (Nat.le_max_right _ _)
  have h2 := loopFuel_mono fuel _ _ hret (max fuel fuel0) (Nat.le_max_left _ _)
  rw [h1] at h2
  have hpp : path = path0 := by
    have := Option.some.inj (Option.some.inj h2)
    exact this.symm
  subst hpp
  exact ⟨hc0, he0, h18, by omega⟩

/-- Counterexample to the claimed 26-move answer: the solver does
return a sequence on the scenario input, and that sequence has at most
18 elements, not 26. -/
theorem aStar_c4_counterexample :
    ∃ fuel path, aStar [8, 1, 2, 7, 0, 3, 6, 5, 4] fuel = some (some path) ∧
      path.length ≤ 18 ∧ path.length ≠ 26 := by
  have hval : List.Perm [8, 1, 2, 7, 0, 3, 6, 5, 4] GOAL := by decide
  obtain ⟨fuel0, path0, hret0, hc0, he0, hmin0⟩ :=
    aStar_optimal_full _ hval ⟨_, reach_scenario, by decide⟩
  have h18 : path0.length ≤ 18 := by
    simpa using hmin0 _ reach_scenario (by decide)
  exact ⟨fuel0, path0, hret0, h18, by omega⟩
